import Mathlib

/-!
# ezactions: test-output failure reporter

A shallow embedding of `internal/testoutput.go` (the event index, the outcome
resolver, the event decoder loop, the source locator and the reporter) and of
the workflow commands of `commander.go`, followed by theorems about them.

Modelling conventions

* Go strings are Lean `String`s.  Every string compared or ordered by this code
  comes out of `encoding/json` (valid UTF-8), where the byte-wise order Go uses
  and the code-point order of Lean coincide.
* `*testEvent` pointers are modelled by the event values themselves; a slice is
  a `List`.
* A Go `map[string]testEvents` is an association list with distinct keys.  Go
  iterates a map in an unspecified order, so every `for ... range m` over a map
  goes through an explicit `MapOrder`, an arbitrary rearrangement of the
  entries.
* `sort.Slice`, `encoding/json`, the file system and `go/parser` are parameters,
  constrained only by their documented contract.  `bufio.Scanner`,
  `sort.Strings`, and the functions of `strings` and `path/filepath` (Unix) the
  code calls are modelled directly.
* A Go panic is the `Except.error` branch of the result (for the workflow
  commands, the `panicked` flag of the recorded effect).
* The projections of the event index are embedded twice: on values (lists), and
  once more over explicit backing arrays (`Heap`, `Mem.*`), where writing in
  place and allocating can be told apart; the second is proved to compute the
  first.
-/

namespace Testoutput

/-! ## Data model -/

/-- A byte of the input stream (a value below 256). -/
abbrev Byte := Nat

/-- Go `testEvent`.  `Time` is the instant (`Time.Before` compares instants);
the `Elapsed float64` field is never read by the code and is left out. -/
structure testEvent where
  Time : Int
  Action : String
  Package : String
  Test : String
  Output : String
deriving DecidableEq, Repr

/-- Go `type testEvents []*testEvent`. -/
abbrev testEvents := List testEvent

/-- Go `type testEventsMaps map[string]testEvents`: the entries, keys distinct. -/
abbrev testEventsMaps := List (String × testEvents)

/-- Go `strings.Join(elems, sep)`. -/
def stringsJoin (elems : List String) (sep : String) : String :=
  sep.intercalate elems

/-- Go `func (e *testEvent) key() string`. -/
def testEvent.key (e : testEvent) : String :=
  stringsJoin [e.Package, e.Test] ":"

/-! ## Go maps -/

/-- Go `m[k]` read: the stored slice, or the nil slice when `k` is absent. -/
def testEventsMaps.get (m : testEventsMaps) (k : String) : testEvents :=
  (m.lookup k).getD []

/-- Go `m[k] = v`: overwrite the entry of `k` when present, add one otherwise. -/
def testEventsMaps.set : testEventsMaps → String → testEvents → testEventsMaps
  | [], k, v => [(k, v)]
  | (k', v') :: m, k, v =>
    if k' = k then (k', v) :: m else (k', v') :: testEventsMaps.set m k v

/-- The order in which a `range` loop visits the entries of a map: any
rearrangement of them. -/
structure MapOrder where
  iter : testEventsMaps → testEventsMaps
  perm : ∀ m, (iter m).Perm m

/-- The iteration order that visits entries as stored. -/
def MapOrder.stored : MapOrder := ⟨id, fun _ => List.Perm.refl _⟩

/-- The iteration order that visits entries in reverse. -/
def MapOrder.reversed : MapOrder := ⟨List.reverse, fun m => List.reverse_perm m⟩

/-! ## Sorting (library code) -/

/-- Go `sort.Slice(x, less)`; `less` is given on elements rather than on
indices.  The library promises an ordered rearrangement when `less` is a strict
weak order, and no stability. -/
structure SliceSorter where
  sort : (testEvent → testEvent → Bool) → testEvents → testEvents
  perm : ∀ less l, (sort less l).Perm l
  sorted : ∀ less l, (∀ a, less a a = false) →
    (∀ a b c, less a b = true → less b c = true → less a c = true) →
    (∀ a b c, less a b = false → less b c = false → less a c = false) →
    (sort less l).Pairwise (fun a b => less b a = false)

/-- Go `sort.Strings`: ascending order. -/
def sortStrings (keys : List String) : List String :=
  keys.insertionSort (fun a b => a ≤ b)

/-! ## Event index -/

/-- Go `func (te testEvents) ByAction() testEventsMaps`. -/
def testEvents.ByAction (te : testEvents) : testEventsMaps :=
  te.foldl (fun m ev => m.set ev.Action (m.get ev.Action ++ [ev])) []

/-- Go `func (te testEvents) byKey() testEventsMaps`. -/
def testEvents.byKey (te : testEvents) : testEventsMaps :=
  te.foldl (fun m ev => m.set ev.key (m.get ev.key ++ [ev])) []

/-- Go `func (te testEvents) withTest() testEvents`. -/
def testEvents.withTest (te : testEvents) : testEvents :=
  te.foldl (fun res event => if event.Test ≠ "" then res ++ [event] else res) []

/-- Go `func (te testEvents) withPackage() testEvents`. -/
def testEvents.withPackage (te : testEvents) : testEvents :=
  te.foldl (fun res event =>
    if event.Package ≠ "" ∧ event.Package ≠ "command-line-arguments" then res ++ [event]
    else res) []

/-- Go `func (te testEvents) sortEvents() testEvents`: `sort.Slice` with
`te[i].Time.Before(te[j].Time)`. -/
def testEvents.sortEvents (S : SliceSorter) (te : testEvents) : testEvents :=
  S.sort (fun a b => decide (a.Time < b.Time)) te

/-- Go `func (te testEvents) output() string`. -/
def testEvents.output (S : SliceSorter) (te : testEvents) : String :=
  (testEvents.sortEvents S ((testEvents.ByAction te).get "output")).foldl
    (fun output ev => output ++ ev.Output) ""

/-- Go `var resultActions = []string{"pass", "fail"}`. -/
def resultActions : List String := ["pass", "fail"]

/-- Go `func (te testEvents) result() *testEvent`: `none` is the nil pointer. -/
def testEvents.result : testEvents → Option testEvent
  | [] => none
  | event :: rest =>
    if resultActions.any (fun res => event.Action = res) then some event
    else testEvents.result rest

/-- Go `func (m testEventsMaps) sortedKeys() []string`. -/
def testEventsMaps.sortedKeys (ρ : MapOrder) (m : testEventsMaps) : List String :=
  sortStrings ((ρ.iter m).foldl (fun keys kv => keys ++ [kv.1]) [])

/-- Go `func (m testEventsMaps) filterByResult(desiredResult string) testEventsMaps`. -/
def testEventsMaps.filterByResult (ρ : MapOrder) (m : testEventsMaps)
    (desiredResult : String) : testEventsMaps :=
  (ρ.iter m).foldl (fun out kv =>
    match testEvents.result kv.2 with
    | none => out
    | some event => if event.Action = desiredResult then out.set kv.1 kv.2 else out) []

/-! ## Output sink and workflow commands -/

/-- An `io.Writer`: the chunks written so far, and which `Write` calls it
refuses (given what was written before).  A refused `Write` writes nothing. -/
structure Writer where
  written : List String
  rejects : List String → String → Bool

/-- Go `w.Write(p)`: the writer afterwards, or the write error. -/
def Writer.Write (w : Writer) (p : String) : Except String Writer :=
  if w.rejects w.written p then .error "write failed"
  else .ok { w with written := w.written ++ [p] }

/-- Go `fmt.Fprint(w, s)` with the returned error discarded. -/
def Fprint (w : Writer) (s : String) : Writer :=
  match w.Write s with
  | .ok w' => w'
  | .error _ => w

/-- A writer that accepts every write. -/
def Writer.accepting (written : List String) : Writer := ⟨written, fun _ _ => false⟩

/-- A writer that refuses every write. -/
def Writer.broken : Writer := ⟨[], fun _ _ => true⟩

/-- Go `ezactions.CommanderFileLocation`. -/
structure CommanderFileLocation where
  File : String
  Line : Int
  Col : Int
deriving DecidableEq, Repr

/-- Go `func (w *WorkflowCommander) log(logLevel, msg, fileLoc)`: the text it
formats and hands to `printf`. -/
def WorkflowCommander.log (logLevel msg : String) (fileLoc : Option CommanderFileLocation) :
    String :=
  match fileLoc with
  | none => "::" ++ logLevel ++ "::" ++ msg ++ "\n"
  | some l =>
    "::" ++ logLevel ++ " file=" ++ l.File ++ ",line=" ++ toString l.Line ++ ",col=" ++
      toString l.Col ++ "::" ++ msg ++ "\n"

/-- One call `commander.SetErrorMessage(msg, fileLoc)`. -/
structure ErrorReport where
  msg : String
  fileLoc : Option CommanderFileLocation
deriving DecidableEq, Repr

/-! ## Event decoder -/

/-- Go `bufio.MaxScanTokenSize`, the buffer limit of a default `bufio.Scanner`. -/
def maxScanTokenSize : Nat := 64 * 1024

/-- The lines of a byte stream: the pieces between `'\n'` bytes, a final
unterminated piece included when it is not empty. -/
def splitLines : List Byte → List (List Byte)
  | [] => []
  | b :: rest =>
    if b = 10 then [] :: splitLines rest
    else
      match splitLines rest with
      | [] => [[b]]
      | line :: lines => (b :: line) :: lines

/-- Go `bufio.dropCR`: drop one trailing `'\r'`. -/
def dropCR (data : List Byte) : List Byte :=
  if data.getLast? = some 13 then data.dropLast else data

/-- The tokens that successive `jsonScanner.Scan()` calls deliver before `Scan`
returns false (`bufio.ScanLines` on a default scanner): scanning stops at end of
input, and also (with `ErrTooLong`) at the first line that does not fit the
buffer together with its terminator. -/
def scanTokens (input : List Byte) : List (List Byte) :=
  ((splitLines input).takeWhile (fun line => line.length < maxScanTokenSize)).map dropCR

/-- The body of the `for jsonScanner.Scan()` loop of `parseEvents`, over the
tokens still to come; `decode` is `json.Unmarshal` into a fresh `testEvent`. -/
def parseLoop (decode : List Byte → Option testEvent) :
    List (List Byte) → testEvents → Option Writer → Except String (testEvents × Option Writer)
  | [], events, passthrough => .ok (events, passthrough)
  | line :: lines, events, passthrough =>
    match decode line with
    | none => parseLoop decode lines events passthrough
    | some event =>
      match passthrough with
      | some w =>
        if event.Action = "output" then
          match w.Write event.Output with
          | .error err => .error err
          | .ok w' => parseLoop decode lines (events ++ [event]) (some w')
        else parseLoop decode lines (events ++ [event]) (some w)
      | none => parseLoop decode lines (events ++ [event]) none

/-- Go `func parseEvents(reader io.Reader, passthrough io.Writer) testEvents`;
the result also carries the pass-through writer as the writes left it. -/
def parseEvents (decode : List Byte → Option testEvent) (reader : List Byte)
    (passthrough : Option Writer) : Except String (testEvents × Option Writer) :=
  parseLoop decode (scanTokens reader) [] passthrough

/-! ## Strings and paths (library code, Unix flavour) -/

/-- Go `strings.HasPrefix`. -/
def HasPrefix (s pre : String) : Bool := pre.data.isPrefixOf s.data

/-- Go `strings.TrimPrefix`. -/
def TrimPrefix (s pre : String) : String :=
  if HasPrefix s pre then ⟨s.data.drop pre.data.length⟩ else s

/-- The pieces of a character sequence between occurrences of `sep`; never
empty. -/
def splitChars (sep : Char) : List Char → List (List Char)
  | [] => [[]]
  | c :: rest =>
    if c = sep then [] :: splitChars sep rest
    else
      match splitChars sep rest with
      | [] => [[c]]
      | e :: es => (c :: e) :: es

/-- Go `strings.Split(s, sep)` for a one-character separator. -/
def Split (s : String) (sep : Char) : List String :=
  (splitChars sep s.data).map String.mk

/-- Go `filepath.FromSlash`: the separator already is the slash. -/
def FromSlash (path : String) : String := path

/-- One path element processed by `filepath.Clean`; `out` holds the elements
written so far. -/
def cleanStep (rooted : Bool) (out : List (List Char)) (e : List Char) : List (List Char) :=
  if e = [] ∨ e = ['.'] then out
  else if e = ['.', '.'] then
    match out.getLast? with
    | some last =>
      if last ≠ ['.', '.'] then out.dropLast
      else if rooted then out else out ++ [e]
    | none => if rooted then out else out ++ [e]
  else out ++ [e]

/-- Go `filepath.Clean`. -/
def Clean (path : String) : String :=
  if path = "" then "."
  else
    let rooted := path.data.head? = some '/'
    let out := (splitChars '/' path.data).foldl (cleanStep rooted) []
    let res := (if rooted then "/" else "") ++ "/".intercalate (out.map String.mk)
    if res = "" then "." else res

/-- Go `filepath.Join`. -/
def Join (elem : List String) : String :=
  match elem.dropWhile (fun e => e = "") with
  | [] => ""
  | rest => Clean (stringsJoin rest "/")

/-- The index of the next separator of `s` at or after `i`, or the length. -/
def nextSep (s : List Char) (i : Nat) : Nat :=
  i + ((s.drop i).takeWhile (fun c => c ≠ '/')).length

/-- Go `s[a:b]`. -/
def slice (s : List Char) (a b : Nat) : List Char := (s.drop a).take (b - a)

/-- The loop of `filepath.Rel` that positions `base[b0:bi]` and `targ[t0:ti]`
at the first differing elements; returns `(b0, bi, t0, ti)`. -/
def relLoop (base targ : List Char) : Nat → Nat → Nat → Nat → Nat → Nat × Nat × Nat × Nat
  | 0, b0, bi, t0, ti => (b0, bi, t0, ti)
  | fuel + 1, b0, bi, t0, ti =>
    if bi < base.length ∧ ti < targ.length then
      let bi1 := nextSep base bi
      let ti1 := nextSep targ ti
      if slice targ t0 ti1 ≠ slice base b0 bi1 then (b0, bi1, t0, ti1)
      else
        let bi2 := if bi1 < base.length then bi1 + 1 else bi1
        let ti2 := if ti1 < targ.length then ti1 + 1 else ti1
        relLoop base targ fuel bi2 bi2 ti2 ti2
    else (b0, bi, t0, ti)

/-- Go `filepath.Rel`.  Every round of its loop but the last moves `bi` forward,
so `base.length + 1` rounds are enough. -/
def Rel (basepath targpath : String) : Except String String :=
  let base := Clean basepath
  let targ := Clean targpath
  if targ = base then .ok "."
  else
    let base := if base = "." then [] else base.data
    let targ := targ.data
    let baseSlashed := base.head? = some '/'
    let targSlashed := targ.head? = some '/'
    if baseSlashed ≠ targSlashed then
      .error ("Rel: can't make " ++ targpath ++ " relative to " ++ basepath)
    else
      let (b0, bi, t0, _) := relLoop base targ (base.length + 1) 0 0 0 0
      if slice base b0 bi = ['.', '.'] then
        .error ("Rel: can't make " ++ targpath ++ " relative to " ++ basepath)
      else if b0 ≠ base.length then
        let seps := (slice base b0 base.length).count '/'
        let up := "..".data ++ (List.replicate seps "/..".data).flatten
        if t0 ≠ targ.length then .ok ⟨up ++ '/' :: targ.drop t0⟩ else .ok ⟨up⟩
      else .ok ⟨targ.drop t0⟩

/-! ## Source locator -/

/-- A top-level function declaration met by `ast.Inspect`: its name and the
position `fset.Position(decl.Pos())` resolves to. -/
structure FuncDecl where
  Name : String
  Filename : String
  Line : Int
deriving DecidableEq, Repr

/-- What `findTest` asks of the outside world.  `Stat dir` is `os.Stat`
followed by `IsDir`; `ParseDir dir` is `parser.ParseDir`, the packages in the
order the `range` loop visits them, each given by the function declarations
`ast.Inspect` visits, in visiting order. -/
structure FileSystem where
  Stat : String → Except String Bool
  ParseDir : String → Except String (List (List FuncDecl))

/-- Why `findTest` failed. -/
inductive FindTestError where
  | notContained (rootPkg pkg : String)
  | statFailed (err : String)
  | notDirectory (dir : String)
  | parseFailed (err : String)
  | relFailed (err : String)
deriving DecidableEq, Repr

/-- The `ast.Inspect` callback of `findTest` over the declarations of one
package: every declaration with the wanted name overwrites the position. -/
def inspectPkg (testName : String) (decls : List FuncDecl) (found : String × Int) :
    String × Int :=
  decls.foldl (fun found decl =>
    if decl.Name = testName then (decl.Filename, decl.Line) else found) found

/-- The `for _, pkg := range pkgs` loop of `findTest`, left as soon as a file
name is set. -/
def scanPkgs (testName : String) : List (List FuncDecl) → String × Int → String × Int
  | [], found => found
  | pkg :: pkgs, found =>
    let found := inspectPkg testName pkg found
    if found.1 ≠ "" then found else scanPkgs testName pkgs found

/-- Go `func findTest(pkg, testName, rootPath, rootPkg string) (string, int, error)`;
an error return carries the empty file and line 0. -/
def findTest (fs : FileSystem) (pkg testName rootPath rootPkg : String) :
    Except FindTestError (String × Int) :=
  if ¬ HasPrefix pkg rootPkg then .error (.notContained rootPkg pkg)
  else
    let relPkg := TrimPrefix pkg rootPkg
    let relPkg := FromSlash relPkg
    let dir := Join [rootPath, relPkg]
    match fs.Stat dir with
    | .error err => .error (.statFailed err)
    | .ok isDir =>
      if ¬ isDir then .error (.notDirectory dir)
      else
        let testName := (Split testName '/').headD ""
        match fs.ParseDir dir with
        | .error err => .error (.parseFailed err)
        | .ok pkgs =>
          let found := scanPkgs testName pkgs ("", 0)
          match Rel rootPath found.1 with
          | .error err => .error (.relFailed err)
          | .ok testFile => .ok (TrimPrefix (Join ["..", testFile]) ".", found.2)

/-! ## Reporter -/

/-- The location `OutputFailures` attaches to a report, from what `findTest`
returned. -/
def reportLocation (found : Except FindTestError (String × Int)) :
    Option CommanderFileLocation :=
  match found with
  | .ok (testFile, testLine) =>
    if testLine ≠ 0 then some { File := testFile, Line := testLine, Col := 0 } else none
  | .error _ => none

/-- The `for _, key := range failingTests.sortedKeys()` loop of
`OutputFailures`: the `SetErrorMessage` calls made so far and the output
writer, to which the commander's `Printer` prints each command. -/
def reportLoop (fs : FileSystem) (failingTests : testEventsMaps) (rootPath rootPkg : String) :
    List String → List ErrorReport × Writer → List ErrorReport × Writer
  | [], st => st
  | key :: keys, (reports, output) =>
    let events := failingTests.get key
    match testEvents.result events with
    | none => reportLoop fs failingTests rootPath rootPkg keys (reports, output)
    | some resEvent =>
      let loc := reportLocation (findTest fs resEvent.Package resEvent.Test rootPath rootPkg)
      reportLoop fs failingTests rootPath rootPkg keys
        (reports ++ [⟨resEvent.Output, loc⟩],
          Fprint output (WorkflowCommander.log "error" resEvent.Output loc))

/-- The failing tests `OutputFailures` computes from the decoded events. -/
def failingTests (ρ : MapOrder) (events : testEvents) : testEventsMaps :=
  testEventsMaps.filterByResult ρ
    (testEvents.byKey (testEvents.withPackage (testEvents.withTest events))) "fail"

/-- Go `func OutputFailures(input, output, rootPath, rootPkg, passthrough)`:
the `SetErrorMessage` calls in order and the output writer at the end, or the
panic of `parseEvents`. -/
def OutputFailures (decode : List Byte → Option testEvent) (ρ : MapOrder) (fs : FileSystem)
    (input : List Byte) (output : Writer) (rootPath rootPkg : String) (passthrough : Bool) :
    Except String (List ErrorReport × Writer) :=
  let passthroughWriter := if passthrough then some output else none
  match parseEvents decode input passthroughWriter with
  | .error err => .error err
  | .ok (events, passthroughWriter) =>
    let output := passthroughWriter.getD output
    let failing := failingTests ρ events
    .ok (reportLoop fs failing rootPath rootPkg (testEventsMaps.sortedKeys ρ failing)
      ([], output))

/-! ## Specification-side and auxiliary definitions -/

/-- The fold shared by `ByAction` and `byKey`, started from any map. -/
def groupFold (f : testEvent → String) (m : testEventsMaps) (te : testEvents) : testEventsMaps :=
  te.foldl (fun m ev => m.set (f ev) (m.get (f ev) ++ [ev])) m

/-- The action is one of `resultActions`. -/
def isResultAction (e : testEvent) : Bool :=
  resultActions.any (fun res => e.Action = res)

/-- The group has an outcome and its action is `r`. -/
def hasResult (r : String) (g : testEvents) : Bool :=
  match testEvents.result g with
  | none => false
  | some event => decide (event.Action = r)

/-- The writer takes every write, whatever was written before. -/
def Writer.acceptsAll (w : Writer) : Prop := ∀ hist p, w.rejects hist p = false

/-- The events of the lines a default scanner delivers, in input order. -/
def decodedEvents (decode : List Byte → Option testEvent) (input : List Byte) : testEvents :=
  (scanTokens input).filterMap decode

/-- The texts `parseEvents` passes through: the output of every decoded
event whose action is "output", in order. -/
def passedThrough (events : testEvents) : List String :=
  (events.filter (fun e => decide (e.Action = "output"))).map testEvent.Output

/-- The writer after the given chunks were written to it. -/
def Writer.extend (w : Writer) (chunks : List String) : Writer :=
  { w with written := w.written ++ chunks }

/-- The `SetErrorMessage` call the reporter loop makes for one key, if any. -/
def reportFor (fs : FileSystem) (failing : testEventsMaps) (rootPath rootPkg key : String) :
    Option ErrorReport :=
  (testEvents.result (failing.get key)).map (fun resEvent =>
    ⟨resEvent.Output,
      reportLocation (findTest fs resEvent.Package resEvent.Test rootPath rootPkg)⟩)

/-- An event that takes part in failure reporting: a non-empty test and a
package that is non-empty and not "command-line-arguments". -/
def countsForReport (e : testEvent) : Bool :=
  decide (e.Test ≠ "" ∧ e.Package ≠ "" ∧ e.Package ≠ "command-line-arguments")

/-- The resolved outcome of a test-identity key (specification wording): the
first event with that key, among the events that count, whose action is "pass"
or "fail". -/
def resolvedOutcome (events : testEvents) (k : String) : Option testEvent :=
  ((events.filter countsForReport).filter (fun e => decide (e.key = k))).find?
    (fun e => decide (e.Action = "pass" ∨ e.Action = "fail"))

/-- The resolved outcome of the key is a "fail" event. -/
def resolvesToFail (events : testEvents) (k : String) : Bool :=
  match resolvedOutcome events k with
  | some e => decide (e.Action = "fail")
  | none => false

/-- The distinct test-identity keys whose resolved outcome is "fail"
(specification wording). -/
def failingKeys (events : testEvents) : List String :=
  (((events.filter countsForReport).map testEvent.key).dedup).filter (resolvesToFail events)

/-- The report the specification asks for a failing key: the output text of
its resolved outcome, and the location when `findTest` gave one. -/
def IsReportOf (fs : FileSystem) (events : testEvents) (rootPath rootPkg : String)
    (k : String) (r : ErrorReport) : Prop :=
  ∃ resEvent, resolvedOutcome events k = some resEvent ∧ resEvent.Action = "fail" ∧
    r.msg = resEvent.Output ∧
    r.fileLoc = reportLocation (findTest fs resEvent.Package resEvent.Test rootPath rootPkg)

/-- The writer `OutputFailures` hands to the reporter loop. -/
def outputAfterParse (events : testEvents) (output : Writer) (passthrough : Bool) : Writer :=
  if passthrough then output.extend (passedThrough events) else output

/-- Insertion sort, the algorithm `sort.Slice` runs on a slice of at most 12
elements (6 before Go 1.19): each element moves left past the elements it is
less than, so elements that compare equal keep their order. -/
def insertionSorter : SliceSorter where
  sort less l := l.insertionSort (fun a b => less b a = false)
  perm less l := List.perm_insertionSort _ l
  sorted less l hirr htrans hneg := by
    haveI : IsTotal testEvent (fun a b => less b a = false) := ⟨fun a b => by
      cases hab : less b a with
      | false => exact Or.inl rfl
      | true =>
        cases hba : less a b with
        | false => exact Or.inr rfl
        | true => exact absurd (htrans a b a hba hab) (by simp [hirr a])⟩
    haveI : IsTrans testEvent (fun a b => less b a = false) :=
      ⟨fun a b c hab hbc => hneg c b a hbc hab⟩
    exact List.sorted_insertionSort _ l

/-- The output texts of the events, concatenated in list order. -/
def concatOutputs : testEvents → String
  | [] => ""
  | e :: es => e.Output ++ concatOutputs es

/-- Two "output" events of one test with the same timestamp. -/
def tiedA : testEvent := ⟨0, "output", "p", "T", "a"⟩

/-- The second "output" event with that timestamp. -/
def tiedB : testEvent := ⟨0, "output", "p", "T", "b"⟩

/-- A "run" event of `TestFoo`. -/
def sampleRun : testEvent := ⟨1, "run", "example.com/root/pkg", "TestFoo", ""⟩

/-- The "fail" event of `TestFoo`. -/
def sampleFail : testEvent := ⟨2, "fail", "example.com/root/pkg", "TestFoo", "boom"⟩

/-- A stand-in for `json.Unmarshal` in examples: the line `1` decodes to
`sampleRun`, the line `2` to `sampleFail`, and nothing else decodes. -/
def sampleDecode : List Byte → Option testEvent
  | [49] => some sampleRun
  | [50] => some sampleFail
  | _ => none

/-- The stream of the three lines `1`, `x` (malformed) and `2`. -/
def sampleInput : List Byte := [49, 10, 120, 10, 50, 10]

/-- A file system in which the root holds the directory `pkg`, whose one file
`foo_test.go` declares `TestFoo` at line 10; the root is `/root`, and also the
working directory. -/
def sampleFS : FileSystem where
  Stat dir :=
    if dir = "/root/pkg" ∨ dir = "pkg" then .ok true
    else .error "no such file or directory"
  ParseDir dir :=
    if dir = "/root/pkg" then .ok [[⟨"TestFoo", "/root/pkg/foo_test.go", 10⟩]]
    else if dir = "pkg" then .ok [[⟨"TestFoo", "pkg/foo_test.go", 10⟩]]
    else .error "no such file or directory"

/-- An event of package `a:b`, test `c`. -/
def clashA : testEvent := ⟨0, "fail", "a:b", "c", ""⟩

/-- An event of package `a`, test `b:c`. -/
def clashB : testEvent := ⟨0, "fail", "a", "b:c", ""⟩

/-- A "fail" event of the package "command-line-arguments". -/
def sampleAdHoc : testEvent := ⟨2, "fail", "command-line-arguments", "TestFoo", "boom"⟩

/-- A stand-in for `json.Unmarshal` in examples: the line `2` decodes to
`sampleAdHoc`, and nothing else decodes. -/
def sampleDecodeAdHoc : List Byte → Option testEvent
  | [50] => some sampleAdHoc
  | _ => none

/-- An "output" event at time 1. -/
def earlyOutput : testEvent := ⟨1, "output", "p", "T", "a"⟩

/-- An "output" event at time 2. -/
def lateOutput : testEvent := ⟨2, "output", "p", "T", "b"⟩

/-- A map with a failing group and a group without outcome. -/
def sampleMap : testEventsMaps := [("k1", [sampleRun, sampleFail]), ("k2", [sampleRun])]

/-! ## Definitions for the source locator claims -/

/-- The three values the Go function `findTest` returns: file, line and
error (`none` is nil).  Every error return of `findTest` is
`return "", 0, err`. -/
def findTestReturn (r : Except FindTestError (String × Int)) :
    String × Int × Option FindTestError :=
  match r with
  | .ok (file, line) => (file, line, none)
  | .error err => ("", 0, some err)

/-- The portion of a test name before its first "/" (specification wording),
the whole name when it has none. -/
def leafName (testName : String) : String :=
  ⟨testName.data.takeWhile (fun c => c ≠ '/')⟩

/-- The last declaration of the list that has the given name (specification
wording: the last one encountered wins). -/
def lastMatch (testName : String) (decls : List FuncDecl) : Option FuncDecl :=
  (decls.filter (fun d => decide (d.Name = testName))).getLast?

/-- The position `findTest` keeps for a declaration, or its initial empty
position when there is none. -/
def positionOf (d : Option FuncDecl) : String × Int :=
  match d with
  | some d => (d.Filename, d.Line)
  | none => ("", 0)

/-- What `findTest` makes of the position its scan ended with. -/
def locate (rootPath : String) (found : String × Int) : Except FindTestError (String × Int) :=
  match Rel rootPath found.1 with
  | .error err => .error (.relFailed err)
  | .ok testFile => .ok (TrimPrefix (Join ["..", testFile]) ".", found.2)

/-- A directory whose files belong to two packages (a package and its external
test package), each declaring `TestFoo`. -/
def twoPackageFS : FileSystem where
  Stat dir := if dir = "/root/pkg" then .ok true else .error "no such file or directory"
  ParseDir dir :=
    if dir = "/root/pkg" then
      .ok [[⟨"TestFoo", "/root/pkg/a_test.go", 3⟩], [⟨"TestFoo", "/root/pkg/b_test.go", 7⟩]]
    else .error "no such file or directory"

/-- The first package, in visiting order, that declares a function of the
given name. -/
def firstMatchingPackage (testName : String) (pkgs : List (List FuncDecl)) :
    Option (List FuncDecl) :=
  pkgs.find? (fun p => p.any (fun d => decide (d.Name = testName)))

/-! ## Workflow commander (commander.go) -/

/-- What a command method did to the outside world: the texts `fmt.Print`
wrote to standard output, the texts handed to `Printer`, in order, and whether
the method ended in the panic of calling a nil function. -/
structure CommandEffect where
  stdout : List String
  printed : List String
  panicked : Bool
deriving DecidableEq, Repr

/-- Go `type WorkflowCommander struct { Printer func(string) }`: `hasPrinter`
tells whether the `Printer` field is non-nil; what the printer is handed is
recorded in the `CommandEffect`. -/
structure WorkflowCommander where
  hasPrinter : Bool
deriving DecidableEq, Repr

/-- Go `func (w *WorkflowCommander) printf(pattern string, args ...interface{})`,
given the text `out` that `fmt.Sprintf(pattern, args...)` produced: print `out`
when `w.Printer == nil`, then call `w.Printer(out)` in every case. -/
def WorkflowCommander.printf (w : WorkflowCommander) (out : String) : CommandEffect :=
  let stdout := if w.hasPrinter = false then [out] else []
  if w.hasPrinter then { stdout := stdout, printed := [out], panicked := false }
  else { stdout := stdout, printed := [], panicked := true }

/-- The method `log` on a commander: it formats the text `WorkflowCommander.log`
and hands it to `printf`. -/
def WorkflowCommander.logCommand (w : WorkflowCommander) (logLevel msg : String)
    (fileLoc : Option CommanderFileLocation) : CommandEffect :=
  w.printf (WorkflowCommander.log logLevel msg fileLoc)

/-- Go `func (w *WorkflowCommander) SetEnvironmentVariable(name, value string)`. -/
def WorkflowCommander.SetEnvironmentVariable (w : WorkflowCommander) (name value : String) :
    CommandEffect :=
  w.printf ("::set-env name=" ++ name ++ "::" ++ value ++ "\n")

/-- Go `func (w *WorkflowCommander) SetOutputParameter(name, value string)`. -/
def WorkflowCommander.SetOutputParameter (w : WorkflowCommander) (name value : String) :
    CommandEffect :=
  w.printf ("::set-output name=" ++ name ++ "::" ++ value ++ "\n")

/-- Go `func (w *WorkflowCommander) AddSystemPath(path string)`. -/
def WorkflowCommander.AddSystemPath (w : WorkflowCommander) (path : String) : CommandEffect :=
  w.printf ("::add-path::" ++ path ++ "\n")

/-- Go `func (w *WorkflowCommander) SetDebugMessage(msg string, fileLoc *CommanderFileLocation)`. -/
def WorkflowCommander.SetDebugMessage (w : WorkflowCommander) (msg : String)
    (fileLoc : Option CommanderFileLocation) : CommandEffect :=
  w.logCommand "debug" msg fileLoc

/-- Go `func (w *WorkflowCommander) SetWarningMessage(msg string, fileLoc *CommanderFileLocation)`. -/
def WorkflowCommander.SetWarningMessage (w : WorkflowCommander) (msg : String)
    (fileLoc : Option CommanderFileLocation) : CommandEffect :=
  w.logCommand "warning" msg fileLoc

/-- Go `func (w *WorkflowCommander) SetErrorMessage(msg string, fileLoc *CommanderFileLocation)`. -/
def WorkflowCommander.SetErrorMessage (w : WorkflowCommander) (msg : String)
    (fileLoc : Option CommanderFileLocation) : CommandEffect :=
  w.logCommand "error" msg fileLoc

/-- Go `func (w *WorkflowCommander) MaskValueInLog(value string)`. -/
def WorkflowCommander.MaskValueInLog (w : WorkflowCommander) (value : String) : CommandEffect :=
  w.printf ("::add-mask::" ++ value ++ "\n")

/-- Go `func (w *WorkflowCommander) StopWorkflowCommands(endtoken string) func()`:
the effect of the call itself. -/
def WorkflowCommander.StopWorkflowCommands (w : WorkflowCommander) (endtoken : String) :
    CommandEffect :=
  w.printf ("::stop-commands::" ++ endtoken ++ "\n")

/-- The effect of calling the function `StopWorkflowCommands` returned. -/
def WorkflowCommander.restartWorkflowCommands (w : WorkflowCommander) (endtoken : String) :
    CommandEffect :=
  w.printf ("::" ++ endtoken ++ "::\n")

/-- Modelled from the spec: the integer `OutputFailures` returns.  The source
text of the function has no `return` statement; the specification (4.5, step 4)
reads "return the count of failing tests reported", taken here as
`len(failingTests)`.  A panic of `parseEvents` returns nothing. -/
def OutputFailures.returned (decode : List Byte → Option testEvent) (ρ : MapOrder)
    (input : List Byte) (output : Writer) (passthrough : Bool) : Except String Int :=
  match parseEvents decode input (if passthrough then some output else none) with
  | .error err => .error err
  | .ok (events, _) => .ok (failingTests ρ events).length

/-! ## Definitions for the sorting claim -/

/-- The loop `for i := a + 6; i < b; i++ { if data.Less(i, i-6) { data.Swap(i, i-6) } }`
of Go's `quickSort_func` (Go 1.18 and earlier) on a slice of at most 12
elements, given as its first six elements and the rest: element `i` and element
`i-6` change places when the later one is less. -/
def shellSwap (less : testEvent → testEvent → Bool) :
    testEvents → testEvents → testEvents × testEvents
  | x :: xs, y :: ys =>
    let r := shellSwap less xs ys
    if less y x then (y :: r.1, x :: r.2) else (x :: r.1, y :: r.2)
  | [], ys => ([], ys)
  | xs, [] => (xs, [])

/-- What `sort.Slice` runs in Go 1.18 and earlier on a slice of 2 to 12
elements: the pass with gap 6, then insertion sort.  (On longer slices Go
partitions first; there this is just one more ordered rearrangement.) -/
def shellSorter : SliceSorter where
  sort less l :=
    insertionSorter.sort less
      ((shellSwap less (l.take 6) (l.drop 6)).1 ++ (shellSwap less (l.take 6) (l.drop 6)).2)
  perm less l := by
    have hswap : ∀ xs ys : testEvents,
        ((shellSwap less xs ys).1 ++ (shellSwap less xs ys).2).Perm (xs ++ ys) := by
      intro xs
      induction xs with
      | nil => intro ys; simp [shellSwap]
      | cons x xs ih =>
        intro ys
        cases ys with
        | nil => simp [shellSwap]
        | cons y ys =>
          have h := ih ys
          by_cases hl : less y x = true
          · simp only [shellSwap, hl, if_true, List.cons_append]
            exact (List.Perm.cons y (List.perm_middle.trans (List.Perm.cons x h))).trans
              ((List.Perm.swap x y _).trans (List.Perm.cons x List.perm_middle.symm))
          · simp only [shellSwap, hl, if_false, List.cons_append]
            exact List.Perm.cons x (List.perm_middle.trans
              ((List.Perm.cons y h).trans List.perm_middle.symm))
    exact (insertionSorter.perm less _).trans
      ((hswap (l.take 6) (l.drop 6)).trans (by rw [List.take_append_drop]))
  sorted less l := insertionSorter.sorted less _

/-- An event at time 2 followed by six events at time 1, told apart by their
output text. -/
def sevenEvents : testEvents :=
  [⟨2, "output", "p", "T", "0"⟩, ⟨1, "output", "p", "T", "1"⟩, ⟨1, "output", "p", "T", "2"⟩,
   ⟨1, "output", "p", "T", "3"⟩, ⟨1, "output", "p", "T", "4"⟩, ⟨1, "output", "p", "T", "5"⟩,
   ⟨1, "output", "p", "T", "6"⟩]

/-! ## Slices in memory

The projections once more, now with the memory a Go slice lives in, to tell
which of them write to storage that existed before the call. -/

/-- A backing array: its capacity and the elements written to it so far. -/
structure Backing where
  cap : Nat
  elems : testEvents
deriving DecidableEq, Repr

/-- The backing arrays allocated so far, in order of allocation. -/
abbrev Heap := List Backing

/-- A non-nil slice value: its backing array and its length.  The code never
reslices, so a slice starts at the first element of its array and its capacity
is the capacity of the array. -/
structure SliceRef where
  arr : Nat
  len : Nat
deriving DecidableEq, Repr

/-- A Go value of type `testEvents`; `none` is the nil slice. -/
abbrev GoSlice := Option SliceRef

/-- Go `len(s)`. -/
def sliceLen (s : GoSlice) : Nat :=
  match s with
  | none => 0
  | some r => r.len

/-- The events a slice holds, read from memory. -/
def Heap.view (h : Heap) (s : GoSlice) : testEvents :=
  match s with
  | none => []
  | some r =>
    match h[r.arr]? with
    | some b => b.elems.take r.len
    | none => []

/-- Go `testEvents{}`: an empty slice that is not nil, of capacity 0. -/
def Heap.emptySlice (h : Heap) : Heap × GoSlice :=
  (h ++ [⟨0, []⟩], some ⟨h.length, 0⟩)

/-- Go `append(s, x)`: when the capacity allows, `x` is written into the
backing array of `s`, right after its last element; otherwise a larger array is
allocated (of the capacity `grow` chooses, at least the new length), the
elements are copied and `x` is added. -/
def Heap.append (grow : Nat → Nat) (h : Heap) (s : GoSlice) (x : testEvent) : Heap × GoSlice :=
  match s with
  | none => (h ++ [⟨max 1 (grow 0), [x]⟩], some ⟨h.length, 1⟩)
  | some r =>
    match h[r.arr]? with
    | none => (h, some r)
    | some b =>
      if r.len < b.cap then
        (h.set r.arr ⟨b.cap, b.elems.take r.len ++ x :: b.elems.drop (r.len + 1)⟩,
          some ⟨r.arr, r.len + 1⟩)
      else
        (h ++ [⟨max (r.len + 1) (grow b.cap), b.elems.take r.len ++ [x]⟩],
          some ⟨h.length, r.len + 1⟩)

/-- Go `sort.Slice(s, less)`: the elements of `s` are rearranged inside its
backing array. -/
def Heap.sortSlice (S : SliceSorter) (less : testEvent → testEvent → Bool) (h : Heap)
    (s : GoSlice) : Heap :=
  match s with
  | none => h
  | some r =>
    match h[r.arr]? with
    | none => h
    | some b => h.set r.arr ⟨b.cap, S.sort less (b.elems.take r.len) ++ b.elems.drop r.len⟩

/-- Go `for _, ev := range te { body }`: the length is taken once, and each
element is read from memory when its turn comes. -/
def rangeSlice {σ : Type} (te : GoSlice) (body : Heap × σ → testEvent → Heap × σ)
    (st : Heap × σ) : Heap × σ :=
  (List.range (sliceLen te)).foldl (fun st i =>
    match (st.1.view te)[i]? with
    | some ev => body st ev
    | none => st) st

/-- A Go value of type `testEventsMaps`: the entries, keys distinct. -/
abbrev SliceMap := List (String × GoSlice)

/-- Go `m[k]` read: the stored slice, or nil when `k` is absent. -/
def SliceMap.get (m : SliceMap) (k : String) : GoSlice :=
  (m.lookup k).getD none

/-- Go `m[k] = v`: overwrite the entry of `k` when present, add one otherwise. -/
def SliceMap.set : SliceMap → String → GoSlice → SliceMap
  | [], k, v => [(k, v)]
  | (k', v') :: m, k, v =>
    if k' = k then (k', v) :: m else (k', v') :: SliceMap.set m k v

/-- The order in which a `range` loop visits the entries of a map of slices. -/
structure SliceMapOrder where
  iter : SliceMap → SliceMap
  perm : ∀ m, (iter m).Perm m

/-- The statement `m[k] = append(m[k], ev)` on a map of slices. -/
def Mem.appendToGroup (grow : Nat → Nat) (k : String) (st : Heap × SliceMap) (ev : testEvent) :
    Heap × SliceMap :=
  let r := st.1.append grow (st.2.get k) ev
  (r.1, st.2.set k r.2)

/-- `ByAction` in memory. -/
def Mem.ByAction (grow : Nat → Nat) (h : Heap) (te : GoSlice) : Heap × SliceMap :=
  rangeSlice te (fun st ev => Mem.appendToGroup grow ev.Action st ev) (h, [])

/-- `byKey` in memory. -/
def Mem.byKey (grow : Nat → Nat) (h : Heap) (te : GoSlice) : Heap × SliceMap :=
  rangeSlice te (fun st ev => Mem.appendToGroup grow ev.key st ev) (h, [])

/-- `withTest` in memory. -/
def Mem.withTest (grow : Nat → Nat) (h : Heap) (te : GoSlice) : Heap × GoSlice :=
  rangeSlice te (fun st event =>
    if event.Test ≠ "" then st.1.append grow st.2 event else st) h.emptySlice

/-- `withPackage` in memory. -/
def Mem.withPackage (grow : Nat → Nat) (h : Heap) (te : GoSlice) : Heap × GoSlice :=
  rangeSlice te (fun st event =>
    if event.Package ≠ "" ∧ event.Package ≠ "command-line-arguments" then
      st.1.append grow st.2 event
    else st) h.emptySlice

/-- `sortEvents` in memory: `sort.Slice(te, ...)`, then `return te`. -/
def Mem.sortEvents (S : SliceSorter) (h : Heap) (te : GoSlice) : Heap × GoSlice :=
  (h.sortSlice S (fun a b => decide (a.Time < b.Time)) te, te)

/-- `output` in memory. -/
def Mem.output (grow : Nat → Nat) (S : SliceSorter) (h : Heap) (te : GoSlice) :
    Heap × String :=
  let byAction := Mem.ByAction grow h te
  let sorted := Mem.sortEvents S byAction.1 (byAction.2.get "output")
  rangeSlice sorted.2 (fun st ev => (st.1, st.2 ++ ev.Output)) (sorted.1, "")

/-- `result` in memory: it only reads the events. -/
def Mem.result (h : Heap) (te : GoSlice) : Heap × Option testEvent :=
  (h, testEvents.result (h.view te))

/-- `filterByResult` in memory: it only reads the groups, and stores the
slices it keeps in a new map. -/
def Mem.filterByResult (ρ : SliceMapOrder) (h : Heap) (m : SliceMap) (desiredResult : String) :
    Heap × SliceMap :=
  (h, (ρ.iter m).foldl (fun out kv =>
    match testEvents.result (h.view kv.2) with
    | none => out
    | some event => if event.Action = desiredResult then out.set kv.1 kv.2 else out) [])

/-- A memory with one array holding the later event before the earlier one. -/
def sampleHeap : Heap := [⟨2, [lateOutput, earlyOutput]⟩]

/-- The slice of both events of `sampleHeap`. -/
def sampleSlice : GoSlice := some ⟨0, 2⟩

/-- The slice refers to an array of the memory that holds at least as many
elements as the slice is long (the nil slice always does). -/
def Heap.Holds (h : Heap) (s : GoSlice) : Prop :=
  ∀ r, s = some r → ∃ b, h[r.arr]? = some b ∧ r.len ≤ b.elems.length

/-- The slice lives in an array allocated at position `n` or later (the nil
slice has no array). -/
def NewSince (n : Nat) (s : GoSlice) : Prop :=
  ∀ r, s = some r → n ≤ r.arr

/-- The groups of a map of slices, read from memory. -/
def Heap.viewMap (h : Heap) (m : SliceMap) : testEventsMaps :=
  m.map (fun kv => (kv.1, h.view kv.2))

/-- Every array of the memory `h` is still there in `h'`, with the same
content; `h'` may hold new arrays after them. -/
def Untouched (h h' : Heap) : Prop := ∃ ext, h' = h ++ ext

/-! ## Definitions for the claims on the reports per test -/

/-- The test an event belongs to: its package and its test name. -/
def testIdentity (e : testEvent) : String × String := (e.Package, e.Test)

/-- The resolved outcome of a test (specification wording): the first event of
that package and that test name, among the events that count, whose action is
"pass" or "fail". -/
def outcomeOfTest (events : testEvents) (id : String × String) : Option testEvent :=
  ((events.filter countsForReport).filter
    (fun e => decide (e.Package = id.1 ∧ e.Test = id.2))).find?
    (fun e => decide (e.Action = "pass" ∨ e.Action = "fail"))

/-- The resolved outcome of the test is a "fail" event. -/
def testFails (events : testEvents) (id : String × String) : Bool :=
  match outcomeOfTest events id with
  | some e => decide (e.Action = "fail")
  | none => false

/-- The distinct tests, as (package, test) pairs, whose resolved outcome is
"fail" (specification wording), in order of first appearance. -/
def failingPairs (events : testEvents) : List (String × String) :=
  (((events.filter countsForReport).map testIdentity).dedup).filter (testFails events)

/-- The package and the test name of a pair, joined with a colon. -/
def pairKey (id : String × String) : String := id.1 ++ ":" ++ id.2

/-- A stream of lines: each line followed by a newline. -/
def encodeLines (lines : List (List Byte)) : List Byte :=
  lines.flatMap (fun l => l ++ [10])

/-- A line of a stream that a default line scanner hands over as it is: no
newline inside, no carriage return at its end, shorter than the scanner's
buffer. -/
@[reducible] def PlainLine (l : List Byte) : Prop :=
  10 ∉ l ∧ l.getLast? ≠ some 13 ∧ l.length < maxScanTokenSize

/-- No event that counts has a colon in its package. -/
@[reducible] def NoColonPackages (events : testEvents) : Prop :=
  ∀ e ∈ events, countsForReport e = true → ':' ∉ e.Package.data

/-- The report the specification asks for a failing test: its message is the
output text of the test's resolved outcome; it has a location exactly when
`findTest`, asked for the test's package and name, returned no error and a
non-zero line, and then that file and line; when `findTest` returned an error
it is the message without a location. -/
def IsReportOfTest (fs : FileSystem) (events : testEvents) (rootPath rootPkg : String)
    (id : String × String) (r : ErrorReport) : Prop :=
  ∃ resEvent, outcomeOfTest events id = some resEvent ∧
    r.msg = resEvent.Output ∧
    (r.fileLoc ≠ none ↔ ∃ file line,
      findTest fs id.1 id.2 rootPath rootPkg = .ok (file, line) ∧ line ≠ 0) ∧
    (∀ file line, findTest fs id.1 id.2 rootPath rootPkg = .ok (file, line) →
      line ≠ 0 → r.fileLoc = some ⟨file, line, 0⟩) ∧
    (∀ err, findTest fs id.1 id.2 rootPath rootPkg = .error err →
      r = ⟨resEvent.Output, none⟩)

/-- A "pass" event of package `a:b`, test `c`. -/
def clashPass : testEvent := ⟨1, "pass", "a:b", "c", ""⟩

/-- A "fail" event of package `a:b`, test `c`, with the output `X`. -/
def clashFailX : testEvent := ⟨1, "fail", "a:b", "c", "X"⟩

/-- A "fail" event of package `a`, test `b:c`, with the output `Y`. -/
def clashFailY : testEvent := ⟨2, "fail", "a", "b:c", "Y"⟩

/-- A stand-in for `json.Unmarshal` in examples: the line `1` decodes to
`clashPass`, the line `2` to `clashFailY`, the line `3` to `clashFailX`, and
nothing else decodes. -/
def clashDecode : List Byte → Option testEvent
  | [49] => some clashPass
  | [50] => some clashFailY
  | [51] => some clashFailX
  | _ => none

/-- A "pass" event of the test `TestBar` of the sample package. -/
def samplePass : testEvent := ⟨1, "pass", "example.com/root/pkg", "TestBar", ""⟩

/-- A stand-in for `json.Unmarshal` in examples: the line `1` decodes to
`samplePass`, the line `2` to `sampleFail`, and nothing else decodes. -/
def twoTestsDecode : List Byte → Option testEvent
  | [49] => some samplePass
  | [50] => some sampleFail
  | _ => none

/-- A file system in which the directory `pkg` of the root `/root` holds one
file, `table_test.go`, declaring `TestTable` at line 7 and `TestOther` at
line 12. -/
def tableFS : FileSystem where
  Stat dir := if dir = "/root/pkg" then .ok true else .error "no such file or directory"
  ParseDir dir :=
    if dir = "/root/pkg" then
      .ok [[⟨"TestTable", "/root/pkg/table_test.go", 7⟩,
        ⟨"TestOther", "/root/pkg/table_test.go", 12⟩]]
    else .error "no such file or directory"

/-! # Theorems -/

/-! ## Helper lemmas: appending folds, maps -/

theorem foldl_append_if {α : Type} (p : α → Prop) [DecidablePred p] (l acc : List α) :
    l.foldl (fun res x => if p x then res ++ [x] else res) acc
      = acc ++ l.filter (fun x => decide (p x)) := by
  induction l generalizing acc with
  | nil => simp
  | cons x xs ih =>
    simp only [List.foldl_cons, ih]
    by_cases hx : p x <;> simp [hx, List.filter_cons]

theorem foldl_append_map {α β : Type} (f : α → β) (l : List α) (acc : List β) :
    l.foldl (fun res x => res ++ [f x]) acc = acc ++ l.map f := by
  induction l generalizing acc with
  | nil => simp
  | cons x xs ih => simp [List.foldl_cons, ih]

theorem withTest_eq_filter (te : testEvents) :
    testEvents.withTest te = te.filter (fun e => decide (e.Test ≠ "")) := by
  unfold testEvents.withTest
  rw [foldl_append_if (fun e : testEvent => e.Test ≠ "")]
  simp

theorem withPackage_eq_filter (te : testEvents) :
    testEvents.withPackage te = te.filter
      (fun e => decide (e.Package ≠ "" ∧ e.Package ≠ "command-line-arguments")) := by
  unfold testEvents.withPackage
  rw [foldl_append_if (fun e : testEvent =>
    e.Package ≠ "" ∧ e.Package ≠ "command-line-arguments")]
  simp

theorem lookup_cons_pair (k k' : String) (v : testEvents) (m : testEventsMaps) :
    List.lookup k ((k', v) :: m) = if k = k' then some v else List.lookup k m := by
  by_cases h : k = k'
  · subst h; simp [List.lookup]
  · have : (k == k') = false := by simpa using h
    simp [List.lookup, this, h]

theorem lookup_set (m : testEventsMaps) (k k' : String) (v : testEvents) :
    (testEventsMaps.set m k v).lookup k' = if k' = k then some v else m.lookup k' := by
  induction m with
  | nil => simp [testEventsMaps.set, lookup_cons_pair]
  | cons p m ih =>
    obtain ⟨a, b⟩ := p
    simp only [testEventsMaps.set]
    by_cases h : a = k
    · subst h
      simp only [if_true, lookup_cons_pair]
      by_cases h2 : k' = a <;> simp [h2]
    · simp only [h, if_false, lookup_cons_pair, ih]
      by_cases h2 : k' = a
      · subst h2; simp [h]
      · simp [h2]

theorem keys_set (m : testEventsMaps) (k : String) (v : testEvents) :
    (testEventsMaps.set m k v).map Prod.fst
      = if k ∈ m.map Prod.fst then m.map Prod.fst else m.map Prod.fst ++ [k] := by
  induction m with
  | nil => simp [testEventsMaps.set]
  | cons p m ih =>
    obtain ⟨a, b⟩ := p
    simp only [testEventsMaps.set]
    by_cases h : a = k
    · subst h; simp
    · simp only [h, if_false, List.map_cons, ih]
      by_cases h2 : k ∈ m.map Prod.fst
      · have : k ∈ a :: m.map Prod.fst := List.mem_cons_of_mem _ h2
        simp only [h2, if_true, this]
      · have : k ∉ a :: m.map Prod.fst := by
          intro hc
          rcases List.mem_cons.1 hc with hc | hc
          · exact h hc.symm
          · exact h2 hc
        simp only [h2, if_false, this, List.cons_append]

theorem set_of_not_mem (m : testEventsMaps) (k : String) (v : testEvents)
    (h : k ∉ m.map Prod.fst) : testEventsMaps.set m k v = m ++ [(k, v)] := by
  induction m with
  | nil => simp [testEventsMaps.set]
  | cons p m ih =>
    obtain ⟨a, b⟩ := p
    have h1 : a ≠ k := fun e => h (by simp [e])
    have h2 : k ∉ m.map Prod.fst := fun e => h (by simp at e ⊢; exact Or.inr e)
    simp [testEventsMaps.set, h1, ih h2]

theorem nodup_keys_set (m : testEventsMaps) (k : String) (v : testEvents)
    (h : (m.map Prod.fst).Nodup) : ((testEventsMaps.set m k v).map Prod.fst).Nodup := by
  rw [keys_set]
  by_cases hk : k ∈ m.map Prod.fst
  · simp only [hk, if_true]; exact h
  · simp only [hk, if_false]
    exact List.Nodup.append h (List.nodup_singleton k) (by
      intro x hx hx2
      rw [List.mem_singleton] at hx2
      exact hk (hx2 ▸ hx))

theorem lookup_eq_some_iff (m : testEventsMaps) (h : (m.map Prod.fst).Nodup)
    (k : String) (g : testEvents) : m.lookup k = some g ↔ (k, g) ∈ m := by
  induction m with
  | nil => simp
  | cons p m ih =>
    obtain ⟨a, b⟩ := p
    rw [List.map_cons, List.nodup_cons] at h
    rw [lookup_cons_pair]
    by_cases hk : k = a
    · subst hk
      simp only [if_true, List.mem_cons, Prod.mk.injEq, true_and, Option.some.injEq]
      constructor
      · intro e; exact Or.inl e.symm
      · rintro (e | e)
        · exact e.symm
        · exact absurd (List.mem_map_of_mem Prod.fst e) h.1
    · simp only [hk, if_false, List.mem_cons, Prod.mk.injEq, false_and, false_or]
      exact ih h.2

theorem lookup_eq_none_iff (m : testEventsMaps) (k : String) :
    m.lookup k = none ↔ k ∉ m.map Prod.fst := by
  induction m with
  | nil => simp
  | cons p m ih =>
    obtain ⟨a, b⟩ := p
    rw [lookup_cons_pair]
    by_cases hk : k = a
    · subst hk; simp
    · simp [hk, ih]

/-! ## Helper lemmas: grouping -/

theorem byKey_eq_groupFold (te : testEvents) :
    testEvents.byKey te = groupFold testEvent.key [] te := rfl

theorem ByAction_eq_groupFold (te : testEvents) :
    testEvents.ByAction te = groupFold testEvent.Action [] te := rfl

theorem groupFold_nodup (f : testEvent → String) (te : testEvents) (m : testEventsMaps)
    (h : (m.map Prod.fst).Nodup) : ((groupFold f m te).map Prod.fst).Nodup := by
  induction te generalizing m with
  | nil => exact h
  | cons e te ih =>
    simp only [groupFold, List.foldl_cons]
    exact ih _ (nodup_keys_set m _ _ h)

theorem groupFold_get (f : testEvent → String) (te : testEvents) (m : testEventsMaps)
    (k : String) :
    (groupFold f m te).get k = m.get k ++ te.filter (fun e => decide (f e = k)) := by
  induction te generalizing m with
  | nil => simp [groupFold]
  | cons e te ih =>
    have step : groupFold f m (e :: te)
        = groupFold f (m.set (f e) (m.get (f e) ++ [e])) te := rfl
    rw [step, ih]
    by_cases hk : f e = k
    · subst hk
      simp [testEventsMaps.get, lookup_set, List.filter_cons]
    · have hk2 : ¬ k = f e := fun h => hk h.symm
      simp [testEventsMaps.get, lookup_set, List.filter_cons, hk, hk2]

theorem groupFold_keys (f : testEvent → String) (te : testEvents) (m : testEventsMaps)
    (k : String) :
    k ∈ (groupFold f m te).map Prod.fst ↔ k ∈ m.map Prod.fst ∨ ∃ e ∈ te, f e = k := by
  induction te generalizing m with
  | nil => simp [groupFold]
  | cons e te ih =>
    have step : groupFold f m (e :: te)
        = groupFold f (m.set (f e) (m.get (f e) ++ [e])) te := rfl
    rw [step, ih, keys_set]
    by_cases hm : f e ∈ m.map Prod.fst
    · simp only [hm, if_true, List.mem_cons, exists_eq_or_imp]
      constructor
      · rintro (h | h)
        · exact Or.inl h
        · exact Or.inr (Or.inr h)
      · rintro (h | h | h)
        · exact Or.inl h
        · exact Or.inl (h ▸ hm)
        · exact Or.inr h
    · have hc : (f e = k) ↔ (k = f e) := eq_comm
      simp only [hm, if_false, List.mem_append, List.mem_singleton, List.mem_cons,
        exists_eq_or_imp, List.not_mem_nil, or_false]
      tauto

/-- The group `byKey` stores under a key holds, in order, the events with
that key. -/
theorem byKey_get (te : testEvents) (k : String) :
    (testEvents.byKey te).get k = te.filter (fun e => decide (e.key = k)) := by
  rw [byKey_eq_groupFold, groupFold_get]; simp [testEventsMaps.get]

theorem byKey_nodup (te : testEvents) : ((testEvents.byKey te).map Prod.fst).Nodup := by
  rw [byKey_eq_groupFold]; exact groupFold_nodup _ _ _ (by simp)

theorem byKey_keys (te : testEvents) (k : String) :
    k ∈ (testEvents.byKey te).map Prod.fst ↔ ∃ e ∈ te, e.key = k := by
  rw [byKey_eq_groupFold, groupFold_keys]; simp

theorem get_of_mem (m : testEventsMaps) (h : (m.map Prod.fst).Nodup) (k : String)
    (g : testEvents) (hkg : (k, g) ∈ m) : m.get k = g := by
  simp [testEventsMaps.get, (lookup_eq_some_iff m h k g).2 hkg]

theorem byKey_mem (te : testEvents) (k : String) (g : testEvents)
    (h : (k, g) ∈ testEvents.byKey te) :
    g = te.filter (fun e => decide (e.key = k)) := by
  rw [← byKey_get, get_of_mem _ (byKey_nodup te) k g h]

/-! ## Helper lemmas: outcome resolver -/

theorem isResultAction_iff (e : testEvent) :
    isResultAction e = true ↔ e.Action = "pass" ∨ e.Action = "fail" := by
  simp [isResultAction, resultActions]

theorem result_eq_find (te : testEvents) : testEvents.result te = te.find? isResultAction := by
  induction te with
  | nil => rfl
  | cons e te ih =>
    simp only [testEvents.result, List.find?_cons]
    by_cases h : isResultAction e = true
    · have h' := h
      unfold isResultAction at h'
      simp [h, h']
    · have h' := h
      unfold isResultAction at h'
      simp only [h', if_false, ih]
      simp only [Bool.not_eq_true] at h
      simp [h]

/-! ## Helper lemmas: filtering a map, sorted keys -/

theorem hasResult_iff (r : String) (g : testEvents) :
    hasResult r g = true ↔ ∃ e, testEvents.result g = some e ∧ e.Action = r := by
  unfold hasResult
  cases testEvents.result g <;> simp

theorem filterFold_eq (r : String) (l out : testEventsMaps)
    (h : ((out ++ l).map Prod.fst).Nodup) :
    l.foldl (fun out kv =>
      match testEvents.result kv.2 with
      | none => out
      | some event => if event.Action = r then out.set kv.1 kv.2 else out) out
      = out ++ l.filter (fun kv => hasResult r kv.2) := by
  induction l generalizing out with
  | nil => simp
  | cons kv l ih =>
    have hnd : ((out ++ [kv] ++ l).map Prod.fst).Nodup := by simpa using h
    have hk : kv.1 ∉ out.map Prod.fst := by
      intro hc
      rw [List.map_append, List.map_cons] at h
      exact (List.nodup_append.1 h).2.2 hc (List.mem_cons_self _ _)
    have hout : ((out ++ l).map Prod.fst).Nodup := by
      rw [List.map_append] at h ⊢
      rw [List.map_cons] at h
      exact h.sublist (List.Sublist.append_left (List.sublist_cons_self _ _) _)
    simp only [List.foldl_cons, List.filter_cons]
    cases hres : testEvents.result kv.2 with
    | none =>
      have hr : hasResult r kv.2 = false := by simp [hasResult, hres]
      simp only [hr]
      rw [ih out hout]; simp
    | some event =>
      by_cases ha : event.Action = r
      · have hr : hasResult r kv.2 = true := by simp [hasResult, hres, ha]
        simp only [hr, ha, if_true]
        rw [set_of_not_mem _ _ _ hk, ih _ hnd]; simp
      · have hr : hasResult r kv.2 = false := by simp [hasResult, hres, ha]
        simp only [hr, ha, if_false]
        rw [ih out hout]; simp

theorem filterByResult_eq (ρ : MapOrder) (m : testEventsMaps) (r : String)
    (h : (m.map Prod.fst).Nodup) :
    testEventsMaps.filterByResult ρ m r = (ρ.iter m).filter (fun kv => hasResult r kv.2) := by
  unfold testEventsMaps.filterByResult
  rw [filterFold_eq r (ρ.iter m) []]
  · simp
  · simpa using ((ρ.perm m).map Prod.fst).nodup_iff.2 h

theorem filterByResult_mem (ρ : MapOrder) (m : testEventsMaps) (r : String)
    (h : (m.map Prod.fst).Nodup) (kv : String × testEvents) :
    kv ∈ testEventsMaps.filterByResult ρ m r ↔ kv ∈ m ∧ hasResult r kv.2 = true := by
  rw [filterByResult_eq ρ m r h, List.mem_filter, (ρ.perm m).mem_iff]

theorem filterByResult_nodup (ρ : MapOrder) (m : testEventsMaps) (r : String)
    (h : (m.map Prod.fst).Nodup) :
    ((testEventsMaps.filterByResult ρ m r).map Prod.fst).Nodup := by
  rw [filterByResult_eq ρ m r h]
  have h1 : ((ρ.iter m).map Prod.fst).Nodup := ((ρ.perm m).map Prod.fst).nodup_iff.2 h
  exact h1.sublist ((List.filter_sublist _).map Prod.fst)

theorem filterByResult_lookup (ρ : MapOrder) (m : testEventsMaps) (r : String)
    (h : (m.map Prod.fst).Nodup) (k : String) (g : testEvents) :
    (testEventsMaps.filterByResult ρ m r).lookup k = some g
      ↔ m.lookup k = some g ∧ hasResult r g = true := by
  rw [lookup_eq_some_iff _ (filterByResult_nodup ρ m r h), filterByResult_mem ρ m r h,
    lookup_eq_some_iff _ h]

theorem sortedKeys_eq (ρ : MapOrder) (m : testEventsMaps) :
    testEventsMaps.sortedKeys ρ m = sortStrings ((ρ.iter m).map Prod.fst) := by
  unfold testEventsMaps.sortedKeys
  rw [foldl_append_map]; simp

theorem sortStrings_perm (l : List String) : (sortStrings l).Perm l :=
  List.perm_insertionSort _ l

theorem sortStrings_sorted (l : List String) : (sortStrings l).Sorted (fun a b => a ≤ b) :=
  List.sorted_insertionSort _ l

theorem sortStrings_congr (l l' : List String) (h : l.Perm l') :
    sortStrings l = sortStrings l' :=
  List.eq_of_perm_of_sorted
    ((sortStrings_perm l).trans (h.trans (sortStrings_perm l').symm))
    (sortStrings_sorted l) (sortStrings_sorted l')

theorem sortStrings_strict (l : List String) (h : l.Nodup) :
    (sortStrings l).Sorted (fun a b => a < b) := by
  have hs := sortStrings_sorted l
  have hn : (sortStrings l).Nodup := (sortStrings_perm l).nodup_iff.2 h
  exact (List.Pairwise.and hs hn).imp (fun ⟨h1, h2⟩ => lt_of_le_of_ne h1 h2)

theorem sortedKeys_perm (ρ : MapOrder) (m : testEventsMaps) :
    (testEventsMaps.sortedKeys ρ m).Perm (m.map Prod.fst) := by
  rw [sortedKeys_eq]
  exact (sortStrings_perm _).trans ((ρ.perm m).map Prod.fst)

theorem sortedKeys_congr (ρ ρ' : MapOrder) (m m' : testEventsMaps) (h : m.Perm m') :
    testEventsMaps.sortedKeys ρ m = testEventsMaps.sortedKeys ρ' m' := by
  rw [sortedKeys_eq, sortedKeys_eq]
  exact sortStrings_congr _ _
    (((ρ.perm m).trans (h.trans (ρ'.perm m').symm)).map Prod.fst)

/-! ## Helper lemmas: decoder loop and reporter loop -/

theorem Write_ok (w : Writer) (h : w.acceptsAll) (p : String) :
    w.Write p = .ok (w.extend [p]) := by
  simp [Writer.Write, h w.written p, Writer.extend]

theorem extend_acceptsAll (w : Writer) (h : w.acceptsAll) (chunks : List String) :
    (w.extend chunks).acceptsAll := fun hist p => h hist p

theorem parseLoop_ok (decode : List Byte → Option testEvent) (lines : List (List Byte))
    (events : testEvents) (passthrough : Option Writer)
    (h : ∀ w, passthrough = some w → w.acceptsAll) :
    parseLoop decode lines events passthrough
      = .ok (events ++ lines.filterMap decode,
          passthrough.map (fun w => w.extend (passedThrough (lines.filterMap decode)))) := by
  induction lines generalizing events passthrough with
  | nil =>
    cases passthrough <;> simp [parseLoop, passedThrough, Writer.extend]
  | cons line lines ih =>
    cases hd : decode line with
    | none =>
      simp only [parseLoop, hd, List.filterMap_cons]
      exact ih events passthrough h
    | some event =>
      cases passthrough with
      | none =>
        simp only [parseLoop, hd, List.filterMap_cons]
        rw [ih (events ++ [event]) none (by simp)]
        simp
      | some w =>
        have hw : w.acceptsAll := h w rfl
        by_cases ha : event.Action = "output"
        · simp only [parseLoop, hd, List.filterMap_cons, ha, if_true, Write_ok w hw]
          rw [ih (events ++ [event]) (some (w.extend [event.Output]))
            (by intro w' hw'; cases hw'; exact extend_acceptsAll w hw _)]
          simp [passedThrough, List.filter_cons, ha, Writer.extend]
        · simp only [parseLoop, hd, List.filterMap_cons, ha, if_false]
          rw [ih (events ++ [event]) (some w) h]
          simp [passedThrough, List.filter_cons, ha, Writer.extend]

theorem parseEvents_ok (decode : List Byte → Option testEvent) (input : List Byte)
    (passthrough : Option Writer) (h : ∀ w, passthrough = some w → w.acceptsAll) :
    parseEvents decode input passthrough
      = .ok (decodedEvents decode input,
          passthrough.map (fun w => w.extend (passedThrough (decodedEvents decode input)))) := by
  unfold parseEvents decodedEvents
  rw [parseLoop_ok decode _ [] passthrough h]; simp

theorem reportLoop_eq (fs : FileSystem) (failing : testEventsMaps) (rootPath rootPkg : String)
    (keys : List String) (reports : List ErrorReport) (output : Writer) :
    reportLoop fs failing rootPath rootPkg keys (reports, output)
      = (reports ++ keys.filterMap (reportFor fs failing rootPath rootPkg),
          (keys.filterMap (reportFor fs failing rootPath rootPkg)).foldl
            (fun w r => Fprint w (WorkflowCommander.log "error" r.msg r.fileLoc)) output) := by
  induction keys generalizing reports output with
  | nil => simp [reportLoop]
  | cons key keys ih =>
    cases hres : testEvents.result (failing.get key) with
    | none =>
      have hr : reportFor fs failing rootPath rootPkg key = none := by simp [reportFor, hres]
      simp only [reportLoop, hres, List.filterMap_cons, hr]
      exact ih reports output
    | some resEvent =>
      have hr : reportFor fs failing rootPath rootPkg key
          = some ⟨resEvent.Output,
              reportLocation (findTest fs resEvent.Package resEvent.Test rootPath rootPkg)⟩ := by
        simp [reportFor, hres]
      simp only [reportLoop, hres, List.filterMap_cons, hr]
      rw [ih]
      simp

/-! ## Helper lemmas: the reporter against the specification -/

theorem reportable_eq (events : testEvents) :
    testEvents.withPackage (testEvents.withTest events) = events.filter countsForReport := by
  rw [withPackage_eq_filter, withTest_eq_filter, List.filter_filter]
  congr 1
  funext e
  simp only [countsForReport, Bool.decide_and, Bool.and_comm]

theorem result_filter_key (events : testEvents) (k : String) :
    testEvents.result ((events.filter countsForReport).filter (fun e => decide (e.key = k)))
      = resolvedOutcome events k := by
  rw [result_eq_find, resolvedOutcome]
  congr 1
  funext e
  rw [Bool.eq_iff_iff, isResultAction_iff]; simp

theorem hasResult_filter_key (events : testEvents) (k : String) :
    hasResult "fail"
      ((events.filter countsForReport).filter (fun e => decide (e.key = k)))
      = resolvesToFail events k := by
  unfold hasResult resolvesToFail
  rw [result_filter_key]
  cases resolvedOutcome events k <;> rfl

theorem failing_mem (ρ : MapOrder) (events : testEvents) (k : String) (g : testEvents) :
    (k, g) ∈ failingTests ρ events ↔
      (k ∈ (events.filter countsForReport).map testEvent.key ∧
        g = (events.filter countsForReport).filter (fun e => decide (e.key = k)) ∧
        resolvesToFail events k = true) := by
  unfold failingTests
  rw [filterByResult_mem ρ _ _ (byKey_nodup _), reportable_eq]
  constructor
  · rintro ⟨hm, hr⟩
    have hg := byKey_mem _ k g hm
    refine ⟨?_, hg, ?_⟩
    · have := (byKey_keys (events.filter countsForReport) k).1
        (List.mem_map_of_mem Prod.fst hm)
      simpa using this
    · rw [← hasResult_filter_key, ← hg]; exact hr
  · rintro ⟨hk, hg, hr⟩
    have hk' : k ∈ (testEvents.byKey (events.filter countsForReport)).map Prod.fst :=
      (byKey_keys _ k).2 (by simpa using hk)
    obtain ⟨⟨k', g'⟩, hm, hk''⟩ := List.mem_map.1 hk'
    simp only at hk''
    subst hk''
    have hg' := byKey_mem _ k' g' hm
    refine ⟨by rw [hg, ← hg']; exact hm, ?_⟩
    simp only
    rw [hg, hasResult_filter_key]; exact hr

theorem failing_nodup (ρ : MapOrder) (events : testEvents) :
    ((failingTests ρ events).map Prod.fst).Nodup :=
  filterByResult_nodup ρ _ _ (byKey_nodup _)

theorem failing_keys_mem (ρ : MapOrder) (events : testEvents) (k : String) :
    k ∈ (failingTests ρ events).map Prod.fst ↔ k ∈ failingKeys events := by
  unfold failingKeys
  rw [List.mem_filter, List.mem_dedup]
  constructor
  · intro h
    obtain ⟨⟨k', g⟩, hm, hk⟩ := List.mem_map.1 h
    simp only at hk
    subst hk
    have := (failing_mem ρ events k' g).1 hm
    exact ⟨this.1, this.2.2⟩
  · rintro ⟨h1, h2⟩
    exact List.mem_map.2 ⟨(k, _), (failing_mem ρ events k _).2 ⟨h1, rfl, h2⟩, rfl⟩

theorem failing_keys_perm (ρ : MapOrder) (events : testEvents) :
    ((failingTests ρ events).map Prod.fst).Perm (failingKeys events) :=
  (List.perm_ext_iff_of_nodup (failing_nodup ρ events)
    ((List.nodup_dedup _).filter _)).2 (failing_keys_mem ρ events)

theorem failing_get (ρ : MapOrder) (events : testEvents) (k : String) :
    (failingTests ρ events).get k =
      if resolvesToFail events k = true then
        (events.filter countsForReport).filter (fun e => decide (e.key = k))
      else [] := by
  by_cases hk : k ∈ failingKeys events
  · have hr : resolvesToFail events k = true := (List.mem_filter.1 hk).2
    have hm : (k, (events.filter countsForReport).filter (fun e => decide (e.key = k)))
        ∈ failingTests ρ events :=
      (failing_mem ρ events k _).2 ⟨(List.mem_dedup.1 (List.mem_filter.1 hk).1), rfl, hr⟩
    rw [get_of_mem _ (failing_nodup ρ events) k _ hm]; simp [hr]
  · have hn : k ∉ (failingTests ρ events).map Prod.fst :=
      fun h => hk ((failing_keys_mem ρ events k).1 h)
    have hl := (lookup_eq_none_iff _ k).2 hn
    by_cases hr : resolvesToFail events k = true
    · simp only [hr, if_true]
      have he : (events.filter countsForReport).filter (fun e => decide (e.key = k)) = [] := by
        rw [List.filter_eq_nil_iff]
        intro e he hke
        apply hk
        unfold failingKeys
        rw [List.mem_filter, List.mem_dedup]
        refine ⟨?_, hr⟩
        have hke' : e.key = k := by simpa using hke
        exact hke' ▸ List.mem_map_of_mem _ he
      simp [testEventsMaps.get, hl, he]
    · simp [testEventsMaps.get, hl, hr]

theorem sortedKeys_failing (ρ : MapOrder) (events : testEvents) :
    testEventsMaps.sortedKeys ρ (failingTests ρ events) = sortStrings (failingKeys events) := by
  rw [sortedKeys_eq]
  exact sortStrings_congr _ _
    ((((ρ.perm _).map Prod.fst)).trans (failing_keys_perm ρ events))

theorem reportFor_failing (fs : FileSystem) (ρ : MapOrder) (events : testEvents)
    (rootPath rootPkg k : String) (hk : k ∈ failingKeys events) :
    ∃ r, reportFor fs (failingTests ρ events) rootPath rootPkg k = some r ∧
      IsReportOf fs events rootPath rootPkg k r := by
  have hr : resolvesToFail events k = true := (List.mem_filter.1 hk).2
  have hr' := hr
  unfold resolvesToFail at hr'
  cases ho : resolvedOutcome events k with
  | none => simp [ho] at hr'
  | some e =>
    simp only [ho, decide_eq_true_eq] at hr'
    refine ⟨⟨e.Output, reportLocation (findTest fs e.Package e.Test rootPath rootPkg)⟩, ?_,
      e, ho, hr', rfl, rfl⟩
    unfold reportFor
    rw [failing_get, if_pos hr, result_filter_key, ho]
    rfl

theorem filterMap_forall₂ {α β : Type} (f : α → Option β) (R : α → β → Prop) (l : List α)
    (h : ∀ a ∈ l, ∃ b, f a = some b ∧ R a b) : List.Forall₂ R l (l.filterMap f) := by
  induction l with
  | nil => simp
  | cons a l ih =>
    obtain ⟨b, hb, hR⟩ := h a (List.mem_cons_self _ _)
    rw [List.filterMap_cons, hb]
    exact List.Forall₂.cons hR (ih (fun a' ha' => h a' (List.mem_cons_of_mem _ ha')))

theorem OutputFailures_ok (decode : List Byte → Option testEvent) (ρ : MapOrder)
    (fs : FileSystem) (input : List Byte) (output : Writer) (rootPath rootPkg : String)
    (passthrough : Bool) (h : passthrough = true → output.acceptsAll) :
    OutputFailures decode ρ fs input output rootPath rootPkg passthrough
      = .ok (reportLoop fs (failingTests ρ (decodedEvents decode input)) rootPath rootPkg
          (sortStrings (failingKeys (decodedEvents decode input)))
          ([], outputAfterParse (decodedEvents decode input) output passthrough)) := by
  unfold OutputFailures
  cases passthrough with
  | false =>
    simp only [Bool.false_eq_true, if_false]
    rw [parseEvents_ok decode input none (by simp)]
    simp [outputAfterParse, sortedKeys_failing]
  | true =>
    simp only [if_true]
    rw [parseEvents_ok decode input (some output)
      (by intro w hw; cases hw; exact h rfl)]
    simp [outputAfterParse, sortedKeys_failing]

theorem reports_forall₂ (fs : FileSystem) (ρ : MapOrder) (events : testEvents)
    (rootPath rootPkg : String) :
    List.Forall₂ (IsReportOf fs events rootPath rootPkg) (sortStrings (failingKeys events))
      ((sortStrings (failingKeys events)).filterMap
        (reportFor fs (failingTests ρ events) rootPath rootPkg)) := by
  apply filterMap_forall₂
  intro k hk
  exact reportFor_failing fs ρ _ rootPath rootPkg k ((sortStrings_perm _).mem_iff.1 hk)

theorem OutputFailures_reports (decode : List Byte → Option testEvent) (ρ : MapOrder)
    (fs : FileSystem) (input : List Byte) (output : Writer) (rootPath rootPkg : String)
    (passthrough : Bool) (h : passthrough = true → output.acceptsAll) :
    ∃ reports out,
      OutputFailures decode ρ fs input output rootPath rootPkg passthrough
        = .ok (reports, out) ∧
      List.Forall₂ (IsReportOf fs (decodedEvents decode input) rootPath rootPkg)
        (sortStrings (failingKeys (decodedEvents decode input))) reports := by
  rw [OutputFailures_ok decode ρ fs input output rootPath rootPkg passthrough h, reportLoop_eq]
  refine ⟨_, _, rfl, ?_⟩
  rw [List.nil_append]
  exact reports_forall₂ fs ρ _ rootPath rootPkg

theorem parseLoop_events (decode : List Byte → Option testEvent) (lines : List (List Byte))
    (events : testEvents) (passthrough : Option Writer) (evs : testEvents)
    (pw : Option Writer) (h : parseLoop decode lines events passthrough = .ok (evs, pw)) :
    evs = events ++ lines.filterMap decode := by
  induction lines generalizing events passthrough with
  | nil =>
    simp only [parseLoop, Except.ok.injEq, Prod.mk.injEq] at h
    simp [h.1]
  | cons line lines ih =>
    cases hd : decode line with
    | none =>
      simp only [parseLoop, hd] at h
      simpa [hd] using ih events passthrough h
    | some event =>
      cases passthrough with
      | none =>
        simp only [parseLoop, hd] at h
        simpa [hd] using ih _ _ h
      | some w =>
        by_cases ha : event.Action = "output"
        · simp only [parseLoop, hd, ha, if_true] at h
          cases hw : w.Write event.Output with
          | error err => simp [hw] at h
          | ok w' =>
            simp only [hw] at h
            simpa [hd] using ih _ _ h
        · simp only [parseLoop, hd, ha, if_false] at h
          simpa [hd] using ih _ _ h

theorem OutputFailures_of_ok (decode : List Byte → Option testEvent) (ρ : MapOrder)
    (fs : FileSystem) (input : List Byte) (output : Writer) (rootPath rootPkg : String)
    (passthrough : Bool) (reports : List ErrorReport) (out : Writer)
    (h : OutputFailures decode ρ fs input output rootPath rootPkg passthrough
      = .ok (reports, out)) :
    reports = (sortStrings (failingKeys (decodedEvents decode input))).filterMap
      (reportFor fs (failingTests ρ (decodedEvents decode input)) rootPath rootPkg) := by
  unfold OutputFailures at h
  cases hp : parseEvents decode input (if passthrough = true then some output else none) with
  | error err => simp [hp] at h
  | ok res =>
    obtain ⟨events, pw⟩ := res
    have he : events = decodedEvents decode input := by
      have := parseLoop_events decode _ _ _ _ _ hp
      simpa [decodedEvents] using this
    subst he
    simp only [hp, Except.ok.injEq] at h
    rw [reportLoop_eq, sortedKeys_failing] at h
    simpa using (congrArg Prod.fst h).symm

theorem reportFor_congr (fs : FileSystem) (ρ ρ' : MapOrder) (events : testEvents)
    (rootPath rootPkg : String) :
    reportFor fs (failingTests ρ' events) rootPath rootPkg
      = reportFor fs (failingTests ρ events) rootPath rootPkg := by
  funext k
  unfold reportFor
  rw [failing_get, failing_get]

theorem OutputFailures_order_irrelevant (decode : List Byte → Option testEvent)
    (ρ ρ' : MapOrder) (fs : FileSystem) (input : List Byte) (output : Writer)
    (rootPath rootPkg : String) (passthrough : Bool) :
    OutputFailures decode ρ' fs input output rootPath rootPkg passthrough
      = OutputFailures decode ρ fs input output rootPath rootPkg passthrough := by
  unfold OutputFailures
  dsimp only
  generalize parseEvents decode input (if passthrough = true then some output else none) = p
  cases p with
  | error err => rfl
  | ok res =>
    obtain ⟨events, pw⟩ := res
    dsimp only
    rw [reportLoop_eq, reportLoop_eq, sortedKeys_failing, sortedKeys_failing, reportFor_congr]

theorem failingKeys_eq_nil (events : testEvents)
    (h : ∀ e ∈ events, e.Action = "fail" → e.Package = "command-line-arguments") :
    failingKeys events = [] := by
  rw [List.eq_nil_iff_forall_not_mem]
  intro k hk
  have hr : resolvesToFail events k = true := (List.mem_filter.1 hk).2
  unfold resolvesToFail at hr
  cases ho : resolvedOutcome events k with
  | none => simp [ho] at hr
  | some e =>
    simp only [ho, decide_eq_true_eq] at hr
    have hmem := List.mem_of_find?_eq_some ho
    have h1 := (List.mem_filter.1 (List.mem_filter.1 hmem).1)
    have h2 : countsForReport e = true := h1.2
    have h3 := h e h1.1 hr
    simp [countsForReport, h3] at h2

/-! ## The claims -/

/-- C2: `sortedKeys` returns every key of the map exactly once, in ascending
order, whatever the iteration order; the result of `OutputFailures` is the same
for every iteration order; and when the run is not aborted, the reports match,
position by position, the failing keys listed in strictly ascending order. -/
theorem OutputFailures_key_order (decode : List Byte → Option testEvent) (ρ : MapOrder)
    (fs : FileSystem) (input : List Byte) (output : Writer) (rootPath rootPkg : String)
    (passthrough : Bool) :
    (∀ m : testEventsMaps,
      (testEventsMaps.sortedKeys ρ m).Perm (m.map Prod.fst) ∧
      (testEventsMaps.sortedKeys ρ m).Sorted (fun a b => a ≤ b) ∧
      ∀ ρ' : MapOrder, testEventsMaps.sortedKeys ρ' m = testEventsMaps.sortedKeys ρ m) ∧
    (∀ ρ' : MapOrder,
      OutputFailures decode ρ' fs input output rootPath rootPkg passthrough
        = OutputFailures decode ρ fs input output rootPath rootPkg passthrough) ∧
    ((passthrough = true → output.acceptsAll) →
      ∃ reports out keys,
        OutputFailures decode ρ fs input output rootPath rootPkg passthrough
          = .ok (reports, out) ∧
        keys = testEventsMaps.sortedKeys ρ (failingTests ρ (decodedEvents decode input)) ∧
        keys.Sorted (fun a b => a < b) ∧
        List.Forall₂ (IsReportOf fs (decodedEvents decode input) rootPath rootPkg)
          keys reports) := by
  refine ⟨fun m => ⟨sortedKeys_perm ρ m, ?_, fun ρ' => sortedKeys_congr ρ' ρ m m
    (List.Perm.refl m)⟩, fun ρ' => OutputFailures_order_irrelevant decode ρ ρ' fs input output
      rootPath rootPkg passthrough, ?_⟩
  · rw [sortedKeys_eq]; exact sortStrings_sorted _
  · intro h
    obtain ⟨reports, out, hrun, hrep⟩ :=
      OutputFailures_reports decode ρ fs input output rootPath rootPkg passthrough h
    refine ⟨reports, out, _, hrun, rfl, ?_, ?_⟩
    · rw [sortedKeys_failing]
      exact sortStrings_strict _ ((List.nodup_dedup _).filter _)
    · rw [sortedKeys_failing]; exact hrep

/-- C3: `result` returns the first event, in the order of the group, whose
action is "pass" or "fail" (every earlier event has another action); it returns
nil exactly when no event of the group has such an action; for the actions
"run", "fail" it returns the "fail" event. -/
theorem result_first_terminal (te : testEvents) :
    (∀ e, testEvents.result te = some e ↔
      ∃ before after, te = before ++ e :: after ∧
        (e.Action = "pass" ∨ e.Action = "fail") ∧
        ∀ x ∈ before, x.Action ≠ "pass" ∧ x.Action ≠ "fail") ∧
    (testEvents.result te = none ↔ ∀ x ∈ te, x.Action ≠ "pass" ∧ x.Action ≠ "fail") ∧
    (∀ (t₁ t₂ : Int) (p₁ n₁ o₁ p₂ n₂ o₂ : String),
      testEvents.result [⟨t₁, "run", p₁, n₁, o₁⟩, ⟨t₂, "fail", p₂, n₂, o₂⟩]
        = some ⟨t₂, "fail", p₂, n₂, o₂⟩) := by
  refine ⟨fun e => ?_, ?_, ?_⟩
  · rw [result_eq_find, List.find?_eq_some]
    constructor
    · rintro ⟨he, before, after, hte, hb⟩
      refine ⟨before, after, hte, (isResultAction_iff e).1 he, fun x hx => ?_⟩
      have hx' := hb x hx
      have hn : ¬ (x.Action = "pass" ∨ x.Action = "fail") := by
        rw [← isResultAction_iff]; simpa using hx'
      exact ⟨fun h => hn (Or.inl h), fun h => hn (Or.inr h)⟩
    · rintro ⟨before, after, hte, he, hb⟩
      refine ⟨(isResultAction_iff e).2 he, before, after, hte, fun x hx => ?_⟩
      have hn : ¬ isResultAction x = true := by
        rw [isResultAction_iff]
        rintro (h | h)
        · exact (hb x hx).1 h
        · exact (hb x hx).2 h
      simpa using hn
  · rw [result_eq_find, List.find?_eq_none]
    constructor
    · intro h x hx
      have hn := h x hx
      rw [isResultAction_iff] at hn
      exact ⟨fun h => hn (Or.inl h), fun h => hn (Or.inr h)⟩
    · intro h x hx
      rw [isResultAction_iff]
      rintro (h' | h')
      · exact (h x hx).1 h'
      · exact (h x hx).2 h'
  · intro t₁ t₂ p₁ n₁ o₁ p₂ n₂ o₂
    simp [testEvents.result, resultActions]

/-- C4: for a map `m` (distinct keys) and a result `r`, `filterByResult` returns
a map whose keys are exactly the keys `k` of `m` for which `m[k].result()`
exists and has action `r`, each mapped to the same group as in `m`. -/
theorem filterByResult_spec (ρ : MapOrder) (m : testEventsMaps) (r : String)
    (h : (m.map Prod.fst).Nodup) :
    ((testEventsMaps.filterByResult ρ m r).map Prod.fst).Nodup ∧
    (∀ k, k ∈ (testEventsMaps.filterByResult ρ m r).map Prod.fst ↔
      k ∈ m.map Prod.fst ∧ ∃ e, testEvents.result (m.get k) = some e ∧ e.Action = r) ∧
    (∀ k g, (testEventsMaps.filterByResult ρ m r).lookup k = some g →
      m.lookup k = some g) := by
  refine ⟨filterByResult_nodup ρ m r h, fun k => ?_, fun k g hkg => ?_⟩
  · constructor
    · intro hk
      obtain ⟨⟨k', g⟩, hm, hk'⟩ := List.mem_map.1 hk
      simp only at hk'
      subst hk'
      have hm' := (filterByResult_mem ρ m r h (k', g)).1 hm
      refine ⟨List.mem_map_of_mem Prod.fst hm'.1, ?_⟩
      rw [get_of_mem m h k' g hm'.1]
      exact (hasResult_iff r g).1 hm'.2
    · rintro ⟨hk, e, he, hr⟩
      obtain ⟨⟨k', g⟩, hm, hk'⟩ := List.mem_map.1 hk
      simp only at hk'
      subst hk'
      rw [get_of_mem m h k' g hm] at he
      exact List.mem_map_of_mem Prod.fst
        ((filterByResult_mem ρ m r h (k', g)).2 ⟨hm, (hasResult_iff r g).2 ⟨e, he, hr⟩⟩)
  · exact ((filterByResult_lookup ρ m r h k g).1 hkg).1

/-- C5: `withPackage` returns, in the original order, exactly the events whose
package is non-empty and not "command-line-arguments"; and an input all of whose
"fail" events have the package "command-line-arguments" makes `OutputFailures`
emit no report. -/
theorem withPackage_spec :
    (∀ te : testEvents, testEvents.withPackage te = te.filter
      (fun e => decide (e.Package ≠ "" ∧ e.Package ≠ "command-line-arguments"))) ∧
    (∀ (decode : List Byte → Option testEvent) (ρ : MapOrder) (fs : FileSystem)
      (input : List Byte) (output : Writer) (rootPath rootPkg : String) (passthrough : Bool),
      (∀ e ∈ decodedEvents decode input,
        e.Action = "fail" → e.Package = "command-line-arguments") →
      (∀ reports out,
        OutputFailures decode ρ fs input output rootPath rootPkg passthrough
          = .ok (reports, out) → reports = []) ∧
      ((passthrough = true → output.acceptsAll) →
        ∃ out, OutputFailures decode ρ fs input output rootPath rootPkg passthrough
          = .ok ([], out))) := by
  refine ⟨withPackage_eq_filter, ?_⟩
  intro decode ρ fs input output rootPath rootPkg passthrough hcla
  have hnil := failingKeys_eq_nil _ hcla
  constructor
  · intro reports out hrun
    rw [OutputFailures_of_ok decode ρ fs input output rootPath rootPkg passthrough reports out
      hrun, hnil]
    rfl
  · intro h
    obtain ⟨reports, out, hrun, hrep⟩ :=
      OutputFailures_reports decode ρ fs input output rootPath rootPkg passthrough h
    rw [hnil] at hrep
    have : reports = [] := by
      have hl := hrep.length_eq
      simp [sortStrings] at hl
      exact List.length_eq_zero.1 hl.symm
    subst this
    exact ⟨out, hrun⟩

theorem foldl_output (l : testEvents) (init : String) :
    l.foldl (fun output ev => output ++ ev.Output) init = init ++ concatOutputs l := by
  induction l generalizing init with
  | nil => simp [concatOutputs]
  | cons e es ih => simp [List.foldl_cons, ih, concatOutputs, String.append_assoc]

theorem ByAction_get (te : testEvents) (a : String) :
    (testEvents.ByAction te).get a = te.filter (fun e => decide (e.Action = a)) := by
  rw [ByAction_eq_groupFold, groupFold_get]; simp [testEventsMaps.get]

theorem output_eq (S : SliceSorter) (te : testEvents) :
    testEvents.output S te = concatOutputs
      (testEvents.sortEvents S (te.filter (fun e => decide (e.Action = "output")))) := by
  unfold testEvents.output
  rw [foldl_output, ByAction_get]; simp

theorem sortEvents_perm (S : SliceSorter) (te : testEvents) :
    (testEvents.sortEvents S te).Perm te := S.perm _ te

theorem sortEvents_sorted (S : SliceSorter) (te : testEvents) :
    (testEvents.sortEvents S te).Pairwise (fun a b => a.Time ≤ b.Time) := by
  have h := S.sorted (fun a b => decide (a.Time < b.Time)) te
    (by intro a; simp)
    (by intro a b c hab hbc
        simp only [decide_eq_true_eq] at hab hbc ⊢
        exact lt_trans hab hbc)
    (by intro a b c hab hbc
        simp only [decide_eq_false_iff_not, not_lt] at hab hbc ⊢
        exact le_trans hbc hab)
  exact h.imp (fun hba => by simpa using hba)

theorem sorted_unique (l₁ l₂ : testEvents) (hp : l₁.Perm l₂)
    (h₁ : l₁.Pairwise (fun a b => a.Time ≤ b.Time))
    (h₂ : l₂.Pairwise (fun a b => a.Time ≤ b.Time))
    (hn : (l₂.map testEvent.Time).Nodup) : l₁ = l₂ := by
  have hn₁ : (l₁.map testEvent.Time).Nodup := (hp.map testEvent.Time).nodup_iff.2 hn
  have strict : ∀ l : testEvents, l.Pairwise (fun a b => a.Time ≤ b.Time) →
      (l.map testEvent.Time).Nodup → l.Pairwise (fun a b => a.Time < b.Time) := by
    intro l hl hnd
    have hne : l.Pairwise (fun a b => a.Time ≠ b.Time) := List.pairwise_map.1 hnd
    exact (hl.and hne).imp (fun ⟨hle, hne⟩ => lt_of_le_of_ne hle hne)
  haveI : IsAntisymm testEvent (fun a b => a.Time < b.Time) :=
    ⟨fun a b hab hba => absurd hab (not_lt.2 (le_of_lt hba))⟩
  exact List.eq_of_perm_of_sorted hp (strict l₁ h₁ hn₁) (strict l₂ h₂ hn)

/-- C6 (as stated, refuted): with two "output" events that carry the same
timestamp, `output()` depends on the order in which the events arrived. -/
theorem output_depends_on_arrival_order :
    [tiedA, tiedB].Perm [tiedB, tiedA] ∧
    testEvents.output insertionSorter [tiedA, tiedB] = "ab" ∧
    testEvents.output insertionSorter [tiedB, tiedA] = "ba" :=
  ⟨List.Perm.swap _ _ _, by decide, by decide⟩

/-- C6 (amended): `output()` is the concatenation of the output texts of the
"output" events of the group, arranged by ascending timestamp (events with
other actions contribute nothing); and it is the same for every permutation of
the group when no two "output" events of the group have the same timestamp. -/
theorem output_spec (S : SliceSorter) (te : testEvents) :
    (∃ arranged : testEvents,
      arranged.Perm (te.filter (fun e => decide (e.Action = "output"))) ∧
      arranged.Pairwise (fun a b => a.Time ≤ b.Time) ∧
      testEvents.output S te = concatOutputs arranged) ∧
    (∀ te' : testEvents, te'.Perm te →
      ((te.filter (fun e => decide (e.Action = "output"))).map testEvent.Time).Nodup →
      testEvents.output S te' = testEvents.output S te) := by
  refine ⟨⟨_, sortEvents_perm S _, sortEvents_sorted S _, output_eq S te⟩, ?_⟩
  intro te' hp hn
  rw [output_eq, output_eq]
  congr 1
  have hf : (te'.filter (fun e => decide (e.Action = "output"))).Perm
      (te.filter (fun e => decide (e.Action = "output"))) := hp.filter _
  have hn' : ((testEvents.sortEvents S
      (te.filter (fun e => decide (e.Action = "output")))).map testEvent.Time).Nodup :=
    ((sortEvents_perm S _).map testEvent.Time).nodup_iff.2 hn
  exact sorted_unique _ _
    ((sortEvents_perm S _).trans (hf.trans (sortEvents_perm S _).symm))
    (sortEvents_sorted S _) (sortEvents_sorted S _) hn'

theorem splitLines_append (pre rest : List Byte) (h : ∀ b ∈ pre, b ≠ 10) :
    splitLines (pre ++ 10 :: rest) = pre :: splitLines rest := by
  induction pre with
  | nil => simp [splitLines]
  | cons b pre ih =>
    have hb : b ≠ 10 := h b (List.mem_cons_self _ _)
    have ih' := ih (fun x hx => h x (List.mem_cons_of_mem _ hx))
    simp [splitLines, hb, ih']

/-- C7: a first line of 65536 bytes `x` ends the scan: whatever follows it,
`parseEvents` returns no event at all, although the line `2` on its own decodes
to an event. -/
theorem parseEvents_stops_at_long_line :
    (∀ (decode : List Byte → Option testEvent) (passthrough : Option Writer)
      (rest : List Byte),
      parseEvents decode (List.replicate maxScanTokenSize 120 ++ 10 :: rest) passthrough
        = .ok ([], passthrough)) ∧
    parseEvents sampleDecode [50, 10] none = .ok ([sampleFail], none) := by
  refine ⟨fun decode passthrough rest => ?_, rfl⟩
  have hlen : decide ((List.replicate maxScanTokenSize 120).length < maxScanTokenSize)
      = false := by
    rw [List.length_replicate]; simp
  unfold parseEvents scanTokens
  rw [splitLines_append _ _ (by intro b hb; rw [List.eq_of_mem_replicate hb]; decide),
    List.takeWhile_cons]
  simp only [hlen]
  rfl

/-- C9: with an absolute root, an existing and parsing package directory and
no declaration of the wanted name, `findTest` returns the error of
`filepath.Rel`; with the root `.` it returns no error and the file `.`. -/
theorem findTest_not_found :
    HasPrefix "example.com/root/pkg" "example.com/root" = true ∧
    sampleFS.Stat "/root/pkg" = .ok true ∧
    sampleFS.ParseDir "/root/pkg" = .ok [[⟨"TestFoo", "/root/pkg/foo_test.go", 10⟩]] ∧
    findTest sampleFS "example.com/root/pkg" "TestMissing" "/root" "example.com/root"
      = .error (.relFailed "Rel: can't make  relative to /root") ∧
    findTest sampleFS "example.com/root/pkg" "TestMissing" "." "example.com/root"
      = .ok (".", 0) :=
  ⟨rfl, rfl, rfl, rfl, rfl⟩

theorem append_cons_inj {α : Type} (c : α) (l₁ l₂ r₁ r₂ : List α) (h₁ : c ∉ l₁) (h₂ : c ∉ l₂)
    (h : l₁ ++ c :: r₁ = l₂ ++ c :: r₂) : l₁ = l₂ ∧ r₁ = r₂ := by
  induction l₁ generalizing l₂ with
  | nil =>
    cases l₂ with
    | nil => simpa using h
    | cons b l₂ =>
      simp only [List.nil_append, List.cons_append, List.cons.injEq] at h
      exact absurd (List.mem_cons.2 (Or.inl h.1)) h₂
  | cons a l₁ ih =>
    cases l₂ with
    | nil =>
      simp only [List.nil_append, List.cons_append, List.cons.injEq] at h
      exact absurd (List.mem_cons.2 (Or.inl h.1.symm)) h₁
    | cons b l₂ =>
      simp only [List.cons_append, List.cons.injEq] at h
      obtain ⟨hl, hr⟩ := ih l₂ (fun hc => h₁ (List.mem_cons_of_mem _ hc))
        (fun hc => h₂ (List.mem_cons_of_mem _ hc)) h.2
      exact ⟨by rw [h.1, hl], hr⟩

theorem key_eq (e : testEvent) : e.key = e.Package ++ ":" ++ e.Test := by
  simp [testEvent.key, stringsJoin, String.intercalate, String.intercalate.go]

theorem key_data (e : testEvent) : e.key.data = e.Package.data ++ ':' :: e.Test.data := by
  rw [key_eq]; simp [String.data_append]

/-- C10 (as stated, refuted): the events of package `a:b`, test `c` and of
package `a`, test `b:c` land in the same group of `byKey`. -/
theorem byKey_merges_distinct_pairs :
    testEvents.byKey [clashA, clashB] = [("a:b:c", [clashA, clashB])] ∧
    clashA.Package ≠ clashB.Package ∧ clashA.Test ≠ clashB.Test := by
  decide

/-- C10 (amended): two events of a collection land in the same group of
`byKey` if and only if their key strings, Package + ":" + Test, are equal; when
neither package contains a colon, that is the case if and only if they have the
same package and the same test. -/
theorem byKey_same_group (te : testEvents) (e₁ e₂ : testEvent) (h₁ : e₁ ∈ te)
    (h₂ : e₂ ∈ te) :
    ((∃ k g, (k, g) ∈ testEvents.byKey te ∧ e₁ ∈ g ∧ e₂ ∈ g) ↔ e₁.key = e₂.key) ∧
    e₁.key = e₁.Package ++ ":" ++ e₁.Test ∧
    (':' ∉ e₁.Package.data → ':' ∉ e₂.Package.data →
      (e₁.key = e₂.key ↔ e₁.Package = e₂.Package ∧ e₁.Test = e₂.Test)) := by
  refine ⟨⟨?_, ?_⟩, key_eq e₁, ?_⟩
  · rintro ⟨k, g, hm, hg₁, hg₂⟩
    rw [byKey_mem te k g hm] at hg₁ hg₂
    have k₁ : e₁.key = k := by simpa using (List.mem_filter.1 hg₁).2
    have k₂ : e₂.key = k := by simpa using (List.mem_filter.1 hg₂).2
    rw [k₁, k₂]
  · intro hk
    have hmem : e₁.key ∈ (testEvents.byKey te).map Prod.fst :=
      (byKey_keys te _).2 ⟨e₁, h₁, rfl⟩
    obtain ⟨⟨k, g⟩, hm, hk'⟩ := List.mem_map.1 hmem
    simp only at hk'
    subst hk'
    refine ⟨_, g, hm, ?_, ?_⟩
    · rw [byKey_mem te _ g hm]; exact List.mem_filter.2 ⟨h₁, by simp⟩
    · rw [byKey_mem te _ g hm]; exact List.mem_filter.2 ⟨h₂, by simp [hk]⟩
  · intro hc₁ hc₂
    constructor
    · intro hk
      have hd := congrArg String.data hk
      rw [key_data, key_data] at hd
      obtain ⟨hp, ht⟩ := append_cons_inj ':' _ _ _ _ hc₁ hc₂ hd
      exact ⟨String.ext hp, String.ext ht⟩
    · rintro ⟨hp, ht⟩
      rw [key_eq, key_eq, hp, ht]

theorem accepting_acceptsAll (written : List String) : (Writer.accepting written).acceptsAll :=
  fun _ _ => rfl

/-- Witness of C2: the sample stream with the pass-through sink on. -/
theorem OutputFailures_key_order_witness :
    (true = true → (Writer.accepting []).acceptsAll) ∧
    ∃ reports out keys,
      OutputFailures sampleDecode MapOrder.reversed sampleFS sampleInput (Writer.accepting [])
        "/root" "example.com/root" true = .ok (reports, out) ∧
      keys = testEventsMaps.sortedKeys MapOrder.reversed
        (failingTests MapOrder.reversed (decodedEvents sampleDecode sampleInput)) ∧
      keys.Sorted (fun a b => a < b) ∧
      List.Forall₂ (IsReportOf sampleFS (decodedEvents sampleDecode sampleInput) "/root"
        "example.com/root") keys reports :=
  ⟨fun _ => accepting_acceptsAll [],
    (OutputFailures_key_order sampleDecode MapOrder.reversed sampleFS sampleInput
      (Writer.accepting []) "/root" "example.com/root" true).2.2
      (fun _ => accepting_acceptsAll [])⟩

/-- Witness of C3: in the group "run", "fail" the outcome is the "fail" event,
which has one event with another action before it. -/
theorem result_first_terminal_witness :
    ([sampleRun, sampleFail] = [sampleRun] ++ sampleFail :: [] ∧
      (sampleFail.Action = "pass" ∨ sampleFail.Action = "fail") ∧
      ∀ x ∈ [sampleRun], x.Action ≠ "pass" ∧ x.Action ≠ "fail") ∧
    testEvents.result [sampleRun, sampleFail] = some sampleFail :=
  ⟨⟨rfl, Or.inr rfl, by decide⟩,
    ((result_first_terminal [sampleRun, sampleFail]).1 sampleFail).2
      ⟨[sampleRun], [], rfl, Or.inr rfl, by decide⟩⟩

/-- Witness of C4: of the two groups of the sample map only the first has the
outcome "fail". -/
theorem filterByResult_spec_witness :
    (sampleMap.map Prod.fst).Nodup ∧
    "k1" ∈ (testEventsMaps.filterByResult MapOrder.reversed sampleMap "fail").map Prod.fst ∧
    "k2" ∉ (testEventsMaps.filterByResult MapOrder.reversed sampleMap "fail").map Prod.fst :=
  ⟨by decide,
    ((filterByResult_spec MapOrder.reversed sampleMap "fail" (by decide)).2.1 "k1").2
      ⟨by decide, sampleFail, by decide, rfl⟩,
    fun hk => absurd
      (((filterByResult_spec MapOrder.reversed sampleMap "fail" (by decide)).2.1 "k2").1 hk).2
      (by decide)⟩

/-- Witness of C5: a stream whose only "fail" event has the package
"command-line-arguments" gives no report. -/
theorem withPackage_spec_witness :
    (∀ e ∈ decodedEvents sampleDecodeAdHoc [50, 10],
      e.Action = "fail" → e.Package = "command-line-arguments") ∧
    (true = true → (Writer.accepting []).acceptsAll) ∧
    ∃ out, OutputFailures sampleDecodeAdHoc MapOrder.stored sampleFS [50, 10]
      (Writer.accepting []) "/root" "example.com/root" true = .ok ([], out) :=
  ⟨by decide, fun _ => accepting_acceptsAll [],
    ((withPackage_spec.2 sampleDecodeAdHoc MapOrder.stored sampleFS [50, 10]
      (Writer.accepting []) "/root" "example.com/root" true (by decide)).2
      (fun _ => accepting_acceptsAll []))⟩

/-- Witness of C6: two "output" events with different timestamps give the same
text in either arrival order. -/
theorem output_spec_witness :
    [lateOutput, earlyOutput].Perm [earlyOutput, lateOutput] ∧
    (([earlyOutput, lateOutput].filter
      (fun e => decide (e.Action = "output"))).map testEvent.Time).Nodup ∧
    testEvents.output insertionSorter [lateOutput, earlyOutput]
      = testEvents.output insertionSorter [earlyOutput, lateOutput] :=
  ⟨List.Perm.swap _ _ _, by decide,
    (output_spec insertionSorter [earlyOutput, lateOutput]).2 [lateOutput, earlyOutput]
      (List.Perm.swap _ _ _) (by decide)⟩

/-- Witness of C10: the "run" and the "fail" event of `TestFoo` share a key,
hence a group. -/
theorem byKey_same_group_witness :
    sampleRun ∈ [sampleRun, sampleFail] ∧ sampleFail ∈ [sampleRun, sampleFail] ∧
    sampleRun.key = sampleFail.key ∧
    ∃ k g, (k, g) ∈ testEvents.byKey [sampleRun, sampleFail] ∧ sampleRun ∈ g ∧
      sampleFail ∈ g :=
  ⟨by decide, by decide, by decide,
    (byKey_same_group [sampleRun, sampleFail] sampleRun sampleFail (by decide)
      (by decide)).1.2 (by decide)⟩

/-! ## Helper lemmas: source locator -/

theorem hasPrefix_iff (s pre : String) :
    HasPrefix s pre = true ↔ ∃ rest : String, s = pre ++ rest := by
  unfold HasPrefix
  rw [List.isPrefixOf_iff_prefix]
  constructor
  · rintro ⟨t, ht⟩
    exact ⟨⟨t⟩, String.ext (by simp [String.data_append, ht])⟩
  · rintro ⟨rest, hr⟩
    exact ⟨rest.data, by rw [hr, String.data_append]⟩

theorem splitChars_head (sep : Char) (l : List Char) :
    ∃ es, splitChars sep l = l.takeWhile (fun c => c ≠ sep) :: es := by
  induction l with
  | nil => exact ⟨[], rfl⟩
  | cons c rest ih =>
    obtain ⟨es, hes⟩ := ih
    by_cases hc : c = sep
    · exact ⟨splitChars sep rest, by simp [splitChars, hc]⟩
    · exact ⟨es, by simp [splitChars, hc, hes]⟩

theorem split_head (testName : String) :
    (Split testName '/').headD "" = leafName testName := by
  obtain ⟨es, hes⟩ := splitChars_head '/' testName.data
  simp [Split, hes, leafName]

theorem findTest_eq_locate (fs : FileSystem) (pkg testName rootPath rootPkg : String)
    (pkgs : List (List FuncDecl)) (hp : HasPrefix pkg rootPkg = true)
    (hs : fs.Stat (Join [rootPath, FromSlash (TrimPrefix pkg rootPkg)]) = .ok true)
    (hd : fs.ParseDir (Join [rootPath, FromSlash (TrimPrefix pkg rootPkg)]) = .ok pkgs) :
    findTest fs pkg testName rootPath rootPkg
      = locate rootPath (scanPkgs (leafName testName) pkgs ("", 0)) := by
  unfold findTest locate
  simp only [hp, not_true_eq_false, if_false, hs, hd, split_head]

theorem lastMatch_concat (testName : String) (ds : List FuncDecl) (d : FuncDecl) :
    lastMatch testName (ds ++ [d])
      = if d.Name = testName then some d else lastMatch testName ds := by
  unfold lastMatch
  rw [List.filter_append]
  by_cases h : d.Name = testName
  · simp [h, List.filter_cons]
  · simp [h, List.filter_cons]

theorem inspectPkg_eq (testName : String) (decls : List FuncDecl) (found : String × Int) :
    inspectPkg testName decls found
      = match lastMatch testName decls with
        | some d => (d.Filename, d.Line)
        | none => found := by
  induction decls using List.reverseRecOn with
  | nil => rfl
  | append_singleton ds d ih =>
    unfold inspectPkg at ih ⊢
    rw [List.foldl_append, List.foldl_cons, List.foldl_nil, ih, lastMatch_concat]
    by_cases h : d.Name = testName <;> simp [h]

theorem lastMatch_mem (testName : String) (decls : List FuncDecl) (d : FuncDecl)
    (h : lastMatch testName decls = some d) : d ∈ decls ∧ d.Name = testName := by
  unfold lastMatch at h
  have hm := List.mem_of_getLast?_eq_some h
  rw [List.mem_filter] at hm
  exact ⟨hm.1, by simpa using hm.2⟩

theorem lastMatch_eq_none (testName : String) (decls : List FuncDecl) :
    lastMatch testName decls = none
      ↔ decls.any (fun d => decide (d.Name = testName)) = false := by
  unfold lastMatch
  rw [List.getLast?_eq_none_iff, List.filter_eq_nil_iff]
  simp

theorem scanPkgs_eq (testName : String) (pkgs : List (List FuncDecl))
    (hfile : ∀ p ∈ pkgs, ∀ d ∈ p, d.Filename ≠ "") (found : String × Int)
    (hfound : found.1 = "") :
    scanPkgs testName pkgs found
      = match firstMatchingPackage testName pkgs with
        | some p => positionOf (lastMatch testName p)
        | none => found := by
  induction pkgs with
  | nil => rfl
  | cons p pkgs ih =>
    have ih' := ih (fun q hq => hfile q (List.mem_cons_of_mem _ hq))
    unfold scanPkgs firstMatchingPackage
    rw [List.find?_cons, inspectPkg_eq]
    cases hl : lastMatch testName p with
    | none =>
      have hany := (lastMatch_eq_none testName p).1 hl
      simp only [hany, hfound, ne_eq, not_true_eq_false, if_false]
      exact ih'
    | some d =>
      have hany : p.any (fun d => decide (d.Name = testName)) = true := by
        cases h : p.any (fun d => decide (d.Name = testName)) with
        | true => rfl
        | false => rw [(lastMatch_eq_none testName p).2 h] at hl; cases hl
      have hd := hfile p (List.mem_cons_self _ _) d (lastMatch_mem testName p d hl).1
      simp [hany, hd, positionOf, hl]

theorem intercalate_go_data (s : String) (l : List String) (acc : String) :
    ∃ t, (String.intercalate.go acc s l).data = acc.data ++ t := by
  induction l generalizing acc with
  | nil => exact ⟨[], by simp [String.intercalate.go]⟩
  | cons a as ih =>
    obtain ⟨t, ht⟩ := ih (acc ++ s ++ a)
    exact ⟨s.data ++ a.data ++ t, by
      simp [String.intercalate.go, ht, String.data_append, List.append_assoc]⟩

theorem cleanStep_head (out : List (List Char)) (e : List Char) (t : List (List Char))
    (h : out = ['.', '.'] :: t) : ∃ t', cleanStep false out e = ['.', '.'] :: t' := by
  subst h
  unfold cleanStep
  by_cases h1 : e = [] ∨ e = ['.']
  · exact ⟨t, by simp [h1]⟩
  · by_cases h2 : e = ['.', '.']
    · cases t with
      | nil => exact ⟨[e], by simp [h1, h2]⟩
      | cons x xs =>
        cases hl : (['.', '.'] :: x :: xs).getLast? with
        | none => simp at hl
        | some last =>
          by_cases h3 : last = ['.', '.']
          · exact ⟨x :: xs ++ [e], by simp [h1, h2, hl, h3]⟩
          · refine ⟨(x :: xs).dropLast, ?_⟩
            simp only [h1, h2, if_false, if_true, hl]
            simp [h3, List.dropLast]
    · exact ⟨t ++ [e], by simp [h1, h2]⟩

theorem clean_fold_head (es : List (List Char)) (t : List (List Char)) :
    ∃ t', es.foldl (cleanStep false) (['.', '.'] :: t) = ['.', '.'] :: t' := by
  induction es generalizing t with
  | nil => exact ⟨t, rfl⟩
  | cons e es ih =>
    obtain ⟨t₁, h₁⟩ := cleanStep_head (['.', '.'] :: t) e t rfl
    rw [List.foldl_cons, h₁]
    exact ih t₁

theorem join_dotdot (rel : String) : ∃ rest : String, Join ["..", rel] = "." ++ rest := by
  have hj : Join ["..", rel] = Clean (".." ++ "/" ++ rel) := by
    simp [Join, stringsJoin, String.intercalate, String.intercalate.go]
  have hdata : (".." ++ "/" ++ rel).data = '.' :: '.' :: '/' :: rel.data := by
    simp [String.data_append]
  have hne : (".." ++ "/" ++ rel) ≠ "" := by
    intro h
    have := congrArg String.data h
    rw [hdata] at this
    simp at this
  obtain ⟨es, hes⟩ := splitChars_head '/' rel.data
  have hsplit : splitChars '/' ('.' :: '.' :: '/' :: rel.data)
      = ['.', '.'] :: splitChars '/' rel.data := by
    simp [splitChars, hes]
  obtain ⟨t', ht'⟩ := clean_fold_head (splitChars '/' rel.data) []
  have hfold : (splitChars '/' ('.' :: '.' :: '/' :: rel.data)).foldl (cleanStep false) []
      = ['.', '.'] :: t' := by
    rw [hsplit, List.foldl_cons]
    have h0 : cleanStep false [] ['.', '.'] = [['.', '.']] := by simp [cleanStep]
    rw [h0, ht']
  obtain ⟨tl, htl⟩ := intercalate_go_data "/" (t'.map String.mk) ⟨['.', '.']⟩
  have hres : ("/".intercalate ((['.', '.'] :: t').map String.mk)).data
      = '.' :: '.' :: tl := by
    simp [String.intercalate, htl]
  refine ⟨⟨'.' :: tl⟩, ?_⟩
  rw [hj]
  unfold Clean
  simp only [hne, if_false, hdata, List.head?_cons, Option.some.injEq]
  have hrooted : ¬ ('.' = '/') := by decide
  simp only [hrooted, decide_False, hfold, if_false]
  apply String.ext
  have hne2 : ("" ++ "/".intercalate ((['.', '.'] :: t').map String.mk)) ≠ "" := by
    intro h
    have := congrArg String.data h
    rw [String.data_append, hres] at this
    simp at this
  simp only [Bool.false_eq_true, if_false] at hne2 ⊢
  rw [if_neg hne2, String.data_append, hres]
  simp [String.data_append]

theorem takeWhile_idem {α : Type} (p : α → Bool) (l : List α) :
    (l.takeWhile p).takeWhile p = l.takeWhile p := by
  induction l with
  | nil => rfl
  | cons a l ih =>
    by_cases h : p a = true
    · simp [List.takeWhile_cons, h, ih]
    · simp [List.takeWhile_cons, h]

theorem takeWhile_append_sep (sep : Char) (a b : List Char) (h : sep ∉ a) :
    (a ++ sep :: b).takeWhile (fun c => c ≠ sep) = a := by
  induction a with
  | nil => simp [List.takeWhile_cons]
  | cons x xs ih =>
    have hx : x ≠ sep := fun e => h (by simp [e])
    have hxs : sep ∉ xs := fun e => h (List.mem_cons_of_mem _ e)
    rw [List.cons_append, List.takeWhile_cons]
    simp only [hx, ne_eq, not_false_eq_true, decide_True, ih hxs, if_true]

theorem takeWhile_no_sep (sep : Char) (a : List Char) (h : sep ∉ a) :
    a.takeWhile (fun c => c ≠ sep) = a := by
  induction a with
  | nil => rfl
  | cons x xs ih =>
    have hx : x ≠ sep := fun e => h (by simp [e])
    have hxs : sep ∉ xs := fun e => h (List.mem_cons_of_mem _ e)
    rw [List.takeWhile_cons]
    simp only [hx, ne_eq, not_false_eq_true, decide_True, ih hxs, if_true]

theorem leafName_idem (testName : String) : leafName (leafName testName) = leafName testName := by
  unfold leafName
  simp only [takeWhile_idem]

theorem scanPkgs_mem (testName : String) (pkgs : List (List FuncDecl))
    (hfile : ∀ p ∈ pkgs, ∀ d ∈ p, d.Filename ≠ "") (F : String) (L : Int)
    (h : scanPkgs testName pkgs ("", 0) = (F, L)) (hF : F ≠ "") :
    ∃ d, d ∈ pkgs.flatten ∧ d.Name = testName ∧ d.Filename = F ∧ d.Line = L := by
  rw [scanPkgs_eq testName pkgs hfile ("", 0) rfl] at h
  cases hfm : firstMatchingPackage testName pkgs with
  | none =>
    simp only [hfm, Prod.mk.injEq] at h
    exact absurd h.1.symm hF
  | some p =>
    simp only [hfm] at h
    have hp : p ∈ pkgs := List.mem_of_find?_eq_some hfm
    cases hl : lastMatch testName p with
    | none =>
      simp only [hl, positionOf, Prod.mk.injEq] at h
      exact absurd h.1.symm hF
    | some d =>
      simp only [hl, positionOf, Prod.mk.injEq] at h
      obtain ⟨hd, hn⟩ := lastMatch_mem testName p d hl
      exact ⟨d, List.mem_flatten.2 ⟨p, hp, hd⟩, hn, h.1, h.2⟩

/-- C13: when `rootPkg` is not a prefix of `pkg`, `findTest` returns the error
that tells so, with the empty file and line 0, for every test name, root path
and file system (the result does not depend on the file system); when `rootPkg`
is a prefix of `pkg` that error is never returned. -/
theorem findTest_package_not_under_root (pkg rootPkg : String) :
    ((¬ ∃ rest : String, pkg = rootPkg ++ rest) →
      ∀ (fs : FileSystem) (testName rootPath : String),
        findTest fs pkg testName rootPath rootPkg = .error (.notContained rootPkg pkg) ∧
        findTestReturn (findTest fs pkg testName rootPath rootPkg)
          = ("", 0, some (.notContained rootPkg pkg))) ∧
    ((∃ rest : String, pkg = rootPkg ++ rest) →
      ∀ (fs : FileSystem) (testName rootPath a b : String),
        findTest fs pkg testName rootPath rootPkg ≠ .error (.notContained a b)) := by
  constructor
  · intro h fs testName rootPath
    have hp : ¬ HasPrefix pkg rootPkg = true := fun hc => h ((hasPrefix_iff pkg rootPkg).1 hc)
    have he : findTest fs pkg testName rootPath rootPkg
        = .error (.notContained rootPkg pkg) := by
      unfold findTest
      simp [hp]
    exact ⟨he, by rw [he]; rfl⟩
  · intro h fs testName rootPath a b
    have hp : HasPrefix pkg rootPkg = true := (hasPrefix_iff pkg rootPkg).2 h
    unfold findTest
    simp only [hp, not_true_eq_false, if_false]
    cases fs.Stat (Join [rootPath, FromSlash (TrimPrefix pkg rootPkg)]) with
    | error err => simp
    | ok isDir =>
      cases isDir with
      | false => simp
      | true =>
        simp only [not_true_eq_false, if_false]
        cases fs.ParseDir (Join [rootPath, FromSlash (TrimPrefix pkg rootPkg)]) with
        | error err => simp
        | ok pkgs =>
          simp only
          cases Rel rootPath
            (scanPkgs ((Split testName '/').headD "") pkgs ("", 0)).1 with
          | error err => simp
          | ok testFile => simp

/-- C15 (as stated, refuted): for the file `/root/pkg/foo_test.go` under the
root `/root`, declaring the test at line 10, the relative path is
`pkg/foo_test.go` but the file `findTest` returns is `./pkg/foo_test.go`. -/
theorem findTest_scenario_location :
    Rel "/root" "/root/pkg/foo_test.go" = .ok "pkg/foo_test.go" ∧
    Join ["..", "pkg/foo_test.go"] = "../pkg/foo_test.go" ∧
    findTest sampleFS "example.com/root/pkg" "TestFoo" "/root" "example.com/root"
      = .ok ("./pkg/foo_test.go", 10) ∧
    findTestReturn (findTest sampleFS "example.com/root/pkg" "TestFoo" "/root"
      "example.com/root") ≠ ("pkg/foo_test.go", 10, none) := by
  refine ⟨rfl, by decide, rfl, by decide⟩

/-- C15 (amended): when `findTest` finds the declaration in a file `F` whose
path relative to `rootPath` is `rel`, the position it kept is that of a
declaration with the leaf name, the line it returns is that declaration's line,
and the file it returns is `filepath.Join("..", rel)` without its first
character, which is a "."; for `/root/pkg/foo_test.go` under `/root` with the
test at line 10 it returns `./pkg/foo_test.go`, line 10. -/
theorem findTest_found_location (fs : FileSystem) (pkg testName rootPath rootPkg : String)
    (pkgs : List (List FuncDecl)) (F rel : String) (L : Int)
    (hp : HasPrefix pkg rootPkg = true)
    (hs : fs.Stat (Join [rootPath, FromSlash (TrimPrefix pkg rootPkg)]) = .ok true)
    (hd : fs.ParseDir (Join [rootPath, FromSlash (TrimPrefix pkg rootPkg)]) = .ok pkgs)
    (hfile : ∀ p ∈ pkgs, ∀ d ∈ p, d.Filename ≠ "")
    (hf : scanPkgs (leafName testName) pkgs ("", 0) = (F, L)) (hF : F ≠ "")
    (hr : Rel rootPath F = .ok rel) :
    (∃ d, d ∈ pkgs.flatten ∧ d.Name = leafName testName ∧ d.Filename = F ∧ d.Line = L) ∧
    (∃ rest : String, Join ["..", rel] = "." ++ rest ∧
      findTest fs pkg testName rootPath rootPkg = .ok (rest, L)) ∧
    findTest sampleFS "example.com/root/pkg" "TestFoo" "/root" "example.com/root"
      = .ok ("./pkg/foo_test.go", 10) := by
  refine ⟨scanPkgs_mem _ pkgs hfile F L hf hF, ?_, rfl⟩
  obtain ⟨rest, hrest⟩ := join_dotdot rel
  refine ⟨rest, hrest, ?_⟩
  rw [findTest_eq_locate fs pkg testName rootPath rootPkg pkgs hp hs hd, hf]
  unfold locate
  simp only [hr]
  have hpre : HasPrefix ("." ++ rest) "." = true := (hasPrefix_iff _ _).2 ⟨rest, rfl⟩
  have htrim : TrimPrefix ("." ++ rest) "." = rest := by
    unfold TrimPrefix
    rw [if_pos hpre]
    apply String.ext
    simp [String.data_append]
  rw [hrest, htrim]

/-- C18 (as stated, refuted): with a matching declaration in each of two
packages of the directory, `findTest` returns the one of the package visited
first, not the last matching declaration of the scan over all parsed files. -/
theorem findTest_stops_at_first_package :
    twoPackageFS.ParseDir "/root/pkg"
      = .ok [[⟨"TestFoo", "/root/pkg/a_test.go", 3⟩], [⟨"TestFoo", "/root/pkg/b_test.go", 7⟩]] ∧
    lastMatch "TestFoo"
      [⟨"TestFoo", "/root/pkg/a_test.go", 3⟩, ⟨"TestFoo", "/root/pkg/b_test.go", 7⟩]
      = some ⟨"TestFoo", "/root/pkg/b_test.go", 7⟩ ∧
    findTest twoPackageFS "example.com/root/pkg" "TestFoo" "/root" "example.com/root"
      = .ok ("./pkg/a_test.go", 3) := by
  refine ⟨rfl, by decide, rfl⟩

/-- C18 (amended): `findTest` returns the position of the last matching
declaration of the first package, in the order the packages of the directory
are visited, that has a matching declaration (the packages after it are not
scanned); when the directory holds one package, that is the last matching
declaration over all parsed files. -/
theorem findTest_last_match_of_first_package (fs : FileSystem)
    (pkg testName rootPath rootPkg : String) (pkgs : List (List FuncDecl))
    (hp : HasPrefix pkg rootPkg = true)
    (hs : fs.Stat (Join [rootPath, FromSlash (TrimPrefix pkg rootPkg)]) = .ok true)
    (hd : fs.ParseDir (Join [rootPath, FromSlash (TrimPrefix pkg rootPkg)]) = .ok pkgs)
    (hfile : ∀ p ∈ pkgs, ∀ d ∈ p, d.Filename ≠ "") :
    findTest fs pkg testName rootPath rootPkg
      = locate rootPath
          (match firstMatchingPackage (leafName testName) pkgs with
            | some p => positionOf (lastMatch (leafName testName) p)
            | none => ("", 0)) ∧
    (∀ p, pkgs = [p] →
      findTest fs pkg testName rootPath rootPkg
        = locate rootPath (positionOf (lastMatch (leafName testName) pkgs.flatten))) := by
  have hmain := findTest_eq_locate fs pkg testName rootPath rootPkg pkgs hp hs hd
  rw [scanPkgs_eq _ pkgs hfile ("", 0) rfl] at hmain
  refine ⟨hmain, ?_⟩
  intro p hpk
  subst hpk
  rw [hmain]
  congr 1
  simp only [firstMatchingPackage, List.find?_cons, List.find?_nil, List.flatten_cons,
    List.flatten_nil, List.append_nil]
  cases hany : p.any (fun d => decide (d.Name = leafName testName)) with
  | true => rfl
  | false =>
    rw [(lastMatch_eq_none _ p).2 hany]
    rfl

/-- Witness of C13: `example.com/other` is not under `example.com/root`, and
`example.com/root/pkg` is. -/
theorem findTest_package_not_under_root_witness :
    (¬ ∃ rest : String, "example.com/other" = "example.com/root" ++ rest) ∧
    findTestReturn (findTest sampleFS "example.com/other" "TestFoo" "/root" "example.com/root")
      = ("", 0, some (.notContained "example.com/root" "example.com/other")) ∧
    (∃ rest : String, "example.com/root/pkg" = "example.com/root" ++ rest) ∧
    findTest sampleFS "example.com/root/pkg" "TestFoo" "/root" "example.com/root"
      ≠ .error (.notContained "example.com/root" "example.com/root/pkg") :=
  ⟨fun h => absurd ((hasPrefix_iff _ _).2 h) (by decide),
    ((findTest_package_not_under_root "example.com/other" "example.com/root").1
      (fun h => absurd ((hasPrefix_iff _ _).2 h) (by decide)) sampleFS "TestFoo" "/root").2,
    ⟨"/pkg", by decide⟩,
    (findTest_package_not_under_root "example.com/root/pkg" "example.com/root").2
      ⟨"/pkg", by decide⟩ sampleFS "TestFoo" "/root" _ _⟩

/-- Witness of C15: the sample file system, where `TestFoo` is found in
`/root/pkg/foo_test.go`. -/
theorem findTest_found_location_witness :
    scanPkgs (leafName "TestFoo") [[⟨"TestFoo", "/root/pkg/foo_test.go", 10⟩]] ("", 0)
      = ("/root/pkg/foo_test.go", 10) ∧
    Rel "/root" "/root/pkg/foo_test.go" = .ok "pkg/foo_test.go" ∧
    ∃ rest : String, Join ["..", "pkg/foo_test.go"] = "." ++ rest ∧
      findTest sampleFS "example.com/root/pkg" "TestFoo" "/root" "example.com/root"
        = .ok (rest, 10) :=
  ⟨by decide, rfl,
    (findTest_found_location sampleFS "example.com/root/pkg" "TestFoo" "/root"
      "example.com/root" [[⟨"TestFoo", "/root/pkg/foo_test.go", 10⟩]] "/root/pkg/foo_test.go"
      "pkg/foo_test.go" 10 (by decide) rfl rfl (by decide) (by decide) (by decide) rfl).2.1⟩

/-- Witness of C18: the directory with two packages that both declare
`TestFoo`. -/
theorem findTest_last_match_of_first_package_witness :
    (∀ p ∈ [[(⟨"TestFoo", "/root/pkg/a_test.go", 3⟩ : FuncDecl)],
        [⟨"TestFoo", "/root/pkg/b_test.go", 7⟩]], ∀ d ∈ p, d.Filename ≠ "") ∧
    findTest twoPackageFS "example.com/root/pkg" "TestFoo" "/root" "example.com/root"
      = locate "/root"
          (match firstMatchingPackage (leafName "TestFoo")
              [[⟨"TestFoo", "/root/pkg/a_test.go", 3⟩],
                [⟨"TestFoo", "/root/pkg/b_test.go", 7⟩]] with
            | some p => positionOf (lastMatch (leafName "TestFoo") p)
            | none => ("", 0)) :=
  ⟨by decide,
    (findTest_last_match_of_first_package twoPackageFS "example.com/root/pkg" "TestFoo" "/root"
      "example.com/root"
      [[⟨"TestFoo", "/root/pkg/a_test.go", 3⟩], [⟨"TestFoo", "/root/pkg/b_test.go", 7⟩]]
      (by decide) rfl rfl (by decide)).1⟩

/-! ## Claims on the workflow commander, the pass-through sink and the return value -/

theorem printf_with_printer (w : WorkflowCommander) (h : w.hasPrinter = true) (out : String) :
    w.printf out = ⟨[], [out], false⟩ := by
  simp [WorkflowCommander.printf, h]

/-- C19: on a commander with a `Printer`, `SetErrorMessage(msg, nil)` hands the
printer exactly the text "::error::" + msg + "\n", once, and with a location it
hands it "::error file=F,line=L,col=C::" + msg + "\n" with `L` and `C` in
decimal, once; `SetWarningMessage` and `SetDebugMessage` do the same with
"warning" and "debug"; nothing goes to standard output. -/
theorem setMessage_text (w : WorkflowCommander) (h : w.hasPrinter = true) (msg : String) :
    w.SetErrorMessage msg none = ⟨[], ["::error::" ++ msg ++ "\n"], false⟩ ∧
    w.SetWarningMessage msg none = ⟨[], ["::warning::" ++ msg ++ "\n"], false⟩ ∧
    w.SetDebugMessage msg none = ⟨[], ["::debug::" ++ msg ++ "\n"], false⟩ ∧
    (∀ (F : String) (L C : Int),
      w.SetErrorMessage msg (some ⟨F, L, C⟩)
        = ⟨[], ["::error file=" ++ F ++ ",line=" ++ toString L ++ ",col=" ++ toString C
            ++ "::" ++ msg ++ "\n"], false⟩ ∧
      w.SetWarningMessage msg (some ⟨F, L, C⟩)
        = ⟨[], ["::warning file=" ++ F ++ ",line=" ++ toString L ++ ",col=" ++ toString C
            ++ "::" ++ msg ++ "\n"], false⟩ ∧
      w.SetDebugMessage msg (some ⟨F, L, C⟩)
        = ⟨[], ["::debug file=" ++ F ++ ",line=" ++ toString L ++ ",col=" ++ toString C
            ++ "::" ++ msg ++ "\n"], false⟩) ∧
    (WorkflowCommander.mk true).SetErrorMessage "boom" (some ⟨"pkg/foo_test.go", 10, 3⟩)
      = ⟨[], ["::error file=pkg/foo_test.go,line=10,col=3::boom\n"], false⟩ := by
  have e1 : ("::" ++ "error" ++ "::" : String) = "::error::" := by decide
  have e2 : ("::" ++ "warning" ++ "::" : String) = "::warning::" := by decide
  have e3 : ("::" ++ "debug" ++ "::" : String) = "::debug::" := by decide
  have f1 : ("::" ++ "error" ++ " file=" : String) = "::error file=" := by decide
  have f2 : ("::" ++ "warning" ++ " file=" : String) = "::warning file=" := by decide
  have f3 : ("::" ++ "debug" ++ " file=" : String) = "::debug file=" := by decide
  refine ⟨?_, ?_, ?_, fun F L C => ⟨?_, ?_, ?_⟩, by decide⟩
  · simp only [WorkflowCommander.SetErrorMessage, WorkflowCommander.logCommand,
      printf_with_printer w h, WorkflowCommander.log, e1]
  · simp only [WorkflowCommander.SetWarningMessage, WorkflowCommander.logCommand,
      printf_with_printer w h, WorkflowCommander.log, e2]
  · simp only [WorkflowCommander.SetDebugMessage, WorkflowCommander.logCommand,
      printf_with_printer w h, WorkflowCommander.log, e3]
  · simp only [WorkflowCommander.SetErrorMessage, WorkflowCommander.logCommand,
      printf_with_printer w h, WorkflowCommander.log, f1]
  · simp only [WorkflowCommander.SetWarningMessage, WorkflowCommander.logCommand,
      printf_with_printer w h, WorkflowCommander.log, f2]
  · simp only [WorkflowCommander.SetDebugMessage, WorkflowCommander.logCommand,
      printf_with_printer w h, WorkflowCommander.log, f3]

/-- Witness of C19: a commander with a printer. -/
theorem setMessage_text_witness :
    (WorkflowCommander.mk true).hasPrinter = true ∧
    (WorkflowCommander.mk true).SetErrorMessage "boom" none
      = ⟨[], ["::error::" ++ "boom" ++ "\n"], false⟩ :=
  ⟨rfl, (setMessage_text (WorkflowCommander.mk true) rfl "boom").1⟩

/-- C20: on a commander whose `Printer` is nil, `printf` writes the command to
standard output once and then still calls the nil `Printer`, so every command
method ends in a panic instead of returning normally. -/
theorem nil_printer_panics :
    (∀ out : String, (WorkflowCommander.mk false).printf out = ⟨[out], [], true⟩) ∧
    (∀ (msg : String) (loc : Option CommanderFileLocation),
      (WorkflowCommander.mk false).SetErrorMessage msg loc
        = ⟨[WorkflowCommander.log "error" msg loc], [], true⟩ ∧
      (WorkflowCommander.mk false).SetWarningMessage msg loc
        = ⟨[WorkflowCommander.log "warning" msg loc], [], true⟩ ∧
      (WorkflowCommander.mk false).SetDebugMessage msg loc
        = ⟨[WorkflowCommander.log "debug" msg loc], [], true⟩) ∧
    (∀ a b : String,
      ((WorkflowCommander.mk false).SetEnvironmentVariable a b).panicked = true ∧
      ((WorkflowCommander.mk false).SetOutputParameter a b).panicked = true ∧
      ((WorkflowCommander.mk false).AddSystemPath a).panicked = true ∧
      ((WorkflowCommander.mk false).MaskValueInLog a).panicked = true ∧
      ((WorkflowCommander.mk false).StopWorkflowCommands a).panicked = true ∧
      ((WorkflowCommander.mk false).restartWorkflowCommands a).panicked = true) ∧
    (WorkflowCommander.mk false).SetErrorMessage "boom" none
      = ⟨["::error::boom\n"], [], true⟩ ∧
    (WorkflowCommander.mk false).SetOutputParameter "k" "v"
      = ⟨["::set-output name=k::v\n"], [], true⟩ ∧
    (WorkflowCommander.mk false).AddSystemPath "/bin"
      = ⟨["::add-path::/bin\n"], [], true⟩ := by
  refine ⟨fun out => rfl, fun msg loc => ⟨rfl, rfl, rfl⟩,
    fun a b => ⟨rfl, rfl, rfl, rfl, rfl, rfl⟩, by decide, by decide, by decide⟩

theorem parseLoop_of_ok (decode : List Byte → Option testEvent) (lines : List (List Byte))
    (events : testEvents) (w : Writer) (evs : testEvents) (pw : Option Writer)
    (h : parseLoop decode lines events (some w) = .ok (evs, pw)) :
    pw = some (w.extend (passedThrough (lines.filterMap decode))) := by
  induction lines generalizing events w with
  | nil =>
    simp only [parseLoop, Except.ok.injEq, Prod.mk.injEq] at h
    simp [← h.2, passedThrough, Writer.extend]
  | cons line lines ih =>
    cases hd : decode line with
    | none =>
      simp only [parseLoop, hd] at h
      simpa [hd] using ih events w h
    | some event =>
      by_cases ha : event.Action = "output"
      · simp only [parseLoop, hd, ha, if_true] at h
        cases hw : w.Write event.Output with
        | error err => simp [hw] at h
        | ok w' =>
          simp only [hw] at h
          have hw' : w' = w.extend [event.Output] := by
            unfold Writer.Write at hw
            by_cases hr : w.rejects w.written event.Output = true
            · simp [hr] at hw
            · simp only [hr, Bool.false_eq_true, if_false, Except.ok.injEq] at hw
              rw [← hw]; rfl
          subst hw'
          have := ih _ _ h
          simpa [hd, passedThrough, List.filter_cons, ha, Writer.extend] using this
      · simp only [parseLoop, hd, ha, if_false] at h
        have := ih _ _ h
        simpa [hd, passedThrough, List.filter_cons, ha, Writer.extend] using this

/-- C16: without a sink `parseEvents` writes nothing and returns the decoded
events; with a sink that accepts its writes it returns the same events and has
written to the sink exactly the output texts of the decoded events whose action
is "output", in stream order; whenever it returns with a sink, that is what was
written; and a refused write of an "output" event ends the run before that
event is appended to any returned collection. -/
theorem parseEvents_passthrough (decode : List Byte → Option testEvent) (input : List Byte) :
    parseEvents decode input none = .ok (decodedEvents decode input, none) ∧
    (∀ w : Writer, w.acceptsAll →
      parseEvents decode input (some w)
        = .ok (decodedEvents decode input,
            some (w.extend (passedThrough (decodedEvents decode input))))) ∧
    (∀ (w : Writer) (events : testEvents) (pw : Option Writer),
      parseEvents decode input (some w) = .ok (events, pw) →
      events = decodedEvents decode input ∧
      pw = some (w.extend (passedThrough events))) ∧
    (∀ (w : Writer) (line : List Byte) (lines : List (List Byte)) (event : testEvent)
      (events : testEvents),
      decode line = some event → event.Action = "output" →
      w.rejects w.written event.Output = true →
      parseLoop decode (line :: lines) events (some w) = .error "write failed") := by
  refine ⟨?_, ?_, ?_, ?_⟩
  · simpa using parseEvents_ok decode input none (by simp)
  · intro w hw
    simpa using parseEvents_ok decode input (some w) (by intro w' h; cases h; exact hw)
  · intro w events pw h
    have he : events = decodedEvents decode input := by
      have := parseLoop_events decode _ _ _ _ _ h
      simpa [decodedEvents] using this
    refine ⟨he, ?_⟩
    rw [he]
    exact parseLoop_of_ok decode _ _ _ _ _ h
  · intro w line lines event events hd ha hr
    simp [parseLoop, hd, ha, Writer.Write, hr]

/-- Witness of C16: the sample stream and a sink that accepts every write. -/
theorem parseEvents_passthrough_witness :
    (Writer.accepting []).acceptsAll ∧
    parseEvents sampleDecode sampleInput (some (Writer.accepting []))
      = .ok (decodedEvents sampleDecode sampleInput,
          some ((Writer.accepting []).extend
            (passedThrough (decodedEvents sampleDecode sampleInput)))) :=
  ⟨accepting_acceptsAll [],
    (parseEvents_passthrough sampleDecode sampleInput).2.1 (Writer.accepting [])
      (accepting_acceptsAll [])⟩

theorem reports_length_of_ok (decode : List Byte → Option testEvent) (ρ : MapOrder)
    (fs : FileSystem) (input : List Byte) (output : Writer) (rootPath rootPkg : String)
    (passthrough : Bool) (reports : List ErrorReport) (out : Writer)
    (h : OutputFailures decode ρ fs input output rootPath rootPkg passthrough
      = .ok (reports, out)) :
    reports.length = (failingKeys (decodedEvents decode input)).length := by
  rw [OutputFailures_of_ok decode ρ fs input output rootPath rootPkg passthrough reports out h,
    ← (reports_forall₂ fs ρ _ rootPath rootPkg).length_eq, (sortStrings_perm _).length_eq]

theorem returned_of_ok (decode : List Byte → Option testEvent) (ρ : MapOrder)
    (fs : FileSystem) (input : List Byte) (output : Writer) (rootPath rootPkg : String)
    (passthrough : Bool) (reports : List ErrorReport) (out : Writer)
    (h : OutputFailures decode ρ fs input output rootPath rootPkg passthrough
      = .ok (reports, out)) :
    OutputFailures.returned decode ρ input output passthrough = .ok (reports.length : Int) := by
  have hlen := reports_length_of_ok decode ρ fs input output rootPath rootPkg
    passthrough reports out h
  unfold OutputFailures at h
  unfold OutputFailures.returned
  cases hp : parseEvents decode input (if passthrough = true then some output else none) with
  | error err => simp [hp] at h
  | ok res =>
    obtain ⟨events, pw⟩ := res
    have he : events = decodedEvents decode input := by
      have := parseLoop_events decode _ _ _ _ _ hp
      simpa [decodedEvents] using this
    subst he
    simp only
    rw [hlen, ← (failing_keys_perm ρ _).length_eq]
    simp

/-- C17: whenever `OutputFailures` returns, the integer it returns (the count of
failing tests, as the specification words the missing return statement) equals
the number of error reports it emitted, so it is non-zero exactly when at least
one failing test was reported; and it returns when the pass-through sink is off
or accepts its writes. -/
theorem OutputFailures_returned_count (decode : List Byte → Option testEvent)
    (ρ : MapOrder) (fs : FileSystem) (input : List Byte) (output : Writer)
    (rootPath rootPkg : String) (passthrough : Bool) :
    (∀ reports out,
      OutputFailures decode ρ fs input output rootPath rootPkg passthrough
        = .ok (reports, out) →
      OutputFailures.returned decode ρ input output passthrough
        = .ok (reports.length : Int) ∧
      ((reports.length : Int) ≠ 0 ↔ reports ≠ [])) ∧
    ((passthrough = true → output.acceptsAll) →
      ∃ reports out,
        OutputFailures decode ρ fs input output rootPath rootPkg passthrough
          = .ok (reports, out) ∧
        OutputFailures.returned decode ρ input output passthrough
          = .ok (reports.length : Int)) := by
  constructor
  · intro reports out h
    refine ⟨returned_of_ok decode ρ fs input output rootPath rootPkg passthrough reports out h,
      ?_⟩
    cases reports with
    | nil => simp
    | cons r rs =>
      simp only [List.length_cons, ne_eq, reduceCtorEq, not_false_eq_true, iff_true]
      omega
  · intro h
    obtain ⟨reports, out, hrun, -⟩ :=
      OutputFailures_reports decode ρ fs input output rootPath rootPkg passthrough h
    exact ⟨reports, out, hrun,
      returned_of_ok decode ρ fs input output rootPath rootPkg passthrough reports out hrun⟩

/-- Witness of C17: the sample stream, one failing test, return value 1. -/
theorem OutputFailures_returned_count_witness :
    (true = true → (Writer.accepting []).acceptsAll) ∧
    OutputFailures.returned sampleDecode MapOrder.stored sampleInput (Writer.accepting []) true
      = .ok 1 ∧
    ∃ reports out,
      OutputFailures sampleDecode MapOrder.stored sampleFS sampleInput (Writer.accepting [])
        "/root" "example.com/root" true = .ok (reports, out) ∧
      OutputFailures.returned sampleDecode MapOrder.stored sampleInput (Writer.accepting [])
        true = .ok (reports.length : Int) :=
  ⟨fun _ => accepting_acceptsAll [], rfl,
    (OutputFailures_returned_count sampleDecode MapOrder.stored sampleFS sampleInput
      (Writer.accepting []) "/root" "example.com/root" true).2
      (fun _ => accepting_acceptsAll [])⟩

/-! ## Claim on sorting -/

/-- C11 (as stated, refuted): on seven events, the first at time 2 and the
other six at time 1, `sortEvents` brings the last event in front of the five
events that preceded it with the same timestamp. -/
theorem sortEvents_not_stable :
    (testEvents.sortEvents shellSorter sevenEvents).map testEvent.Output
      = ["6", "1", "2", "3", "4", "5", "0"] ∧
    (sevenEvents.filter (fun e => decide (e.Time = 1))).map testEvent.Output
      = ["1", "2", "3", "4", "5", "6"] ∧
    ((testEvents.sortEvents shellSorter sevenEvents).filter
      (fun e => decide (e.Time = 1))).map testEvent.Output
      = ["6", "1", "2", "3", "4", "5"] := by
  refine ⟨by decide, by decide, by decide⟩

/-- C11 (amended): `sortEvents` returns a permutation of the collection ordered
by ascending timestamp; events with equal timestamps come out in some order
(the same events, not necessarily the same order); when all timestamps differ
the result does not depend on the sorting algorithm. -/
theorem sortEvents_spec (S : SliceSorter) (te : testEvents) :
    (testEvents.sortEvents S te).Perm te ∧
    (testEvents.sortEvents S te).Pairwise (fun a b => a.Time ≤ b.Time) ∧
    (∀ t : Int, ((testEvents.sortEvents S te).filter (fun e => decide (e.Time = t))).Perm
      (te.filter (fun e => decide (e.Time = t)))) ∧
    ((te.map testEvent.Time).Nodup →
      ∀ S' : SliceSorter, testEvents.sortEvents S' te = testEvents.sortEvents S te) := by
  refine ⟨sortEvents_perm S te, sortEvents_sorted S te,
    fun t => (sortEvents_perm S te).filter _, ?_⟩
  intro hn S'
  have hn' : ((testEvents.sortEvents S te).map testEvent.Time).Nodup :=
    ((sortEvents_perm S te).map testEvent.Time).nodup_iff.2 hn
  exact sorted_unique _ _ ((sortEvents_perm S' te).trans (sortEvents_perm S te).symm)
    (sortEvents_sorted S' te) (sortEvents_sorted S te) hn'

/-- Witness of C11: two events with different timestamps. -/
theorem sortEvents_spec_witness :
    ([lateOutput, earlyOutput].map testEvent.Time).Nodup ∧
    testEvents.sortEvents shellSorter [lateOutput, earlyOutput]
      = testEvents.sortEvents insertionSorter [lateOutput, earlyOutput] :=
  ⟨by decide,
    (sortEvents_spec insertionSorter [lateOutput, earlyOutput]).2.2.2 (by decide) shellSorter⟩

/-! ## Helper lemmas: slices in memory -/

theorem holds_nil (h : Heap) : h.Holds none := by
  intro r hr; cases hr

theorem newSince_nil (n : Nat) : NewSince n none := by
  intro r hr; cases hr

theorem holds_extend (h ext : Heap) (s : GoSlice) (hs : h.Holds s) : (h ++ ext).Holds s := by
  intro r hr
  obtain ⟨b, hb, hl⟩ := hs r hr
  have hlt : r.arr < h.length := by
    rcases List.getElem?_eq_some.1 hb with ⟨hlt, -⟩
    exact hlt
  exact ⟨b, by rw [List.getElem?_append_left hlt]; exact hb, hl⟩

theorem view_extend (h ext : Heap) (s : GoSlice) (hs : h.Holds s) :
    (h ++ ext).view s = h.view s := by
  cases s with
  | none => rfl
  | some r =>
    obtain ⟨b, hb, -⟩ := hs r rfl
    have hlt : r.arr < h.length := by
      rcases List.getElem?_eq_some.1 hb with ⟨hlt, -⟩
      exact hlt
    simp only [Heap.view, List.getElem?_append_left hlt]

theorem view_length (h : Heap) (s : GoSlice) (hs : h.Holds s) :
    (h.view s).length = sliceLen s := by
  cases s with
  | none => rfl
  | some r =>
    obtain ⟨b, hb, hl⟩ := hs r rfl
    simp [Heap.view, hb, sliceLen, hl]

theorem holds_lt (h : Heap) (r : SliceRef) (hs : h.Holds (some r)) : r.arr < h.length := by
  obtain ⟨b, hb, -⟩ := hs r rfl
  rcases List.getElem?_eq_some.1 hb with ⟨hlt, -⟩
  exact hlt

/-- What `append` does to memory: it only adds arrays or writes into the array
of the slice it appends to. -/
theorem append_spec (grow : Nat → Nat) (h₀ ext : Heap) (s : GoSlice) (x : testEvent)
    (hs : (h₀ ++ ext).Holds s) (hn : NewSince h₀.length s) :
    (∃ ext', ((h₀ ++ ext).append grow s x).1 = h₀ ++ ext') ∧
    ((h₀ ++ ext).append grow s x).1.Holds ((h₀ ++ ext).append grow s x).2 ∧
    NewSince h₀.length ((h₀ ++ ext).append grow s x).2 ∧
    ((h₀ ++ ext).append grow s x).1.view ((h₀ ++ ext).append grow s x).2
      = (h₀ ++ ext).view s ++ [x] ∧
    (∀ q : GoSlice, (h₀ ++ ext).Holds q →
      (∀ r r', s = some r → q = some r' → r'.arr ≠ r.arr) →
      ((h₀ ++ ext).append grow s x).1.view q = (h₀ ++ ext).view q ∧
      ((h₀ ++ ext).append grow s x).1.Holds q) ∧
    (∀ r', ((h₀ ++ ext).append grow s x).2 = some r' →
      (∃ r, s = some r ∧ r'.arr = r.arr) ∨ (h₀ ++ ext).length ≤ r'.arr) := by
  cases s with
  | none =>
    have happ : (h₀ ++ ext).append grow none x
        = ((h₀ ++ ext) ++ [⟨max 1 (grow 0), [x]⟩], some ⟨(h₀ ++ ext).length, 1⟩) := rfl
    rw [happ]
    refine ⟨⟨ext ++ [_], by rw [List.append_assoc]⟩, ?_, ?_, ?_, ?_, ?_⟩
    · intro r hr
      simp only [Option.some.injEq] at hr
      subst hr
      exact ⟨_, List.getElem?_concat_length _ _, by simp⟩
    · intro r hr
      simp only [Option.some.injEq] at hr
      subst hr
      simp
    · simp only [Heap.view, List.getElem?_concat_length]
      rfl
    · intro q hq _
      exact ⟨view_extend _ _ q hq, holds_extend _ _ q hq⟩
    · intro r' hr'
      simp only [Option.some.injEq] at hr'
      subst hr'
      exact Or.inr (le_refl _)
  | some r =>
    obtain ⟨b, hb, hl⟩ := hs r rfl
    have hlt : r.arr < (h₀ ++ ext).length := holds_lt _ r hs
    have hge : h₀.length ≤ r.arr := hn r rfl
    by_cases hcap : r.len < b.cap
    · have happ : (h₀ ++ ext).append grow (some r) x
          = ((h₀ ++ ext).set r.arr
              ⟨b.cap, b.elems.take r.len ++ x :: b.elems.drop (r.len + 1)⟩,
            some ⟨r.arr, r.len + 1⟩) := by
        simp [Heap.append, hb, hcap]
      rw [happ]
      refine ⟨⟨ext.set (r.arr - h₀.length) _, List.set_append_right _ _ hge⟩, ?_, ?_, ?_, ?_, ?_⟩
      · intro r' hr'
        simp only [Option.some.injEq] at hr'
        subst hr'
        refine ⟨_, List.getElem?_set_eq_of_lt _ hlt, ?_⟩
        simp [List.length_take, hl]
      · intro r' hr'
        simp only [Option.some.injEq] at hr'
        subst hr'
        exact hge
      · simp only [Heap.view, List.getElem?_set_eq_of_lt _ hlt, hb]
        have hlen : (b.elems.take r.len).length = r.len := by simp [hl]
        rw [List.take_append_eq_append_take, hlen]
        simp [List.take_of_length_le, hlen]
      · intro q hq hne
        cases q with
        | none => exact ⟨rfl, holds_nil _⟩
        | some r' =>
          have hne' : r.arr ≠ r'.arr := fun e => hne r r' rfl rfl e.symm
          constructor
          · simp only [Heap.view, List.getElem?_set_ne hne']
          · intro r'' hr''
            simp only [Option.some.injEq] at hr''
            subst hr''
            obtain ⟨b', hb', hl'⟩ := hq r' rfl
            exact ⟨b', by rw [List.getElem?_set_ne hne']; exact hb', hl'⟩
      · intro r' hr'
        simp only [Option.some.injEq] at hr'
        subst hr'
        exact Or.inl ⟨r, rfl, rfl⟩
    · have happ : (h₀ ++ ext).append grow (some r) x
          = ((h₀ ++ ext) ++ [⟨max (r.len + 1) (grow b.cap), b.elems.take r.len ++ [x]⟩],
            some ⟨(h₀ ++ ext).length, r.len + 1⟩) := by
        simp [Heap.append, hb, hcap]
      rw [happ]
      refine ⟨⟨ext ++ [_], by rw [List.append_assoc]⟩, ?_, ?_, ?_, ?_, ?_⟩
      · intro r' hr'
        simp only [Option.some.injEq] at hr'
        subst hr'
        exact ⟨_, List.getElem?_concat_length _ _, by simp [List.length_take, hl]⟩
      · intro r' hr'
        simp only [Option.some.injEq] at hr'
        subst hr'
        simp
      · simp only [Heap.view, List.getElem?_concat_length, hb]
        have hlen : (b.elems.take r.len).length = r.len := by simp [hl]
        rw [List.take_append_eq_append_take, hlen]
        simp [List.take_of_length_le, hlen]
      · intro q hq _
        exact ⟨view_extend _ _ q hq, holds_extend _ _ q hq⟩
      · intro r' hr'
        simp only [Option.some.injEq] at hr'
        subst hr'
        exact Or.inr (le_refl _)

/-- A `range` loop over a slice whose array the body leaves alone runs the body
over the events the slice held at the start. -/
theorem rangeSlice_sim {σ τ : Type} (h₀ : Heap) (te : GoSlice) (hte : h₀.Holds te)
    (body : Heap × σ → testEvent → Heap × σ) (pbody : τ → testEvent → τ)
    (Inv : Heap × σ → τ → Prop)
    (hext : ∀ st p, Inv st p → ∃ ext, st.1 = h₀ ++ ext)
    (hstep : ∀ st p ev, Inv st p → Inv (body st ev) (pbody p ev))
    (st : Heap × σ) (p : τ) (h0 : Inv st p) :
    Inv (rangeSlice te body st) ((h₀.view te).foldl pbody p) := by
  have hlen := view_length h₀ te hte
  have key : ∀ k, k ≤ sliceLen te →
      Inv ((List.range k).foldl (fun st i =>
        match (st.1.view te)[i]? with
        | some ev => body st ev
        | none => st) st) (((h₀.view te).take k).foldl pbody p) := by
    intro k
    induction k with
    | zero => intro _; simpa using h0
    | succ k ih =>
      intro hk
      have ih' := ih (Nat.le_of_succ_le hk)
      have hlt : k < (h₀.view te).length := by rw [hlen]; exact hk
      obtain ⟨ext, hext'⟩ := hext _ _ ih'
      have hget : (h₀.view te)[k]? = some ((h₀.view te)[k]) := List.getElem?_eq_getElem hlt
      rw [List.range_succ, List.foldl_append, List.foldl_cons, List.foldl_nil, List.take_succ,
        List.foldl_append, hget]
      simp only [Option.toList, List.foldl_cons, List.foldl_nil]
      have hview : (List.foldl (fun st i =>
          match (st.1.view te)[i]? with
          | some ev => body st ev
          | none => st) st (List.range k)).1.view te = h₀.view te := by
        rw [hext']; exact view_extend _ _ te hte
      rw [hview, hget]
      exact hstep _ _ _ ih'
  have := key (sliceLen te) (le_refl _)
  rw [← hlen, List.take_length, hlen] at this
  exact this

/-- A loop that appends the chosen events to a slice made by `testEvents{}`
writes only to arrays allocated during the loop. -/
theorem appendLoop_spec (grow : Nat → Nat) (cond : testEvent → Prop) [DecidablePred cond]
    (h₀ : Heap) (te : GoSlice) (hte : h₀.Holds te) :
    (∃ ext, (rangeSlice te (fun st event =>
        if cond event then st.1.append grow st.2 event else st) h₀.emptySlice).1 = h₀ ++ ext) ∧
    (rangeSlice te (fun st event =>
        if cond event then st.1.append grow st.2 event else st) h₀.emptySlice).1.Holds
      (rangeSlice te (fun st event =>
        if cond event then st.1.append grow st.2 event else st) h₀.emptySlice).2 ∧
    NewSince h₀.length (rangeSlice te (fun st event =>
        if cond event then st.1.append grow st.2 event else st) h₀.emptySlice).2 ∧
    (rangeSlice te (fun st event =>
        if cond event then st.1.append grow st.2 event else st) h₀.emptySlice).1.view
      (rangeSlice te (fun st event =>
        if cond event then st.1.append grow st.2 event else st) h₀.emptySlice).2
      = (h₀.view te).foldl (fun res event => if cond event then res ++ [event] else res) [] := by
  apply rangeSlice_sim h₀ te hte
    (fun st event => if cond event then st.1.append grow st.2 event else st)
    (fun res event => if cond event then res ++ [event] else res)
    (fun st p => (∃ ext, st.1 = h₀ ++ ext) ∧ st.1.Holds st.2 ∧ NewSince h₀.length st.2 ∧
      st.1.view st.2 = p)
  · intro st p hinv
    exact hinv.1
  · intro st p ev hinv
    obtain ⟨⟨ext, hext⟩, hholds, hnew, hview⟩ := hinv
    by_cases hc : cond ev
    · simp only [hc, if_true]
      obtain ⟨h, s⟩ := st
      simp only at hext hholds hnew hview ⊢
      subst hext
      obtain ⟨a1, a2, a3, a4, -, -⟩ := append_spec grow h₀ ext s ev hholds hnew
      exact ⟨a1, a2, a3, by rw [a4, hview]⟩
    · simp only [hc, if_false]
      exact ⟨⟨ext, hext⟩, hholds, hnew, hview⟩
  · refine ⟨⟨[⟨0, []⟩], rfl⟩, ?_, ?_, ?_⟩
    · intro r hr
      simp only [Heap.emptySlice, Option.some.injEq] at hr
      subst hr
      exact ⟨_, List.getElem?_concat_length _ _, by simp⟩
    · intro r hr
      simp only [Heap.emptySlice, Option.some.injEq] at hr
      subst hr
      simp
    · simp only [Heap.emptySlice, Heap.view, List.getElem?_concat_length]
      rfl

theorem Mem_withTest_spec (grow : Nat → Nat) (h₀ : Heap) (te : GoSlice) (hte : h₀.Holds te) :
    (∃ ext, (Mem.withTest grow h₀ te).1 = h₀ ++ ext) ∧
    NewSince h₀.length (Mem.withTest grow h₀ te).2 ∧
    (Mem.withTest grow h₀ te).1.view (Mem.withTest grow h₀ te).2
      = testEvents.withTest (h₀.view te) := by
  obtain ⟨a1, -, a3, a4⟩ := appendLoop_spec grow (fun e => e.Test ≠ "") h₀ te hte
  exact ⟨a1, a3, a4⟩

theorem Mem_withPackage_spec (grow : Nat → Nat) (h₀ : Heap) (te : GoSlice)
    (hte : h₀.Holds te) :
    (∃ ext, (Mem.withPackage grow h₀ te).1 = h₀ ++ ext) ∧
    NewSince h₀.length (Mem.withPackage grow h₀ te).2 ∧
    (Mem.withPackage grow h₀ te).1.view (Mem.withPackage grow h₀ te).2
      = testEvents.withPackage (h₀.view te) := by
  obtain ⟨a1, -, a3, a4⟩ := appendLoop_spec grow
    (fun e => e.Package ≠ "" ∧ e.Package ≠ "command-line-arguments") h₀ te hte
  exact ⟨a1, a3, a4⟩

theorem sm_lookup_cons (k k' : String) (v : GoSlice) (m : SliceMap) :
    List.lookup k ((k', v) :: m) = if k = k' then some v else List.lookup k m := by
  by_cases h : k = k'
  · subst h; simp [List.lookup]
  · have : (k == k') = false := by simpa using h
    simp [List.lookup, this, h]

theorem viewMap_get (h : Heap) (m : SliceMap) (k : String) :
    (h.viewMap m).get k = h.view (m.get k) := by
  induction m with
  | nil => rfl
  | cons kv m ih =>
    obtain ⟨k', s⟩ := kv
    unfold testEventsMaps.get SliceMap.get at ih ⊢
    simp only [Heap.viewMap, List.map_cons, lookup_cons_pair, sm_lookup_cons] at ih ⊢
    by_cases hk : k = k'
    · simp [hk]
    · simp only [hk, if_false]; exact ih

theorem viewMap_keys (h : Heap) (m : SliceMap) :
    (h.viewMap m).map Prod.fst = m.map Prod.fst := by
  simp [Heap.viewMap, List.map_map, Function.comp_def]

theorem sm_mem_set (m : SliceMap) (hnd : (m.map Prod.fst).Nodup) (k : String) (v : GoSlice)
    (kv : String × GoSlice) (h : kv ∈ m.set k v) : kv = (k, v) ∨ (kv ∈ m ∧ kv.1 ≠ k) := by
  induction m with
  | nil =>
    simp only [SliceMap.set, List.mem_singleton] at h
    exact Or.inl h
  | cons p m ih =>
    obtain ⟨k', s⟩ := p
    rw [List.map_cons, List.nodup_cons] at hnd
    by_cases hk : k' = k
    · simp only [SliceMap.set, hk, if_true, List.mem_cons] at h
      rcases h with h | h
      · exact Or.inl h
      · refine Or.inr ⟨List.mem_cons_of_mem _ h, fun e => hnd.1 ?_⟩
        rw [hk, ← e]
        exact List.mem_map.2 ⟨kv, h, rfl⟩
    · simp only [SliceMap.set, hk, if_false, List.mem_cons] at h
      rcases h with h | h
      · refine Or.inr ⟨by rw [h]; exact List.mem_cons_self _ _, ?_⟩
        rw [h]; exact hk
      · rcases ih hnd.2 h with h' | ⟨h', hne⟩
        · exact Or.inl h'
        · exact Or.inr ⟨List.mem_cons_of_mem _ h', hne⟩

theorem sm_get_mem (m : SliceMap) (k : String) (r : SliceRef) (h : m.get k = some r) :
    (k, some r) ∈ m := by
  induction m with
  | nil => simp [SliceMap.get] at h
  | cons p m ih =>
    obtain ⟨k', s⟩ := p
    unfold SliceMap.get at h ih
    rw [sm_lookup_cons] at h
    by_cases hk : k = k'
    · simp only [hk, if_true, Option.getD_some] at h
      rw [hk, h]; exact List.mem_cons_self _ _
    · simp only [hk, if_false] at h
      exact List.mem_cons_of_mem _ (ih h)

theorem viewMap_set (h h' : Heap) (m : SliceMap) (hnd : (m.map Prod.fst).Nodup) (k : String)
    (r : GoSlice) (v : testEvents) (hv : h'.view r = v)
    (hkeep : ∀ kv ∈ m, kv.1 ≠ k → h'.view kv.2 = h.view kv.2) :
    (h.viewMap m).set k v = h'.viewMap (m.set k r) := by
  induction m with
  | nil => simp [Heap.viewMap, testEventsMaps.set, SliceMap.set, hv]
  | cons p m ih =>
    obtain ⟨k', s⟩ := p
    rw [List.map_cons, List.nodup_cons] at hnd
    by_cases hk : k' = k
    · have hrest : h.viewMap m = h'.viewMap m := by
        unfold Heap.viewMap
        apply List.map_congr_left
        intro kv hkv
        have hne : kv.1 ≠ k := by
          intro e
          apply hnd.1
          rw [hk, ← e]
          exact List.mem_map.2 ⟨kv, hkv, rfl⟩
        rw [hkeep kv (List.mem_cons_of_mem _ hkv) hne]
      simp only [Heap.viewMap, List.map_cons, testEventsMaps.set, SliceMap.set, hk, if_true,
        hv]
      exact congrArg _ hrest
    · have h1 := hkeep (k', s) (List.mem_cons_self _ _) hk
      have ih' := ih hnd.2 (fun kv hkv hne => hkeep kv (List.mem_cons_of_mem _ hkv) hne)
      simp only [Heap.viewMap, List.map_cons, testEventsMaps.set, SliceMap.set, hk, if_false]
      simp only at h1
      rw [h1]
      exact congrArg _ ih'

/-- A loop that appends each event to the group of its key, in a map that was
empty before the loop, writes only to arrays allocated during the loop. -/
theorem groupLoop_spec (grow : Nat → Nat) (f : testEvent → String) (h₀ : Heap) (te : GoSlice)
    (hte : h₀.Holds te) :
    (∃ ext, (rangeSlice te (fun st ev => Mem.appendToGroup grow (f ev) st ev) (h₀, [])).1
        = h₀ ++ ext) ∧
    (rangeSlice te (fun st ev => Mem.appendToGroup grow (f ev) st ev) (h₀, [])).1.viewMap
      (rangeSlice te (fun st ev => Mem.appendToGroup grow (f ev) st ev) (h₀, [])).2
      = groupFold f [] (h₀.view te) ∧
    (∀ kv ∈ (rangeSlice te (fun st ev => Mem.appendToGroup grow (f ev) st ev) (h₀, [])).2,
      (rangeSlice te (fun st ev => Mem.appendToGroup grow (f ev) st ev) (h₀, [])).1.Holds kv.2 ∧
      NewSince h₀.length kv.2) := by
  have main := rangeSlice_sim h₀ te hte
    (fun st ev => Mem.appendToGroup grow (f ev) st ev)
    (fun m ev => m.set (f ev) (m.get (f ev) ++ [ev]))
    (fun st pm => (∃ ext, st.1 = h₀ ++ ext) ∧ pm = st.1.viewMap st.2 ∧
      (pm.map Prod.fst).Nodup ∧
      (∀ kv ∈ st.2, st.1.Holds kv.2 ∧ NewSince h₀.length kv.2) ∧
      (∀ a ∈ st.2, ∀ b ∈ st.2, a.1 ≠ b.1 →
        ∀ r r', a.2 = some r → b.2 = some r' → r.arr ≠ r'.arr))
    (fun st p hinv => hinv.1)
    ?_ (h₀, []) [] ?_
  · obtain ⟨a1, a2, -, a4, -⟩ := main
    exact ⟨a1, a2.symm, a4⟩
  · intro st pm ev hinv
    obtain ⟨h, m⟩ := st
    obtain ⟨⟨ext, hext⟩, hpm, hnd, hall, hdist⟩ := hinv
    simp only [Mem.appendToGroup] at hext hpm hall hdist ⊢
    subst hext
    have hndm : (m.map Prod.fst).Nodup := by rw [← viewMap_keys (h₀ ++ ext) m, ← hpm]; exact hnd
    have hg : (h₀ ++ ext).Holds (m.get (f ev)) ∧ NewSince h₀.length (m.get (f ev)) := by
      cases hget : m.get (f ev) with
      | none => exact ⟨holds_nil _, newSince_nil _⟩
      | some r => exact hall _ (sm_get_mem m _ r hget)
    obtain ⟨a1, a2, a3, a4, a5, a6⟩ :=
      append_spec grow h₀ ext (m.get (f ev)) ev hg.1 hg.2
    have hother : ∀ kv ∈ m, kv.1 ≠ f ev →
        ∀ r r', m.get (f ev) = some r → kv.2 = some r' → r'.arr ≠ r.arr := by
      intro kv hkv hne r r' hr hr'
      exact hdist kv hkv (f ev, some r) (sm_get_mem m _ r hr) hne r' r hr' rfl
    refine ⟨a1, ?_, nodup_keys_set pm _ _ hnd, ?_, ?_⟩
    · rw [hpm]
      apply viewMap_set (h₀ ++ ext) _ m hndm (f ev)
      · rw [a4, viewMap_get]
      · intro kv hkv hne
        exact (a5 kv.2 (hall kv hkv).1 (hother kv hkv hne)).1
    · intro kv hkv
      rcases sm_mem_set m hndm _ _ kv hkv with hkv' | ⟨hkv', hne⟩
      · rw [hkv']; exact ⟨a2, a3⟩
      · exact ⟨(a5 kv.2 (hall kv hkv').1 (hother kv hkv' hne)).2, (hall kv hkv').2⟩
    · intro a ha b hb hab r r' hr hr'
      have fresh : ∀ (c : String × GoSlice), c ∈ m → c.1 ≠ f ev →
          ∀ rn rc, ((h₀ ++ ext).append grow (m.get (f ev)) ev).2 = some rn →
            c.2 = some rc → rn.arr ≠ rc.arr := by
        intro c hc hne rn rc hrn hrc
        rcases a6 rn hrn with ⟨rg, hrg, harr⟩ | hlen
        · rw [harr]
          exact fun e => hother c hc hne rg rc hrg hrc e.symm
        · have hlt := holds_lt _ rc (by rw [← hrc]; exact (hall c hc).1)
          omega
      rcases sm_mem_set m hndm _ _ a ha with ha' | ⟨ha', hnea⟩
      · rcases sm_mem_set m hndm _ _ b hb with hb' | ⟨hb', hneb⟩
        · rw [ha', hb'] at hab; exact absurd rfl hab
        · rw [ha'] at hr
          exact fresh b hb' hneb r r' hr hr'
      · rcases sm_mem_set m hndm _ _ b hb with hb' | ⟨hb', hneb⟩
        · rw [hb'] at hr'
          exact fun e => fresh a ha' hnea r' r hr' hr e.symm
        · exact hdist a ha' b hb' hab r r' hr hr'
  · refine ⟨⟨[], by simp⟩, rfl, by simp, ?_, ?_⟩
    · intro kv hkv; cases hkv
    · intro a ha; cases ha

theorem Mem_ByAction_spec (grow : Nat → Nat) (h₀ : Heap) (te : GoSlice) (hte : h₀.Holds te) :
    (∃ ext, (Mem.ByAction grow h₀ te).1 = h₀ ++ ext) ∧
    (Mem.ByAction grow h₀ te).1.viewMap (Mem.ByAction grow h₀ te).2
      = testEvents.ByAction (h₀.view te) ∧
    (∀ kv ∈ (Mem.ByAction grow h₀ te).2,
      (Mem.ByAction grow h₀ te).1.Holds kv.2 ∧ NewSince h₀.length kv.2) :=
  groupLoop_spec grow testEvent.Action h₀ te hte

theorem Mem_byKey_spec (grow : Nat → Nat) (h₀ : Heap) (te : GoSlice) (hte : h₀.Holds te) :
    (∃ ext, (Mem.byKey grow h₀ te).1 = h₀ ++ ext) ∧
    (Mem.byKey grow h₀ te).1.viewMap (Mem.byKey grow h₀ te).2
      = testEvents.byKey (h₀.view te) ∧
    (∀ kv ∈ (Mem.byKey grow h₀ te).2,
      (Mem.byKey grow h₀ te).1.Holds kv.2 ∧ NewSince h₀.length kv.2) :=
  groupLoop_spec grow testEvent.key h₀ te hte

theorem sortSlice_spec (S : SliceSorter) (less : testEvent → testEvent → Bool) (h : Heap)
    (s : GoSlice) (hs : h.Holds s) :
    (h.sortSlice S less s).view s = S.sort less (h.view s) ∧
    (h.sortSlice S less s).Holds s ∧
    (h.sortSlice S less s).length = h.length := by
  cases s with
  | none =>
    refine ⟨?_, holds_nil _, rfl⟩
    have hp := S.perm less []
    simp only [Heap.sortSlice, Heap.view]
    exact (List.perm_nil.1 hp).symm
  | some r =>
    obtain ⟨b, hb, hl⟩ := hs r rfl
    have hlt : r.arr < h.length := holds_lt h r hs
    have hlen : (S.sort less (b.elems.take r.len)).length = r.len := by
      rw [(S.perm less _).length_eq]; simp [hl]
    refine ⟨?_, ?_, ?_⟩
    · simp only [Heap.sortSlice, hb, Heap.view, List.getElem?_set_eq_of_lt _ hlt]
      rw [List.take_append_eq_append_take, hlen]
      simp [List.take_of_length_le, hlen]
    · intro r' hr'
      simp only [Option.some.injEq] at hr'
      subst hr'
      refine ⟨_, by simp only [Heap.sortSlice, hb]; exact List.getElem?_set_eq_of_lt _ hlt, ?_⟩
      simp only [List.length_append, hlen, List.length_drop]
      omega
    · simp [Heap.sortSlice, hb]

theorem sortSlice_untouched (S : SliceSorter) (less : testEvent → testEvent → Bool)
    (h₀ ext : Heap) (s : GoSlice) (hn : NewSince h₀.length s) :
    Untouched h₀ ((h₀ ++ ext).sortSlice S less s) := by
  cases s with
  | none => exact ⟨ext, rfl⟩
  | some r =>
    cases hb : (h₀ ++ ext)[r.arr]? with
    | none => exact ⟨ext, by simp [Heap.sortSlice, hb]⟩
    | some b =>
      exact ⟨ext.set (r.arr - h₀.length) _, by
        simp only [Heap.sortSlice, hb]
        exact List.set_append_right _ _ (hn r rfl)⟩

theorem concatLoop_spec (h : Heap) (g : GoSlice) (hg : h.Holds g) :
    rangeSlice g (fun (st : Heap × String) ev => (st.1, st.2 ++ ev.Output)) (h, "")
      = (h, (h.view g).foldl (fun output ev => output ++ ev.Output) "") := by
  have hloop : (rangeSlice g (fun (st : Heap × String) ev => (st.1, st.2 ++ ev.Output))
        (h, "")).1 = h ∧
      (rangeSlice g (fun (st : Heap × String) ev => (st.1, st.2 ++ ev.Output)) (h, "")).2
        = (h.view g).foldl (fun output ev => output ++ ev.Output) "" :=
    rangeSlice_sim h g hg
      (fun (st : Heap × String) ev => (st.1, st.2 ++ ev.Output))
      (fun (output : String) ev => output ++ ev.Output)
      (fun st p => st.1 = h ∧ st.2 = p)
      (fun st p hinv => ⟨[], by rw [hinv.1]; simp⟩)
      (fun st p ev hinv => ⟨hinv.1, by
        show st.2 ++ ev.Output = p ++ ev.Output
        rw [hinv.2]⟩)
      (h, "") "" ⟨rfl, rfl⟩
  exact Prod.ext hloop.1 hloop.2

theorem Mem_output_spec (grow : Nat → Nat) (S : SliceSorter) (h₀ : Heap) (te : GoSlice)
    (hte : h₀.Holds te) :
    Untouched h₀ (Mem.output grow S h₀ te).1 ∧
    (Mem.output grow S h₀ te).2 = testEvents.output S (h₀.view te) := by
  obtain ⟨⟨ext, hext⟩, hview, hall⟩ := Mem_ByAction_spec grow h₀ te hte
  have hg : (Mem.ByAction grow h₀ te).1.Holds ((Mem.ByAction grow h₀ te).2.get "output") ∧
      NewSince h₀.length ((Mem.ByAction grow h₀ te).2.get "output") := by
    cases hget : (Mem.ByAction grow h₀ te).2.get "output" with
    | none => exact ⟨holds_nil _, newSince_nil _⟩
    | some r => exact hall _ (sm_get_mem _ _ r hget)
  obtain ⟨hsv, hsh, -⟩ := sortSlice_spec S (fun a b => decide (a.Time < b.Time))
    (Mem.ByAction grow h₀ te).1 ((Mem.ByAction grow h₀ te).2.get "output") hg.1
  have hout : Mem.output grow S h₀ te
      = rangeSlice ((Mem.ByAction grow h₀ te).2.get "output")
          (fun (st : Heap × String) ev => (st.1, st.2 ++ ev.Output))
          (((Mem.ByAction grow h₀ te).1).sortSlice S (fun a b => decide (a.Time < b.Time))
            ((Mem.ByAction grow h₀ te).2.get "output"), "") := rfl
  rw [hout, concatLoop_spec _ _ hsh]
  constructor
  · show Untouched h₀ (((Mem.ByAction grow h₀ te).1).sortSlice S _ _)
    rw [hext]
    exact sortSlice_untouched S _ h₀ ext _ hg.2
  · show List.foldl _ "" _ = _
    rw [hsv, ← viewMap_get, hview]
    rfl

theorem sm_mem_set_weak (m : SliceMap) (k : String) (v : GoSlice) (kv : String × GoSlice)
    (h : kv ∈ m.set k v) : kv = (k, v) ∨ kv ∈ m := by
  induction m with
  | nil =>
    simp only [SliceMap.set, List.mem_singleton] at h
    exact Or.inl h
  | cons p m ih =>
    obtain ⟨k', s⟩ := p
    by_cases hk : k' = k
    · simp only [SliceMap.set, hk, if_true, List.mem_cons] at h
      rcases h with h | h
      · exact Or.inl h
      · exact Or.inr (List.mem_cons_of_mem _ h)
    · simp only [SliceMap.set, hk, if_false, List.mem_cons] at h
      rcases h with h | h
      · exact Or.inr (by rw [h]; exact List.mem_cons_self _ _)
      · rcases ih h with h' | h'
        · exact Or.inl h'
        · exact Or.inr (List.mem_cons_of_mem _ h')

theorem Mem_filterByResult_mem (ρ : SliceMapOrder) (h : Heap) (m : SliceMap) (r : String)
    (kv : String × GoSlice) (hkv : kv ∈ (Mem.filterByResult ρ h m r).2) : kv ∈ m := by
  have gen : ∀ (l out : SliceMap), (∀ x ∈ out, x ∈ ρ.iter m) → (∀ x ∈ l, x ∈ ρ.iter m) →
      ∀ x ∈ l.foldl (fun out kv =>
        match testEvents.result (h.view kv.2) with
        | none => out
        | some event => if event.Action = r then out.set kv.1 kv.2 else out) out,
      x ∈ ρ.iter m := by
    intro l
    induction l with
    | nil => intro out hout _ x hx; exact hout x hx
    | cons a l ih =>
      intro out hout hl x hx
      rw [List.foldl_cons] at hx
      refine ih _ ?_ (fun y hy => hl y (List.mem_cons_of_mem _ hy)) x hx
      intro y hy
      cases hres : testEvents.result (h.view a.2) with
      | none => simp only [hres] at hy; exact hout y hy
      | some event =>
        simp only [hres] at hy
        by_cases ha : event.Action = r
        · simp only [ha, if_true] at hy
          rcases sm_mem_set_weak out _ _ y hy with hy' | hy'
          · rw [hy']; exact hl a (List.mem_cons_self _ _)
          · exact hout y hy'
        · simp only [ha, if_false] at hy
          exact hout y hy
  exact (ρ.perm m).mem_iff.1
    (gen (ρ.iter m) [] (fun x hx => by cases hx) (fun x hx => hx) kv hkv)

/-! ## Claim on the projections and the receiver -/

theorem view_untouched (h h' : Heap) (s : GoSlice) (hs : h.Holds s) (hu : Untouched h h') :
    h'.view s = h.view s := by
  obtain ⟨ext, hext⟩ := hu
  rw [hext]
  exact view_extend h ext s hs

/-- C12 (as stated, refuted): `sortEvents` puts the events of the receiver in
timestamp order inside the receiver's own array and returns the receiver: after
the call the receiver no longer holds its events in the order it had. -/
theorem sortEvents_sorts_receiver :
    sampleHeap.view sampleSlice = [lateOutput, earlyOutput] ∧
    (Mem.sortEvents insertionSorter sampleHeap sampleSlice).2 = sampleSlice ∧
    (Mem.sortEvents insertionSorter sampleHeap sampleSlice).1.view sampleSlice
      = [earlyOutput, lateOutput] := by
  refine ⟨by decide, by decide, by decide⟩

/-- C12 (amended): `ByAction`, `byKey`, `withTest`, `withPackage`, `output`,
`result` and `filterByResult` leave every array that existed before the call as
it was, so the receiver holds the same events in the same order afterwards, and
they compute what the projections are defined to compute; `ByAction`, `byKey`,
`withTest` and `withPackage` put their result in arrays allocated during the
call, `filterByResult` keeps slices of the receiver in a new map; `sortEvents`
instead sorts the receiver's array in place, allocates nothing and returns the
receiver. -/
theorem projections_and_receiver (grow : Nat → Nat) (S : SliceSorter) (h : Heap)
    (te : GoSlice) (hte : h.Holds te) :
    (Untouched h (Mem.ByAction grow h te).1 ∧
      (Mem.ByAction grow h te).1.view te = h.view te ∧
      (Mem.ByAction grow h te).1.viewMap (Mem.ByAction grow h te).2
        = testEvents.ByAction (h.view te) ∧
      ∀ kv ∈ (Mem.ByAction grow h te).2, NewSince h.length kv.2) ∧
    (Untouched h (Mem.byKey grow h te).1 ∧
      (Mem.byKey grow h te).1.view te = h.view te ∧
      (Mem.byKey grow h te).1.viewMap (Mem.byKey grow h te).2
        = testEvents.byKey (h.view te) ∧
      ∀ kv ∈ (Mem.byKey grow h te).2, NewSince h.length kv.2) ∧
    (Untouched h (Mem.withTest grow h te).1 ∧
      (Mem.withTest grow h te).1.view te = h.view te ∧
      (Mem.withTest grow h te).1.view (Mem.withTest grow h te).2
        = testEvents.withTest (h.view te) ∧
      NewSince h.length (Mem.withTest grow h te).2) ∧
    (Untouched h (Mem.withPackage grow h te).1 ∧
      (Mem.withPackage grow h te).1.view te = h.view te ∧
      (Mem.withPackage grow h te).1.view (Mem.withPackage grow h te).2
        = testEvents.withPackage (h.view te) ∧
      NewSince h.length (Mem.withPackage grow h te).2) ∧
    (Untouched h (Mem.output grow S h te).1 ∧
      (Mem.output grow S h te).1.view te = h.view te ∧
      (Mem.output grow S h te).2 = testEvents.output S (h.view te)) ∧
    ((Mem.result h te).1 = h ∧ (Mem.result h te).2 = testEvents.result (h.view te)) ∧
    (∀ (ρ : SliceMapOrder) (m : SliceMap) (r : String),
      (Mem.filterByResult ρ h m r).1 = h ∧
      ∀ kv ∈ (Mem.filterByResult ρ h m r).2, kv ∈ m) ∧
    ((Mem.sortEvents S h te).2 = te ∧
      (Mem.sortEvents S h te).1.view te = testEvents.sortEvents S (h.view te) ∧
      (Mem.sortEvents S h te).1.length = h.length) := by
  obtain ⟨a1, a2, a3⟩ := Mem_ByAction_spec grow h te hte
  obtain ⟨b1, b2, b3⟩ := Mem_byKey_spec grow h te hte
  obtain ⟨c1, c2, c3⟩ := Mem_withTest_spec grow h te hte
  obtain ⟨d1, d2, d3⟩ := Mem_withPackage_spec grow h te hte
  obtain ⟨e1, e2⟩ := Mem_output_spec grow S h te hte
  obtain ⟨f1, -, f3⟩ := sortSlice_spec S (fun a b => decide (a.Time < b.Time)) h te hte
  exact ⟨⟨a1, view_untouched _ _ te hte a1, a2, fun kv hkv => (a3 kv hkv).2⟩,
    ⟨b1, view_untouched _ _ te hte b1, b2, fun kv hkv => (b3 kv hkv).2⟩,
    ⟨c1, view_untouched _ _ te hte c1, c3, c2⟩,
    ⟨d1, view_untouched _ _ te hte d1, d3, d2⟩,
    ⟨e1, view_untouched _ _ te hte e1, e2⟩,
    ⟨rfl, rfl⟩,
    fun ρ m r => ⟨rfl, fun kv hkv => Mem_filterByResult_mem ρ h m r kv hkv⟩,
    ⟨rfl, f1, f3⟩⟩

/-- Witness of C12: the sample memory and its slice of two events. -/
theorem projections_and_receiver_witness :
    sampleHeap.Holds sampleSlice ∧
    (Mem.withTest (fun c => 2 * c) sampleHeap sampleSlice).1.view sampleSlice
      = sampleHeap.view sampleSlice ∧
    (Mem.output (fun c => 2 * c) insertionSorter sampleHeap sampleSlice).1.view sampleSlice
      = sampleHeap.view sampleSlice :=
  ⟨fun r hr => by cases hr; exact ⟨_, rfl, by decide⟩,
    (projections_and_receiver (fun c => 2 * c) insertionSorter sampleHeap sampleSlice
      (fun r hr => by cases hr; exact ⟨_, rfl, by decide⟩)).2.2.1.2.1,
    (projections_and_receiver (fun c => 2 * c) insertionSorter sampleHeap sampleSlice
      (fun r hr => by cases hr; exact ⟨_, rfl, by decide⟩)).2.2.2.2.1.2.1⟩

/-! ## Helper lemmas: tests as (package, test) pairs -/

theorem pairKey_data (id : String × String) :
    (pairKey id).data = id.1.data ++ ':' :: id.2.data := by
  simp [pairKey, String.data_append]

theorem pairKey_identity (e : testEvent) : pairKey (testIdentity e) = e.key := by
  rw [key_eq]; rfl

theorem pairKey_inj (a b : String × String) (ha : ':' ∉ a.1.data) (hb : ':' ∉ b.1.data)
    (h : pairKey a = pairKey b) : a = b := by
  have hd := congrArg String.data h
  rw [pairKey_data, pairKey_data] at hd
  obtain ⟨h1, h2⟩ := append_cons_inj ':' _ _ _ _ ha hb hd
  exact Prod.ext (String.ext h1) (String.ext h2)

theorem key_eq_pairKey_iff (e : testEvent) (id : String × String)
    (he : ':' ∉ e.Package.data) (hid : ':' ∉ id.1.data) :
    e.key = pairKey id ↔ e.Package = id.1 ∧ e.Test = id.2 := by
  rw [← pairKey_identity]
  constructor
  · intro h
    have := pairKey_inj (testIdentity e) id he hid h
    rw [← this]
    exact ⟨rfl, rfl⟩
  · rintro ⟨h1, h2⟩
    have : testIdentity e = id := Prod.ext h1 h2
    rw [this]

theorem outcomeOfTest_eq (events : testEvents) (id : String × String)
    (hcolon : NoColonPackages events) (hid : ':' ∉ id.1.data) :
    outcomeOfTest events id = resolvedOutcome events (pairKey id) := by
  unfold outcomeOfTest resolvedOutcome
  congr 1
  apply List.filter_congr
  intro e he
  have hm := List.mem_filter.1 he
  exact decide_eq_decide.2 (key_eq_pairKey_iff e id (hcolon e hm.1 hm.2) hid).symm

theorem testFails_eq (events : testEvents) (id : String × String)
    (hcolon : NoColonPackages events) (hid : ':' ∉ id.1.data) :
    testFails events id = resolvesToFail events (pairKey id) := by
  unfold testFails resolvesToFail
  rw [outcomeOfTest_eq events id hcolon hid]

theorem failingPairs_mem (events : testEvents) (id : String × String) :
    id ∈ failingPairs events
      ↔ (∃ e ∈ events, countsForReport e = true ∧ testIdentity e = id) ∧
        testFails events id = true := by
  simp only [failingPairs, List.mem_filter, List.mem_dedup, List.mem_map]
  constructor
  · rintro ⟨⟨e, ⟨he, hc⟩, rfl⟩, hf⟩
    exact ⟨⟨e, he, hc, rfl⟩, hf⟩
  · rintro ⟨⟨e, he, hc, rfl⟩, hf⟩
    exact ⟨⟨e, ⟨he, hc⟩, rfl⟩, hf⟩

theorem failingKeys_mem (events : testEvents) (k : String) :
    k ∈ failingKeys events
      ↔ (∃ e ∈ events, countsForReport e = true ∧ e.key = k) ∧
        resolvesToFail events k = true := by
  simp only [failingKeys, List.mem_filter, List.mem_dedup, List.mem_map]
  constructor
  · rintro ⟨⟨e, ⟨he, hc⟩, rfl⟩, hf⟩
    exact ⟨⟨e, he, hc, rfl⟩, hf⟩
  · rintro ⟨⟨e, he, hc, rfl⟩, hf⟩
    exact ⟨⟨e, ⟨he, hc⟩, rfl⟩, hf⟩

theorem failingPairs_nodup (events : testEvents) : (failingPairs events).Nodup :=
  (List.nodup_dedup _).filter _

theorem failingKeys_nodup (events : testEvents) : (failingKeys events).Nodup :=
  (List.nodup_dedup _).filter _

theorem failingPairs_no_colon (events : testEvents) (hcolon : NoColonPackages events)
    (id : String × String) (h : id ∈ failingPairs events) : ':' ∉ id.1.data := by
  obtain ⟨⟨e, he, hc, rfl⟩, -⟩ := (failingPairs_mem events id).1 h
  exact hcolon e he hc

theorem failingPairs_keys (events : testEvents) (hcolon : NoColonPackages events) :
    ((failingPairs events).map pairKey).Perm (failingKeys events) := by
  rw [List.perm_ext_iff_of_nodup _ (failingKeys_nodup events)]
  · intro k
    rw [List.mem_map, failingKeys_mem]
    constructor
    · rintro ⟨id, hid, rfl⟩
      have hno := failingPairs_no_colon events hcolon id hid
      obtain ⟨⟨e, he, hc, rfl⟩, hf⟩ := (failingPairs_mem events id).1 hid
      exact ⟨⟨e, he, hc, (pairKey_identity e).symm⟩,
        by rw [← testFails_eq events _ hcolon hno]; exact hf⟩
    · rintro ⟨⟨e, he, hc, rfl⟩, hf⟩
      refine ⟨testIdentity e, (failingPairs_mem events _).2 ⟨⟨e, he, hc, rfl⟩, ?_⟩,
        pairKey_identity e⟩
      rw [testFails_eq events _ hcolon (hcolon e he hc), pairKey_identity]
      exact hf
  · apply List.Nodup.map_on _ (failingPairs_nodup events)
    intro a ha b hb hab
    exact pairKey_inj a b (failingPairs_no_colon events hcolon a ha)
      (failingPairs_no_colon events hcolon b hb) hab

theorem failingPairs_length (events : testEvents) (hcolon : NoColonPackages events) :
    (failingPairs events).length = (failingKeys events).length := by
  rw [← (failingPairs_keys events hcolon).length_eq, List.length_map]

theorem resolvedOutcome_mem (events : testEvents) (k : String) (r : testEvent)
    (h : resolvedOutcome events k = some r) :
    r ∈ events ∧ countsForReport r = true ∧ r.key = k := by
  have hm := List.mem_of_find?_eq_some h
  have h1 := List.mem_filter.1 hm
  have h2 := List.mem_filter.1 h1.1
  exact ⟨h2.1, h2.2, by simpa using h1.2⟩

theorem outcomeOfTest_of_key (events : testEvents) (hcolon : NoColonPackages events)
    (k : String) (r : testEvent) (h : resolvedOutcome events k = some r) :
    outcomeOfTest events (testIdentity r) = some r := by
  obtain ⟨hr, hc, hk⟩ := resolvedOutcome_mem events k r h
  rw [outcomeOfTest_eq events _ hcolon (hcolon r hr hc), pairKey_identity, hk]
  exact h

theorem splitLines_encodeLines (lines : List (List Byte)) (h : ∀ l ∈ lines, 10 ∉ l) :
    splitLines (encodeLines lines) = lines := by
  induction lines with
  | nil => rfl
  | cons l ls ih =>
    have hl : ∀ b ∈ l, b ≠ 10 := fun b hb hb10 =>
      h l (List.mem_cons_self _ _) (hb10 ▸ hb)
    have ih' := ih (fun x hx => h x (List.mem_cons_of_mem _ hx))
    unfold encodeLines at ih' ⊢
    rw [List.flatMap_cons, List.append_assoc, List.singleton_append, splitLines_append _ _ hl,
      ih']

theorem dropCR_plain (l : List Byte) (h : l.getLast? ≠ some 13) : dropCR l = l := by
  unfold dropCR
  rw [if_neg h]

theorem scanTokens_encodeLines (lines : List (List Byte)) (h : ∀ l ∈ lines, PlainLine l) :
    scanTokens (encodeLines lines) = lines := by
  unfold scanTokens
  rw [splitLines_encodeLines lines (fun l hl => (h l hl).1),
    List.takeWhile_eq_self_iff.2 (fun l hl => by simpa using (h l hl).2.2)]
  conv_rhs => rw [← List.map_id lines]
  apply List.map_congr_left
  intro l hl
  exact dropCR_plain l (h l hl).2.1

theorem decodedEvents_encodeLines (decode : List Byte → Option testEvent)
    (lines : List (List Byte)) (h : ∀ l ∈ lines, PlainLine l) :
    decodedEvents decode (encodeLines lines) = lines.filterMap decode := by
  unfold decodedEvents
  rw [scanTokens_encodeLines lines h]

theorem reports_every_failing_test (fs : FileSystem) (events : testEvents)
    (rootPath rootPkg : String) (hcolon : NoColonPackages events)
    (reports : List ErrorReport)
    (hrep : List.Forall₂ (IsReportOf fs events rootPath rootPkg)
      (sortStrings (failingKeys events)) reports) :
    ∃ ids : List (String × String), ids.Perm (failingPairs events) ∧
      List.Forall₂ (IsReportOfTest fs events rootPath rootPkg) ids reports := by
  refine ⟨(sortStrings (failingKeys events)).map
    (fun k => ((resolvedOutcome events k).map testIdentity).getD ("", "")), ?_, ?_⟩
  · have hkey : ∀ k ∈ failingKeys events, ∃ r, resolvedOutcome events k = some r ∧
        r.Action = "fail" := by
      intro k hk
      have hf := ((failingKeys_mem events k).1 hk).2
      unfold resolvesToFail at hf
      cases ho : resolvedOutcome events k with
      | none => simp [ho] at hf
      | some r => exact ⟨r, rfl, by simpa [ho] using hf⟩
    rw [List.perm_ext_iff_of_nodup _ (failingPairs_nodup events)]
    · intro id
      rw [List.mem_map]
      constructor
      · rintro ⟨k, hk, rfl⟩
        have hk' := (sortStrings_perm _).mem_iff.1 hk
        obtain ⟨r, ho, hfail⟩ := hkey k hk'
        obtain ⟨hr, hc, hrk⟩ := resolvedOutcome_mem events k r ho
        simp only [ho, Option.map_some', Option.getD_some]
        refine (failingPairs_mem events _).2 ⟨⟨r, hr, hc, rfl⟩, ?_⟩
        unfold testFails
        rw [outcomeOfTest_of_key events hcolon k r ho]
        simpa using hfail
      · intro hid
        have hno := failingPairs_no_colon events hcolon id hid
        have hk : pairKey id ∈ failingKeys events :=
          (failingPairs_keys events hcolon).mem_iff.1 (List.mem_map.2 ⟨id, hid, rfl⟩)
        obtain ⟨r, ho, -⟩ := hkey _ hk
        obtain ⟨hr, hc, hrk⟩ := resolvedOutcome_mem events _ r ho
        refine ⟨pairKey id, (sortStrings_perm _).mem_iff.2 hk, ?_⟩
        simp only [ho, Option.map_some', Option.getD_some]
        rw [← pairKey_identity] at hrk
        exact pairKey_inj _ _ (hcolon r hr hc) hno hrk
    · apply List.Nodup.map_on
      · intro a ha b hb hab
        have ha' := (sortStrings_perm _).mem_iff.1 ha
        have hb' := (sortStrings_perm _).mem_iff.1 hb
        obtain ⟨ra, hoa, -⟩ := hkey a ha'
        obtain ⟨rb, hob, -⟩ := hkey b hb'
        simp only [hoa, hob, Option.map_some', Option.getD_some] at hab
        rw [← (resolvedOutcome_mem events a ra hoa).2.2,
          ← (resolvedOutcome_mem events b rb hob).2.2, ← pairKey_identity, ← pairKey_identity,
          hab]
      · exact (sortStrings_perm _).nodup_iff.2 (failingKeys_nodup events)
  · rw [List.forall₂_map_left_iff]
    refine hrep.imp ?_
    rintro k ⟨msg, loc⟩ ⟨resEvent, ho, -, hmsg, hloc⟩
    simp only at hmsg hloc
    have hid : ((resolvedOutcome events k).map testIdentity).getD ("", "")
        = testIdentity resEvent := by
      simp only [ho, Option.map_some', Option.getD_some]
    rw [hid]
    refine ⟨resEvent, outcomeOfTest_of_key events hcolon k resEvent ho, hmsg, ?_, ?_, ?_⟩
    · simp only [hloc]
      show reportLocation (findTest fs resEvent.Package resEvent.Test rootPath rootPkg) ≠ none
        ↔ ∃ file line,
          findTest fs resEvent.Package resEvent.Test rootPath rootPkg = .ok (file, line) ∧
          line ≠ 0
      cases hf : findTest fs resEvent.Package resEvent.Test rootPath rootPkg with
      | error err => simp [reportLocation]
      | ok res =>
        obtain ⟨file, line⟩ := res
        by_cases hl : line = 0
        · simp [reportLocation, hl]
        · simp only [reportLocation, hl, ne_eq, not_false_eq_true, if_true]
          exact ⟨fun _ => ⟨file, line, rfl, hl⟩, fun _ => by simp⟩
    · intro file line hf hl
      have hf' : findTest fs resEvent.Package resEvent.Test rootPath rootPkg
          = .ok (file, line) := hf
      simp [hloc, hf', reportLocation, hl]
    · intro err hf
      have hf' : findTest fs resEvent.Package resEvent.Test rootPath rootPkg
          = .error err := hf
      simp [hmsg, hloc, hf', reportLocation]

theorem reports_length_tests (decode : List Byte → Option testEvent) (ρ : MapOrder)
    (fs : FileSystem) (input : List Byte) (output : Writer) (rootPath rootPkg : String)
    (passthrough : Bool) (hcolon : NoColonPackages (decodedEvents decode input)) :
    (∀ reports out,
      OutputFailures decode ρ fs input output rootPath rootPkg passthrough
        = .ok (reports, out) →
      reports.length = (failingPairs (decodedEvents decode input)).length) ∧
    ((passthrough = true → output.acceptsAll) →
      ∃ reports out,
        OutputFailures decode ρ fs input output rootPath rootPkg passthrough
          = .ok (reports, out) ∧
        reports.length = (failingPairs (decodedEvents decode input)).length) := by
  rw [failingPairs_length _ hcolon]
  constructor
  · intro reports out hrun
    rw [OutputFailures_of_ok decode ρ fs input output rootPath rootPkg passthrough reports out
      hrun, ← (reports_forall₂ fs ρ _ rootPath rootPkg).length_eq,
      (sortStrings_perm _).length_eq]
  · intro h
    obtain ⟨reports, out, hrun, hrep⟩ :=
      OutputFailures_reports decode ρ fs input output rootPath rootPkg passthrough h
    exact ⟨reports, out, hrun, by
      rw [← hrep.length_eq, (sortStrings_perm _).length_eq]⟩

/-! ## Claims on the reports per test -/

/-- C1 (as stated, refuted): in the stream of a "pass" event of package `a:b`,
test `c`, and a "fail" event of package `a`, test `b:c`, one test has the
resolved outcome "fail", yet `OutputFailures` emits no report: both events have
the key `a:b:c`, and the first of them is a "pass". -/
theorem OutputFailures_misses_failing_test :
    [[49], [50]].filterMap clashDecode = [clashPass, clashFailY] ∧
    encodeLines [[49], [50]] = [49, 10, 50, 10] ∧
    failingPairs [clashPass, clashFailY] = [("a", "b:c")] ∧
    OutputFailures clashDecode MapOrder.stored sampleFS [49, 10, 50, 10] (Writer.accepting [])
      "/root" "example.com/root" false = .ok ([], Writer.accepting []) :=
  ⟨rfl, rfl, by decide, rfl⟩

/-- C1 (amended): when no event that counts has a colon in its package,
`OutputFailures`, whenever it returns, has made as many `SetErrorMessage` calls
as there are distinct (package, test) pairs whose resolved outcome is "fail",
counting only events with a non-empty test and a package that is non-empty and
not "command-line-arguments"; it does return when the pass-through sink is off
or accepts its writes; and the count is the same for every file system, that
is, whatever `findTest` does.  This holds of the events of all the lines of a
stream of newline-terminated lines shorter than the scanner's buffer, and, for
any input, of the events of the lines the scanner delivers. -/
theorem OutputFailures_one_report_per_test (decode : List Byte → Option testEvent)
    (ρ : MapOrder) (fs : FileSystem) (output : Writer) (rootPath rootPkg : String)
    (passthrough : Bool) :
    (∀ lines : List (List Byte), (∀ l ∈ lines, PlainLine l) →
      NoColonPackages (lines.filterMap decode) →
      (∀ reports out,
        OutputFailures decode ρ fs (encodeLines lines) output rootPath rootPkg passthrough
          = .ok (reports, out) →
        reports.length = (failingPairs (lines.filterMap decode)).length) ∧
      ((passthrough = true → output.acceptsAll) →
        ∃ reports out,
          OutputFailures decode ρ fs (encodeLines lines) output rootPath rootPkg passthrough
            = .ok (reports, out) ∧
          reports.length = (failingPairs (lines.filterMap decode)).length)) ∧
    (∀ input : List Byte, NoColonPackages (decodedEvents decode input) →
      (∀ reports out,
        OutputFailures decode ρ fs input output rootPath rootPkg passthrough
          = .ok (reports, out) →
        reports.length = (failingPairs (decodedEvents decode input)).length) ∧
      ((passthrough = true → output.acceptsAll) →
        ∃ reports out,
          OutputFailures decode ρ fs input output rootPath rootPkg passthrough
            = .ok (reports, out) ∧
          reports.length = (failingPairs (decodedEvents decode input)).length)) := by
  constructor
  · intro lines hlines hcolon
    have hev := decodedEvents_encodeLines decode lines hlines
    rw [← hev] at hcolon ⊢
    exact reports_length_tests decode ρ fs _ output rootPath rootPkg passthrough hcolon
  · intro input hcolon
    exact reports_length_tests decode ρ fs input output rootPath rootPkg passthrough hcolon

/-- Witness of C1: the stream of the lines `1`, `x` and `2`, in which `TestBar`
passes and `TestFoo` fails: one failing test, one report. -/
theorem OutputFailures_one_report_per_test_witness :
    (∀ l ∈ [[49], [120], [50]], PlainLine l) ∧
    NoColonPackages ([[49], [120], [50]].filterMap twoTestsDecode) ∧
    (true = true → (Writer.accepting []).acceptsAll) ∧
    [[49], [120], [50]].filterMap twoTestsDecode = [samplePass, sampleFail] ∧
    failingPairs [samplePass, sampleFail] = [("example.com/root/pkg", "TestFoo")] ∧
    (∃ out,
      OutputFailures twoTestsDecode MapOrder.reversed sampleFS
        (encodeLines [[49], [120], [50]]) (Writer.accepting []) "/root" "example.com/root"
        true = .ok ([⟨"boom", some ⟨"./pkg/foo_test.go", 10, 0⟩⟩], out)) ∧
    ∃ reports out,
      OutputFailures twoTestsDecode MapOrder.reversed sampleFS
        (encodeLines [[49], [120], [50]]) (Writer.accepting []) "/root" "example.com/root"
        true = .ok (reports, out) ∧
      reports.length = (failingPairs ([[49], [120], [50]].filterMap twoTestsDecode)).length :=
  ⟨by decide, by decide, fun _ => accepting_acceptsAll [], rfl, by decide, ⟨_, rfl⟩,
    ((OutputFailures_one_report_per_test twoTestsDecode MapOrder.reversed sampleFS
      (Writer.accepting []) "/root" "example.com/root" true).1 [[49], [120], [50]]
      (by decide) (by decide)).2 (fun _ => accepting_acceptsAll [])⟩

/-- C8 (as stated, refuted): in the stream of a "fail" event of package `a:b`,
test `c`, with the output `X`, and a "fail" event of package `a`, test `b:c`,
with the output `Y`, both tests have the resolved outcome "fail", and the
resolved outcome of the second has the output `Y`; `OutputFailures` emits the
one report `X`, written as one error command, and none that carries `Y`. -/
theorem OutputFailures_drops_report_of_failing_test :
    [[51], [50]].filterMap clashDecode = [clashFailX, clashFailY] ∧
    encodeLines [[51], [50]] = [51, 10, 50, 10] ∧
    failingPairs [clashFailX, clashFailY] = [("a:b", "c"), ("a", "b:c")] ∧
    outcomeOfTest [clashFailX, clashFailY] ("a", "b:c") = some clashFailY ∧
    clashFailY.Output = "Y" ∧
    OutputFailures clashDecode MapOrder.stored sampleFS [51, 10, 50, 10] (Writer.accepting [])
      "/root" "example.com/root" false
      = .ok ([⟨"X", none⟩], Writer.accepting ["::error::X\n"]) :=
  ⟨rfl, rfl, by decide, by decide, rfl, rfl⟩

/-- C8 (amended): when no event that counts has a colon in its package and the
run is not aborted, the reports of `OutputFailures` are, one for one, the
reports of the distinct (package, test) pairs whose resolved outcome is "fail":
the message is the output text of the test's resolved outcome event; the
location is there exactly when `findTest` returned no error and a non-zero line
(that file and line); and when `findTest` returns an error the report is still
there, with the same message and no location.  This holds of the events of all
the lines of a stream of newline-terminated lines shorter than the scanner's
buffer, and, for any input, of the events of the lines the scanner delivers. -/
theorem OutputFailures_report_of_every_test (decode : List Byte → Option testEvent)
    (ρ : MapOrder) (fs : FileSystem) (output : Writer) (rootPath rootPkg : String)
    (passthrough : Bool) (h : passthrough = true → output.acceptsAll) :
    (∀ lines : List (List Byte), (∀ l ∈ lines, PlainLine l) →
      NoColonPackages (lines.filterMap decode) →
      ∃ reports out ids,
        OutputFailures decode ρ fs (encodeLines lines) output rootPath rootPkg passthrough
          = .ok (reports, out) ∧
        ids.Perm (failingPairs (lines.filterMap decode)) ∧
        List.Forall₂ (IsReportOfTest fs (lines.filterMap decode) rootPath rootPkg)
          ids reports) ∧
    (∀ input : List Byte, NoColonPackages (decodedEvents decode input) →
      ∃ reports out ids,
        OutputFailures decode ρ fs input output rootPath rootPkg passthrough
          = .ok (reports, out) ∧
        ids.Perm (failingPairs (decodedEvents decode input)) ∧
        List.Forall₂ (IsReportOfTest fs (decodedEvents decode input) rootPath rootPkg)
          ids reports) := by
  have hgen : ∀ input : List Byte, NoColonPackages (decodedEvents decode input) →
      ∃ reports out ids,
        OutputFailures decode ρ fs input output rootPath rootPkg passthrough
          = .ok (reports, out) ∧
        ids.Perm (failingPairs (decodedEvents decode input)) ∧
        List.Forall₂ (IsReportOfTest fs (decodedEvents decode input) rootPath rootPkg)
          ids reports := by
    intro input hcolon
    obtain ⟨reports, out, hrun, hrep⟩ :=
      OutputFailures_reports decode ρ fs input output rootPath rootPkg passthrough h
    obtain ⟨ids, hperm, hids⟩ :=
      reports_every_failing_test fs _ rootPath rootPkg hcolon reports hrep
    exact ⟨reports, out, ids, hrun, hperm, hids⟩
  refine ⟨?_, hgen⟩
  intro lines hlines hcolon
  have hev := decodedEvents_encodeLines decode lines hlines
  rw [← hev] at hcolon ⊢
  exact hgen _ hcolon

/-- Witness of C8: the stream of the lines `1`, `x` and `2`, in which `TestBar`
passes and `TestFoo` fails, with the pass-through sink on; the one report
carries the output of the failing test and the location `findTest` found. -/
theorem OutputFailures_report_of_every_test_witness :
    (true = true → (Writer.accepting []).acceptsAll) ∧
    (∀ l ∈ [[49], [120], [50]], PlainLine l) ∧
    NoColonPackages ([[49], [120], [50]].filterMap twoTestsDecode) ∧
    [[49], [120], [50]].filterMap twoTestsDecode = [samplePass, sampleFail] ∧
    failingPairs [samplePass, sampleFail] = [("example.com/root/pkg", "TestFoo")] ∧
    outcomeOfTest [samplePass, sampleFail] ("example.com/root/pkg", "TestFoo")
      = some sampleFail ∧
    sampleFail.Output = "boom" ∧
    findTest sampleFS "example.com/root/pkg" "TestFoo" "/root" "example.com/root"
      = .ok ("./pkg/foo_test.go", 10) ∧
    (∃ out,
      OutputFailures twoTestsDecode MapOrder.stored sampleFS (encodeLines [[49], [120], [50]])
        (Writer.accepting []) "/root" "example.com/root" true
        = .ok ([⟨"boom", some ⟨"./pkg/foo_test.go", 10, 0⟩⟩], out)) ∧
    ∃ reports out ids,
      OutputFailures twoTestsDecode MapOrder.stored sampleFS (encodeLines [[49], [120], [50]])
        (Writer.accepting []) "/root" "example.com/root" true = .ok (reports, out) ∧
      ids.Perm (failingPairs ([[49], [120], [50]].filterMap twoTestsDecode)) ∧
      List.Forall₂
        (IsReportOfTest sampleFS ([[49], [120], [50]].filterMap twoTestsDecode) "/root"
          "example.com/root") ids reports :=
  ⟨fun _ => accepting_acceptsAll [], by decide, by decide, rfl, by decide, by decide, rfl, rfl,
    ⟨_, rfl⟩,
    (OutputFailures_report_of_every_test twoTestsDecode MapOrder.stored sampleFS
      (Writer.accepting []) "/root" "example.com/root" true
      (fun _ => accepting_acceptsAll [])).1 [[49], [120], [50]] (by decide) (by decide)⟩

/-! ## Helper lemmas: the scan of `findTest` against the declarations -/

theorem inspectPkg_no_match (testName : String) (decls : List FuncDecl) (found : String × Int)
    (h : ∀ d ∈ decls, d.Name ≠ testName) : inspectPkg testName decls found = found := by
  have hl : lastMatch testName decls = none := by
    rw [lastMatch_eq_none, List.any_eq_false]
    intro d hd
    simpa using h d hd
  rw [inspectPkg_eq, hl]

theorem scanPkgs_no_match (testName : String) (pkgs : List (List FuncDecl))
    (found : String × Int) (h : ∀ d ∈ pkgs.flatten, d.Name ≠ testName) :
    scanPkgs testName pkgs found = found := by
  induction pkgs with
  | nil => rfl
  | cons p ps ih =>
    have hp : ∀ d ∈ p, d.Name ≠ testName := fun d hd =>
      h d (List.mem_flatten.2 ⟨p, List.mem_cons_self _ _, hd⟩)
    have hps : ∀ d ∈ ps.flatten, d.Name ≠ testName := fun d hd => by
      obtain ⟨q, hq, hdq⟩ := List.mem_flatten.1 hd
      exact h d (List.mem_flatten.2 ⟨q, List.mem_cons_of_mem _ hq, hdq⟩)
    unfold scanPkgs
    simp only [inspectPkg_no_match testName p found hp, ih hps, ite_self]

theorem scanPkgs_match (testName : String) (pkgs : List (List FuncDecl))
    (found : String × Int) (hfound : found.1 = "")
    (h : ∃ d ∈ pkgs.flatten, d.Name = testName) :
    ∃ d ∈ pkgs.flatten, d.Name = testName ∧
      scanPkgs testName pkgs found = (d.Filename, d.Line) := by
  induction pkgs generalizing found with
  | nil =>
    obtain ⟨d, hd, -⟩ := h
    simp at hd
  | cons p ps ih =>
    unfold scanPkgs
    simp only [inspectPkg_eq]
    cases hl : lastMatch testName p with
    | some d =>
      obtain ⟨hdp, hdn⟩ := lastMatch_mem testName p d hl
      have hdmem : d ∈ (p :: ps).flatten :=
        List.mem_flatten.2 ⟨p, List.mem_cons_self _ _, hdp⟩
      simp only
      by_cases hF : d.Filename = ""
      · simp only [hF, ne_eq, not_true_eq_false, if_false]
        by_cases hex : ∃ d' ∈ ps.flatten, d'.Name = testName
        · obtain ⟨d', hd', hn', hs'⟩ := ih ("", d.Line) rfl hex
          obtain ⟨q, hq, hdq⟩ := List.mem_flatten.1 hd'
          exact ⟨d', List.mem_flatten.2 ⟨q, List.mem_cons_of_mem _ hq, hdq⟩, hn', hs'⟩
        · have hno : ∀ d' ∈ ps.flatten, d'.Name ≠ testName := fun d' hd' hn' =>
            hex ⟨d', hd', hn'⟩
          refine ⟨d, hdmem, hdn, ?_⟩
          rw [scanPkgs_no_match testName ps _ hno, hF]
      · simp only [ne_eq, hF, not_false_eq_true, if_true]
        exact ⟨d, hdmem, hdn, rfl⟩
    | none =>
      have hany := (lastMatch_eq_none testName p).1 hl
      simp only [hfound, ne_eq, not_true_eq_false, if_false]
      obtain ⟨d, hd, hn⟩ := h
      obtain ⟨q, hq, hdq⟩ := List.mem_flatten.1 hd
      rcases List.mem_cons.1 hq with rfl | hq'
      · rw [List.any_eq_false] at hany
        exact absurd hn (by simpa using hany d hdq)
      · obtain ⟨d', hd', hn', hs'⟩ := ih found hfound
          ⟨d, List.mem_flatten.2 ⟨q, hq', hdq⟩, hn⟩
        obtain ⟨q', hq'', hdq'⟩ := List.mem_flatten.1 hd'
        exact ⟨d', List.mem_flatten.2 ⟨q', List.mem_cons_of_mem _ hq'', hdq'⟩, hn', hs'⟩

theorem locate_line (rootPath : String) (found : String × Int) (file : String) (line : Int)
    (h : locate rootPath found = .ok (file, line)) : line = found.2 := by
  unfold locate at h
  cases hr : Rel rootPath found.1 with
  | error err => simp [hr] at h
  | ok testFile =>
    simp only [hr, Except.ok.injEq, Prod.mk.injEq] at h
    exact h.2.symm

/-! ## Claim on the name `findTest` looks for -/

/-- C14: the name `findTest` compares with the function declarations is the
portion of the test name before its first "/" (the whole name when it has no
"/"): that is what `strings.Split(testName, "/")[0]` is; looking up a name and
looking up its leaf give the same result; when the directory is parsed and some
declaration has the leaf as its name, `findTest` ends with the position of a
declaration whose name is the leaf, and when no declaration has that name it
ends with the empty position; so a line `findTest` returns is the line of a
declaration named as the leaf, or 0 when there is none; and "TestTable/case1"
is looked up as "TestTable", found at line 7 of the sample directory. -/
theorem findTest_compares_leaf_name (testName : String) :
    (Split testName '/').headD "" = leafName testName ∧
    (∀ a b : String, '/' ∉ a.data → leafName (a ++ "/" ++ b) = a ∧ leafName a = a) ∧
    (∀ (fs : FileSystem) (pkg rootPath rootPkg : String),
      findTest fs pkg testName rootPath rootPkg
        = findTest fs pkg (leafName testName) rootPath rootPkg) ∧
    (∀ (fs : FileSystem) (pkg rootPath rootPkg : String) (pkgs : List (List FuncDecl)),
      HasPrefix pkg rootPkg = true →
      fs.Stat (Join [rootPath, FromSlash (TrimPrefix pkg rootPkg)]) = .ok true →
      fs.ParseDir (Join [rootPath, FromSlash (TrimPrefix pkg rootPkg)]) = .ok pkgs →
      ((∃ d ∈ pkgs.flatten, d.Name = leafName testName) →
        ∃ d ∈ pkgs.flatten, d.Name = leafName testName ∧
          findTest fs pkg testName rootPath rootPkg
            = locate rootPath (d.Filename, d.Line)) ∧
      ((∀ d ∈ pkgs.flatten, d.Name ≠ leafName testName) →
        findTest fs pkg testName rootPath rootPkg = locate rootPath ("", 0)) ∧
      (∀ file line, findTest fs pkg testName rootPath rootPkg = .ok (file, line) →
        (∃ d ∈ pkgs.flatten, d.Name = leafName testName ∧ d.Line = line) ∨
        (line = 0 ∧ ∀ d ∈ pkgs.flatten, d.Name ≠ leafName testName))) ∧
    leafName "TestTable/case1" = "TestTable" ∧
    findTest tableFS "example.com/root/pkg" "TestTable/case1" "/root" "example.com/root"
      = .ok ("./pkg/table_test.go", 7) := by
  refine ⟨split_head testName, ?_, ?_, ?_, by decide, rfl⟩
  · intro a b ha
    constructor
    · apply String.ext
      simp only [leafName, String.data_append]
      rw [List.append_assoc, List.singleton_append]
      exact takeWhile_append_sep '/' a.data b.data ha
    · apply String.ext
      simp only [leafName]
      exact takeWhile_no_sep '/' a.data ha
  · intro fs pkg rootPath rootPkg
    unfold findTest
    simp only [split_head, leafName_idem]
  · intro fs pkg rootPath rootPkg pkgs hp hs hd
    have hfind := findTest_eq_locate fs pkg testName rootPath rootPkg pkgs hp hs hd
    have hyes : (∃ d ∈ pkgs.flatten, d.Name = leafName testName) →
        ∃ d ∈ pkgs.flatten, d.Name = leafName testName ∧
          findTest fs pkg testName rootPath rootPkg
            = locate rootPath (d.Filename, d.Line) := by
      intro hex
      obtain ⟨d, hd, hn, hscan⟩ := scanPkgs_match (leafName testName) pkgs ("", 0) rfl hex
      exact ⟨d, hd, hn, by rw [hfind, hscan]⟩
    have hno : (∀ d ∈ pkgs.flatten, d.Name ≠ leafName testName) →
        findTest fs pkg testName rootPath rootPkg = locate rootPath ("", 0) := by
      intro hall
      rw [hfind, scanPkgs_no_match (leafName testName) pkgs ("", 0) hall]
    refine ⟨hyes, hno, ?_⟩
    intro file line hok
    by_cases hex : ∃ d ∈ pkgs.flatten, d.Name = leafName testName
    · obtain ⟨d, hd, hn, hloc⟩ := hyes hex
      rw [hloc] at hok
      exact Or.inl ⟨d, hd, hn, (locate_line rootPath _ file line hok).symm⟩
    · have hall : ∀ d ∈ pkgs.flatten, d.Name ≠ leafName testName := fun d hd hn =>
        hex ⟨d, hd, hn⟩
      rw [hno hall] at hok
      exact Or.inr ⟨locate_line rootPath _ file line hok, hall⟩

/-- Witness of C14: the subtest `TestFoo/sub` in the sample file system, whose
one declaration is named `TestFoo`. -/
theorem findTest_compares_leaf_name_witness :
    HasPrefix "example.com/root/pkg" "example.com/root" = true ∧
    sampleFS.Stat (Join ["/root", FromSlash (TrimPrefix "example.com/root/pkg"
      "example.com/root")]) = .ok true ∧
    sampleFS.ParseDir (Join ["/root", FromSlash (TrimPrefix "example.com/root/pkg"
      "example.com/root")]) = .ok [[⟨"TestFoo", "/root/pkg/foo_test.go", 10⟩]] ∧
    leafName "TestFoo/sub" = "TestFoo" ∧
    (∃ d ∈ [[(⟨"TestFoo", "/root/pkg/foo_test.go", 10⟩ : FuncDecl)]].flatten,
      d.Name = leafName "TestFoo/sub") ∧
    findTest sampleFS "example.com/root/pkg" "TestFoo/sub" "/root" "example.com/root"
      = .ok ("./pkg/foo_test.go", 10) ∧
    ∃ d ∈ [[(⟨"TestFoo", "/root/pkg/foo_test.go", 10⟩ : FuncDecl)]].flatten,
      d.Name = leafName "TestFoo/sub" ∧
      findTest sampleFS "example.com/root/pkg" "TestFoo/sub" "/root" "example.com/root"
        = locate "/root" (d.Filename, d.Line) :=
  ⟨by decide, rfl, rfl, by decide, ⟨⟨"TestFoo", "/root/pkg/foo_test.go", 10⟩, by decide, by decide⟩,
    rfl,
    ((findTest_compares_leaf_name "TestFoo/sub").2.2.2.1 sampleFS "example.com/root/pkg"
      "/root" "example.com/root" [[⟨"TestFoo", "/root/pkg/foo_test.go", 10⟩]]
      (by decide) rfl rfl).1
      ⟨⟨"TestFoo", "/root/pkg/foo_test.go", 10⟩, by decide, by decide⟩⟩

end Testoutput
